import Mathlib

/-!
# The table-driven scanner of `clox/scanner_table.cpp`

A shallow embedding of `TableDrivenScanner`: the token, state and character
class enumerations, the keyword table, the transition table as it is built by
the constructor and `initializeTransitionTable`, the accepting-state map, the
character classifier, and the scan driver (`scanToken`, `scanTokens`); and of
the hand-written `Scanner` of `clox/scanner.cpp` (the definitions `Hand.*`).

Conventions.
* A source buffer (`std::string`) is a `List Char`; a byte is a `Char` whose
  code is below 256.  Lexemes are `List Char` as well.
* `start`, `current` and `line` are C++ `int`s; they are `Nat` here.  The two
  agree as long as no counter passes `INT_MAX`: `current` never passes the
  length of the buffer and `line` never passes one more than its number of
  newlines, so on a buffer shorter than `INT_MAX` none does
  (`Scanner.Good.fits_int`).  The theorems about the counters themselves carry
  that bound; on a longer buffer the `int`s of the source overflow and the
  model does not describe the program.
* The `std::cerr` stream is the list `errors` of the scanner, one entry per
  line written.
* Loops carry a fuel argument and return `none` when it runs out.
-/

namespace Clox

/-! ## Enumerations -/

/-- Token types, `enum TokenType`. -/
inductive TokenType
  | LEFT_PAREN | RIGHT_PAREN
  | LEFT_BRACE | RIGHT_BRACE
  | COMMA | DOT | SEMICOLON
  | PLUS | MINUS | STAR | SLASH
  | BANG | BANG_EQUAL
  | EQUAL | EQUAL_EQUAL
  | GREATER | GREATER_EQUAL
  | LESS | LESS_EQUAL
  | IDENTIFIER | STRING | NUMBER
  | AND | CLASS | ELSE | FALSE | FUN | FOR | IF | NIL | OR | PRINT
  | PRIVATE | RETURN | SUPER | THIS | TRUE | VAR | WHILE
  | TOKEN_EOF
  | TOKEN_ERROR
  deriving DecidableEq, Repr

/-- States of the automaton, `enum State` (the array bound `NUM_STATES` is not a state). -/
inductive State
  | START
  | IN_LEFT_PAREN | IN_RIGHT_PAREN | IN_LEFT_BRACE | IN_RIGHT_BRACE
  | IN_COMMA | IN_DOT | IN_SEMICOLON | IN_PLUS | IN_MINUS | IN_STAR
  | IN_BANG | IN_BANG_EQUAL
  | IN_EQUAL | IN_EQUAL_EQUAL
  | IN_GREATER | IN_GREATER_EQUAL
  | IN_LESS | IN_LESS_EQUAL
  | IN_SLASH | IN_COMMENT
  | IN_STRING | STRING_END
  | IN_NUMBER | IN_NUMBER_DOT | IN_NUMBER_DECIMAL
  | IN_IDENTIFIER
  | ACCEPT
  | ERROR
  deriving DecidableEq, Repr

/-- Character classes, `enum CharClass` (the array bound `NUM_CHAR_CLASSES` is not a class). -/
inductive CharClass
  | CHAR_LPAREN | CHAR_RPAREN | CHAR_LBRACE | CHAR_RBRACE
  | CHAR_COMMA | CHAR_DOT | CHAR_SEMICOLON
  | CHAR_PLUS | CHAR_MINUS | CHAR_STAR
  | CHAR_BANG | CHAR_EQUAL | CHAR_GREATER | CHAR_LESS
  | CHAR_SLASH | CHAR_QUOTE
  | CHAR_DIGIT | CHAR_ALPHA | CHAR_UNDERSCORE
  | CHAR_NEWLINE | CHAR_WHITESPACE
  | CHAR_OTHER
  deriving DecidableEq, Repr

open TokenType State CharClass

/-- Every character class, in the order of the enumeration: the range of the
loops `for (int i = 0; i < NUM_CHAR_CLASSES; i++)`. -/
def allCharClasses : List CharClass :=
  [CHAR_LPAREN, CHAR_RPAREN, CHAR_LBRACE, CHAR_RBRACE,
   CHAR_COMMA, CHAR_DOT, CHAR_SEMICOLON,
   CHAR_PLUS, CHAR_MINUS, CHAR_STAR,
   CHAR_BANG, CHAR_EQUAL, CHAR_GREATER, CHAR_LESS,
   CHAR_SLASH, CHAR_QUOTE,
   CHAR_DIGIT, CHAR_ALPHA, CHAR_UNDERSCORE,
   CHAR_NEWLINE, CHAR_WHITESPACE,
   CHAR_OTHER]

/-! ## Keywords and tokens -/

/-- The global `keywords` map, as the list of its seventeen entries. -/
def keywords : List (List Char × TokenType) :=
  [("and".toList, AND),
   ("class".toList, CLASS),
   ("else".toList, ELSE),
   ("false".toList, FALSE),
   ("for".toList, FOR),
   ("fun".toList, FUN),
   ("if".toList, IF),
   ("nil".toList, NIL),
   ("or".toList, OR),
   ("print".toList, PRINT),
   ("private".toList, PRIVATE),
   ("return".toList, RETURN),
   ("super".toList, SUPER),
   ("this".toList, THIS),
   ("true".toList, TRUE),
   ("var".toList, VAR),
   ("while".toList, WHILE)]

/-- The lookup `keywords.find(text)`: the entry's token type, or `none` for `keywords.end()`. -/
def findKeyword (text : List Char) : Option TokenType :=
  match keywords.find? (fun kv => decide (kv.1 = text)) with
  | some kv => some kv.2
  | none => none

/-- A token, `class Token`. -/
structure Token where
  type : TokenType
  lexeme : List Char
  line : Nat
  deriving DecidableEq, Repr

/-- One line written to `std::cerr`. -/
inductive Diagnostic
  /-- `[Line <line>] Error: Unexpected character '<c>'.` -/
  | unexpectedCharacter (line : Nat) (c : Char)
  /-- `[Line <line>] Error: Unterminated string.` -/
  | unterminatedString (line : Nat)
  deriving DecidableEq, Repr

/-! ## Transition table and accepting states -/

/-- The array `transitionTable[NUM_STATES][NUM_CHAR_CLASSES]`. -/
abbrev Table := State → CharClass → State

/-- The assignment `table[s][c] = v`. -/
def Table.set (t : Table) (s : State) (c : CharClass) (v : State) : Table :=
  fun s' c' => if s' = s ∧ c' = c then v else t s' c'

/-- The body of `initializeTransitionTable`, assignment by assignment. -/
def initializeTransitionTable (t : Table) : Table :=
  -- Single character tokens
  let t := t.set START CHAR_LPAREN IN_LEFT_PAREN
  let t := t.set START CHAR_RPAREN IN_RIGHT_PAREN
  let t := t.set START CHAR_LBRACE IN_LEFT_BRACE
  let t := t.set START CHAR_RBRACE IN_RIGHT_BRACE
  let t := t.set START CHAR_COMMA IN_COMMA
  let t := t.set START CHAR_SEMICOLON IN_SEMICOLON
  let t := t.set START CHAR_PLUS IN_PLUS
  let t := t.set START CHAR_MINUS IN_MINUS
  let t := t.set START CHAR_STAR IN_STAR
  -- Two character tokens
  let t := t.set START CHAR_BANG IN_BANG
  let t := t.set IN_BANG CHAR_EQUAL IN_BANG_EQUAL
  let t := t.set START CHAR_EQUAL IN_EQUAL
  let t := t.set IN_EQUAL CHAR_EQUAL IN_EQUAL_EQUAL
  let t := t.set START CHAR_GREATER IN_GREATER
  let t := t.set IN_GREATER CHAR_EQUAL IN_GREATER_EQUAL
  let t := t.set START CHAR_LESS IN_LESS
  let t := t.set IN_LESS CHAR_EQUAL IN_LESS_EQUAL
  -- Slash and comments
  let t := t.set START CHAR_SLASH IN_SLASH
  let t := t.set IN_SLASH CHAR_SLASH IN_COMMENT
  let t := allCharClasses.foldl
    (fun t i => if i ≠ CHAR_NEWLINE then t.set IN_COMMENT i IN_COMMENT else t) t
  -- Strings
  let t := t.set START CHAR_QUOTE IN_STRING
  let t := allCharClasses.foldl
    (fun t i => if i ≠ CHAR_QUOTE then t.set IN_STRING i IN_STRING else t) t
  let t := t.set IN_STRING CHAR_QUOTE STRING_END
  -- Numbers
  let t := t.set START CHAR_DIGIT IN_NUMBER
  let t := t.set IN_NUMBER CHAR_DIGIT IN_NUMBER
  let t := t.set IN_NUMBER CHAR_DOT IN_NUMBER_DOT
  let t := t.set IN_NUMBER_DOT CHAR_DIGIT IN_NUMBER_DECIMAL
  let t := t.set IN_NUMBER_DECIMAL CHAR_DIGIT IN_NUMBER_DECIMAL
  -- Identifiers
  let t := t.set START CHAR_ALPHA IN_IDENTIFIER
  let t := t.set START CHAR_UNDERSCORE IN_IDENTIFIER
  let t := t.set IN_IDENTIFIER CHAR_ALPHA IN_IDENTIFIER
  let t := t.set IN_IDENTIFIER CHAR_DIGIT IN_IDENTIFIER
  let t := t.set IN_IDENTIFIER CHAR_UNDERSCORE IN_IDENTIFIER
  -- Whitespace
  let t := t.set START CHAR_WHITESPACE START
  let t := t.set START CHAR_NEWLINE START
  t

/-- The table after the constructor: every cell set to `ERROR`, then
`initializeTransitionTable`. -/
def transitionTable : Table :=
  initializeTransitionTable (fun _ _ => ERROR)

/-- The map `acceptingStates` after `initializeAcceptingStates`, as the list of its entries. -/
def acceptingStates : List (State × TokenType) :=
  [(IN_LEFT_PAREN, LEFT_PAREN),
   (IN_RIGHT_PAREN, RIGHT_PAREN),
   (IN_LEFT_BRACE, LEFT_BRACE),
   (IN_RIGHT_BRACE, RIGHT_BRACE),
   (IN_COMMA, COMMA),
   (IN_DOT, DOT),
   (IN_SEMICOLON, SEMICOLON),
   (IN_PLUS, PLUS),
   (IN_MINUS, MINUS),
   (IN_STAR, STAR),
   (IN_BANG, BANG),
   (IN_BANG_EQUAL, BANG_EQUAL),
   (IN_EQUAL, EQUAL),
   (IN_EQUAL_EQUAL, EQUAL_EQUAL),
   (IN_GREATER, GREATER),
   (IN_GREATER_EQUAL, GREATER_EQUAL),
   (IN_LESS, LESS),
   (IN_LESS_EQUAL, LESS_EQUAL),
   (IN_SLASH, SLASH),
   (STRING_END, STRING),
   (IN_NUMBER, NUMBER),
   (IN_NUMBER_DECIMAL, NUMBER),
   (IN_IDENTIFIER, IDENTIFIER)]

/-- The lookup `acceptingStates.find(state)`: the token type of an accepting
state, or `none` for `acceptingStates.end()`. -/
def findAccepting (state : State) : Option TokenType :=
  match acceptingStates.find? (fun kv => decide (kv.1 = state)) with
  | some kv => some kv.2
  | none => none

/-! ## Character classifier -/

/-- The C library `isdigit` in the "C" locale. -/
def isdigit (c : Char) : Bool :=
  decide ('0'.toNat ≤ c.toNat ∧ c.toNat ≤ '9'.toNat)

/-- The C library `isalpha` in the "C" locale. -/
def isalpha (c : Char) : Bool :=
  decide (('A'.toNat ≤ c.toNat ∧ c.toNat ≤ 'Z'.toNat) ∨ ('a'.toNat ≤ c.toNat ∧ c.toNat ≤ 'z'.toNat))

/-- The classifier `getCharClass`. -/
def getCharClass (c : Char) : CharClass :=
  if c = '(' then CHAR_LPAREN
  else if c = ')' then CHAR_RPAREN
  else if c = '{' then CHAR_LBRACE
  else if c = '}' then CHAR_RBRACE
  else if c = ',' then CHAR_COMMA
  else if c = '.' then CHAR_DOT
  else if c = ';' then CHAR_SEMICOLON
  else if c = '+' then CHAR_PLUS
  else if c = '-' then CHAR_MINUS
  else if c = '*' then CHAR_STAR
  else if c = '!' then CHAR_BANG
  else if c = '=' then CHAR_EQUAL
  else if c = '>' then CHAR_GREATER
  else if c = '<' then CHAR_LESS
  else if c = '/' then CHAR_SLASH
  else if c = '"' then CHAR_QUOTE
  else if c = '\n' then CHAR_NEWLINE
  else if c = ' ' ∨ c = '\r' ∨ c = '\t' then CHAR_WHITESPACE
  else if isdigit c then CHAR_DIGIT
  else if isalpha c then CHAR_ALPHA
  else if c = '_' then CHAR_UNDERSCORE
  else CHAR_OTHER

/-! ## Scanner state and helpers -/

/-- The largest value of a C++ `int` (32 bits). -/
def INT_MAX : Nat := 2147483647

/-- The mutable fields of `TableDrivenScanner`, with the error stream.  The
fields `start`, `current` and `line` are `int`s in the source; as natural
numbers they describe it as long as they stay at most `INT_MAX`. -/
structure Scanner where
  source : List Char
  tokens : List Token
  start : Nat
  current : Nat
  line : Nat
  errors : List Diagnostic
  deriving DecidableEq, Repr

/-- The scanner as the constructor leaves it. -/
def Scanner.init (source : List Char) : Scanner :=
  { source := source, tokens := [], start := 0, current := 0, line := 1, errors := [] }

/-- The test `isAtEnd`. -/
def Scanner.isAtEnd (s : Scanner) : Bool :=
  decide (s.current ≥ s.source.length)

/-- The read `peek`. -/
def Scanner.peek (s : Scanner) : Char :=
  if s.isAtEnd then '\x00' else s.source.getD s.current '\x00'

/-- The step `advance` (its result, the character passed, is unused by every caller). -/
def Scanner.advance (s : Scanner) : Scanner :=
  { s with current := s.current + 1 }

/-- The call `str.substr(pos, len)` for `pos` within the string (the scanner
only calls it with `pos` at most `current`): the characters from `pos` on, at
most `len` of them. -/
def substr (str : List Char) (pos len : Nat) : List Char :=
  (str.drop pos).take len

/-- The one-argument `addToken(type)`: the lexeme is `source[start, current)`. -/
def Scanner.addToken (s : Scanner) (type : TokenType) : Scanner :=
  { s with tokens := s.tokens ++ [⟨type, substr s.source s.start (s.current - s.start), s.line⟩] }

/-- The two-argument `addToken(type, literal)`. -/
def Scanner.addTokenLiteral (s : Scanner) (type : TokenType) (literal : List Char) : Scanner :=
  { s with tokens := s.tokens ++ [⟨type, literal, s.line⟩] }

/-- The keyword resolution shared by both identifier branches of `scanToken`:
`IDENTIFIER` unless `text` is a key of `keywords`. -/
def identifierType (text : List Char) : TokenType :=
  match findKeyword text with
  | some type => type
  | none => IDENTIFIER

/-! ## Scan driver -/

/-- The branch `if (nextState == ERROR) { ... return; }` of the loop of
`scanToken`, entered in state `state` with the character `c` of class
`charClass` under the cursor.  (`STRING_END` is reached after two quotes have
been passed, so `current - start - 2` does not go below zero there.) -/
def scanTokenNoTransition (s : Scanner) (state : State) (c : Char) (charClass : CharClass) :
    Scanner :=
  match findAccepting state with
  | some type =>
    if state = STRING_END then
      s.addTokenLiteral STRING (substr s.source (s.start + 1) (s.current - s.start - 2))
    else if state = IN_NUMBER ∨ state = IN_NUMBER_DECIMAL then
      s.addTokenLiteral NUMBER (substr s.source s.start (s.current - s.start))
    else if state = IN_IDENTIFIER then
      s.addToken (identifierType (substr s.source s.start (s.current - s.start)))
    else if state ≠ IN_COMMENT ∧ state ≠ START then
      s.addToken type
    else s
  | none =>
    if state = START ∧ charClass = CHAR_OTHER then
      Scanner.advance { s with errors := s.errors ++ [Diagnostic.unexpectedCharacter s.line c] }
    else s

/-- The code of `scanToken` after its loop ("End of input - check if in accepting state"). -/
def scanTokenAfterLoop (s : Scanner) (state : State) : Scanner :=
  match findAccepting state with
  | some type =>
    if state = IN_IDENTIFIER then
      s.addToken (identifierType (substr s.source s.start (s.current - s.start)))
    else if state = IN_NUMBER ∨ state = IN_NUMBER_DECIMAL then
      s.addTokenLiteral NUMBER (substr s.source s.start (s.current - s.start))
    else if state = IN_STRING then
      { s with errors := s.errors ++ [Diagnostic.unterminatedString s.line] }
    else if state ≠ IN_COMMENT ∧ state ≠ START then
      s.addToken type
    else s
  | none => s

/-- The loop `while (!isAtEnd() && state != ERROR)` of `scanToken` followed by
the code after it, with the three locals `state`, `lastAcceptingState` and
`lastAcceptingPos` as arguments.  One unit of fuel is spent per test of the
loop condition. -/
def scanLoop : Nat → Scanner → State → State → Nat → Option Scanner
  | 0, _, _, _, _ => none
  | fuel + 1, s, state, lastAcceptingState, lastAcceptingPos =>
    if s.isAtEnd = false ∧ state ≠ ERROR then
      let c := s.peek
      let charClass := getCharClass c
      let nextState := transitionTable state charClass
      if nextState = ERROR then
        some (scanTokenNoTransition s state c charClass)
      else
        let s := if c = '\n' then { s with line := s.line + 1 } else s
        if c = '\n' ∧ state ≠ IN_STRING ∧ state = IN_COMMENT then
          some { s with current := s.current + 1 }
        else
          let s := s.advance
          let state := nextState
          if (findAccepting state).isSome then
            scanLoop fuel s state state s.current
          else
            scanLoop fuel s state lastAcceptingState lastAcceptingPos
    else
      some (scanTokenAfterLoop s state)

/-- The method `scanToken`.  The loop tests its condition at most once per
unread character and once more, which is the fuel given. -/
def scanToken (s : Scanner) : Option Scanner :=
  scanLoop (s.source.length - s.current + 1) s START ERROR s.start

/-- The loop `while (!isAtEnd()) { start = current; scanToken(); }` of
`scanTokens`; one unit of fuel is spent per call of `scanToken`. -/
def scanTokensLoop : Nat → Scanner → Option Scanner
  | 0, s => if s.isAtEnd then some s else none
  | fuel + 1, s =>
    if s.isAtEnd then some s
    else
      match scanToken { s with start := s.current } with
      | some s' => scanTokensLoop fuel s'
      | none => none

/-- The scanner state when `scanTokens` returns: the loop, then the push of the
`TOKEN_EOF` token. -/
def scanTokensRun (fuel : Nat) (source : List Char) : Option Scanner :=
  match scanTokensLoop fuel (Scanner.init source) with
  | some s => some { s with tokens := s.tokens ++ [⟨TOKEN_EOF, [], s.line⟩] }
  | none => none

/-- The method `scanTokens` on a fresh scanner for `source`: the returned token
vector, or `none` when `fuel` calls of `scanToken` do not reach the end of input. -/
def scanTokens (fuel : Nat) (source : List Char) : Option (List Token) :=
  (scanTokensRun fuel source).map Scanner.tokens

/-- What `scanTokens` has written to `std::cerr` when it returns. -/
def scanErrors (fuel : Nat) (source : List Char) : Option (List Diagnostic) :=
  (scanTokensRun fuel source).map Scanner.errors

/-! ## The hand-written scanner of `clox/scanner.cpp`

The class `Scanner` of `scanner.cpp` has the fields of `TableDrivenScanner`
and the same `isAtEnd`, `peek`, `advance` and `addToken`; its token types are
those above without `TOKEN_ERROR`, and its `keywords` map is the same.  Its
other methods are the definitions `Hand.*` below, on the same `Scanner` record.
The loops carry fuel, one unit per test of the loop condition. -/

/-- The method `Scanner::isDigit`. -/
def Hand.isDigit (c : Char) : Bool :=
  decide (c.toNat ≥ '0'.toNat ∧ c.toNat ≤ '9'.toNat)

/-- The method `Scanner::isAlpha`. -/
def Hand.isAlpha (c : Char) : Bool :=
  decide ((c.toNat ≥ 'a'.toNat ∧ c.toNat ≤ 'z'.toNat) ∨
    (c.toNat ≥ 'A'.toNat ∧ c.toNat ≤ 'Z'.toNat) ∨ c = '_')

/-- The method `Scanner::isAlphaNumeric`. -/
def Hand.isAlphaNumeric (c : Char) : Bool :=
  Hand.isAlpha c || Hand.isDigit c

/-- The method `Scanner::peekNext`. -/
def Hand.peekNext (s : Scanner) : Char :=
  if s.current + 1 ≥ s.source.length then '\x00' else s.source.getD (s.current + 1) '\x00'

/-- The method `Scanner::match`: its result and the scanner after the call. -/
def Hand.matchChar (s : Scanner) (expected : Char) : Bool × Scanner :=
  if s.isAtEnd then (false, s)
  else if s.source.getD s.current '\x00' ≠ expected then (false, s)
  else (true, { s with current := s.current + 1 })

/-- A loop `while (cond) body;` of the hand-written scanner. -/
def Hand.whileLoop (cond : Scanner → Bool) (body : Scanner → Scanner) :
    Nat → Scanner → Option Scanner
  | 0, _ => none
  | fuel + 1, s => if cond s then Hand.whileLoop cond body fuel (body s) else some s

/-- The fuel given to a loop of the hand-written scanner: every loop passes one
character per turn, so it tests its condition at most once per unread
character and once more. -/
def Hand.loopFuel (s : Scanner) : Nat :=
  s.source.length - s.current + 1

/-- The method `Scanner::string`. -/
def Hand.string (s : Scanner) : Option Scanner :=
  match Hand.whileLoop (fun s => s.peek ≠ '"' && !s.isAtEnd)
      (fun s => Scanner.advance (if s.peek = '\n' then { s with line := s.line + 1 } else s))
      (Hand.loopFuel s) s with
  | none => none
  | some s =>
    if s.isAtEnd then
      some { s with errors := s.errors ++ [Diagnostic.unterminatedString s.line] }
    else
      -- The closing quote.
      let s := s.advance
      -- Trim the surrounding quotes.
      some (s.addTokenLiteral STRING (substr s.source (s.start + 1) (s.current - s.start - 2)))

/-- The method `Scanner::number`. -/
def Hand.number (s : Scanner) : Option Scanner :=
  match Hand.whileLoop (fun s => Hand.isDigit s.peek) Scanner.advance (Hand.loopFuel s) s with
  | none => none
  | some s =>
    -- Look for a fractional part.
    match (if s.peek = '.' ∧ Hand.isDigit (Hand.peekNext s) = true then
        Hand.whileLoop (fun s => Hand.isDigit s.peek) Scanner.advance (Hand.loopFuel s.advance)
          s.advance
      else some s) with
    | none => none
    | some s => some (s.addTokenLiteral NUMBER (substr s.source s.start (s.current - s.start)))

/-- The method `Scanner::identifier`. -/
def Hand.identifier (s : Scanner) : Option Scanner :=
  match Hand.whileLoop (fun s => Hand.isAlphaNumeric s.peek) Scanner.advance (Hand.loopFuel s)
      s with
  | none => none
  | some s => some (s.addToken (identifierType (substr s.source s.start (s.current - s.start))))

/-- The method `Scanner::scanToken`; `c` is the character that `advance` returns. -/
def Hand.scanToken (s : Scanner) : Option Scanner :=
  let c := s.source.getD s.current '\x00'
  let s := s.advance
  if c = '(' then some (s.addToken LEFT_PAREN)
  else if c = ')' then some (s.addToken RIGHT_PAREN)
  else if c = '{' then some (s.addToken LEFT_BRACE)
  else if c = '}' then some (s.addToken RIGHT_BRACE)
  else if c = ',' then some (s.addToken COMMA)
  else if c = '.' then some (s.addToken DOT)
  else if c = '-' then some (s.addToken MINUS)
  else if c = '+' then some (s.addToken PLUS)
  else if c = ';' then some (s.addToken SEMICOLON)
  else if c = '*' then some (s.addToken STAR)
  else if c = '!' then
    some ((Hand.matchChar s '=').2.addToken (if (Hand.matchChar s '=').1 then BANG_EQUAL else BANG))
  else if c = '=' then
    some ((Hand.matchChar s '=').2.addToken (if (Hand.matchChar s '=').1 then EQUAL_EQUAL else EQUAL))
  else if c = '>' then
    some ((Hand.matchChar s '=').2.addToken
      (if (Hand.matchChar s '=').1 then GREATER_EQUAL else GREATER))
  else if c = '<' then
    some ((Hand.matchChar s '=').2.addToken (if (Hand.matchChar s '=').1 then LESS_EQUAL else LESS))
  else if c = '/' then
    if (Hand.matchChar s '/').1 then
      Hand.whileLoop (fun s => s.peek ≠ '\n' && !s.isAtEnd) Scanner.advance
        (Hand.loopFuel (Hand.matchChar s '/').2) (Hand.matchChar s '/').2
    else some ((Hand.matchChar s '/').2.addToken SLASH)
  else if c = ' ' ∨ c = '\r' ∨ c = '\t' then some s
  else if c = '\n' then some { s with line := s.line + 1 }
  else if c = '"' then Hand.string s
  else if Hand.isDigit c then Hand.number s
  else if Hand.isAlpha c then Hand.identifier s
  else some { s with errors := s.errors ++ [Diagnostic.unexpectedCharacter s.line c] }

/-- The loop of `Scanner::scanTokens`; one unit of fuel is spent per call of
`scanToken`. -/
def Hand.scanTokensLoop : Nat → Scanner → Option Scanner
  | 0, s => if s.isAtEnd then some s else none
  | fuel + 1, s =>
    if s.isAtEnd then some s
    else
      match Hand.scanToken { s with start := s.current } with
      | some s' => Hand.scanTokensLoop fuel s'
      | none => none

/-- The scanner state when `Scanner::scanTokens` returns. -/
def Hand.scanTokensRun (fuel : Nat) (source : List Char) : Option Scanner :=
  match Hand.scanTokensLoop fuel (Scanner.init source) with
  | some s => some { s with tokens := s.tokens ++ [⟨TOKEN_EOF, [], s.line⟩] }
  | none => none

/-- The method `Scanner::scanTokens` on a fresh scanner for `source`. -/
def Hand.scanTokens (fuel : Nat) (source : List Char) : Option (List Token) :=
  (Hand.scanTokensRun fuel source).map Scanner.tokens

/-- What `Scanner::scanTokens` has written to `std::cerr` when it returns. -/
def Hand.scanErrors (fuel : Nat) (source : List Char) : Option (List Diagnostic) :=
  (Hand.scanTokensRun fuel source).map Scanner.errors

/-- The numerals of a list joined by single spaces. -/
def joinWithSpaces : List (List Char) → List Char
  | [] => []
  | [a] => a
  | a :: b :: rest => a ++ ' ' :: joinWithSpaces (b :: rest)

/-! ## Vocabulary of the statements -/

/-- The scanner `s` has read `pre`, and `post` is what is left of its source. -/
def Scanner.At (s : Scanner) (pre post : List Char) : Prop :=
  s.source = pre ++ post ∧ s.current = pre.length

/-- The scanner after `n` characters holding `k` newlines have been passed. -/
def Scanner.skip (s : Scanner) (n k : Nat) : Scanner :=
  { s with current := s.current + n, line := s.line + k }

/-- The state the automaton reaches from `state` along `cs`, or `none` when a
transition is missing on the way. -/
def walk : State → List Char → Option State
  | state, [] => some state
  | state, c :: cs =>
    if transitionTable state (getCharClass c) = ERROR then none
    else walk (transitionTable state (getCharClass c)) cs

/-- A non-empty string of decimal digits. -/
abbrev Digits (d : List Char) : Prop :=
  d ≠ [] ∧ ∀ c ∈ d, isdigit c = true

/-- The heads of the one-or-two-character operators, each with the token type
of the head alone and the token type of the head followed by `=`. -/
def operatorHeads : List (Char × TokenType × TokenType) :=
  [('!', BANG, BANG_EQUAL), ('=', EQUAL, EQUAL_EQUAL),
   ('<', LESS, LESS_EQUAL), ('>', GREATER, GREATER_EQUAL)]

/-- A numeral: a non-empty string of digits, or two of them joined by a dot. -/
abbrev Numeral (a : List Char) : Prop :=
  Digits a ∨ ∃ d e, Digits d ∧ Digits e ∧ a = d ++ '.' :: e

/-- The single-character punctuation marks for which `initializeTransitionTable`
sets a transition from `START`, each with its token type. -/
def marksWithTransition : List (Char × TokenType) :=
  [('(', LEFT_PAREN), (')', RIGHT_PAREN), ('{', LEFT_BRACE), ('}', RIGHT_BRACE),
   (',', COMMA), (';', SEMICOLON), ('+', PLUS), ('-', MINUS), ('*', STAR)]

/-- The classes that the specification names one by one, each with the
characters it holds: a punctuation mark, operator head, slash, quote or newline
for its own class, the decimal digits, the ASCII letters, the underscore, and
space, tab and carriage return.  The catch-all class is not named. -/
def inNamedClass : CharClass → Char → Prop
  | CHAR_LPAREN, c => c = '('
  | CHAR_RPAREN, c => c = ')'
  | CHAR_LBRACE, c => c = '{'
  | CHAR_RBRACE, c => c = '}'
  | CHAR_COMMA, c => c = ','
  | CHAR_DOT, c => c = '.'
  | CHAR_SEMICOLON, c => c = ';'
  | CHAR_PLUS, c => c = '+'
  | CHAR_MINUS, c => c = '-'
  | CHAR_STAR, c => c = '*'
  | CHAR_BANG, c => c = '!'
  | CHAR_EQUAL, c => c = '='
  | CHAR_GREATER, c => c = '>'
  | CHAR_LESS, c => c = '<'
  | CHAR_SLASH, c => c = '/'
  | CHAR_QUOTE, c => c = '"'
  | CHAR_DIGIT, c => '0'.toNat ≤ c.toNat ∧ c.toNat ≤ '9'.toNat
  | CHAR_ALPHA, c =>
    ('A'.toNat ≤ c.toNat ∧ c.toNat ≤ 'Z'.toNat) ∨ ('a'.toNat ≤ c.toNat ∧ c.toNat ≤ 'z'.toNat)
  | CHAR_UNDERSCORE, c => c = '_'
  | CHAR_NEWLINE, c => c = '\n'
  | CHAR_WHITESPACE, c => c = ' ' ∨ c = '\t' ∨ c = '\r'
  | CHAR_OTHER, _ => False

/-- The partition of the specification: a character is in a named class when
that class holds it, and in the catch-all class when no named class does. -/
def inClass (cc : CharClass) (c : Char) : Prop :=
  if cc = CHAR_OTHER then ∀ cc', ¬ inNamedClass cc' c else inNamedClass cc c

/-- The scanner `s` moved behind a prefix `pre` of the source that has been
dealt with already, with `errs` written to the error stream before. -/
def Scanner.shift (pre : List Char) (errs : List Diagnostic) (s : Scanner) : Scanner :=
  { source := pre ++ s.source, tokens := s.tokens, start := pre.length + s.start,
    current := pre.length + s.current, line := s.line, errors := errs ++ s.errors }

/-- The 1-based line of the position `pos` of `src`: one more than the number
of newline characters before `pos`. -/
def lineAt (src : List Char) (pos : Nat) : Nat :=
  1 + (src.take pos).count '\n'

/-- The line of the token `t` is the line on which its text starts: the lexeme
stands in `src` at some position `b`, and `t.line` is the line of `b`. -/
def StartsOnLine (src : List Char) (t : Token) : Prop :=
  ∃ b, b + t.lexeme.length ≤ src.length ∧ substr src b t.lexeme.length = t.lexeme ∧
    t.line = lineAt src b

/-- The lexeme of the token `t` is the text of `src` that ends right before the
position `e`, and the line of `t` is the line of `e`, the position just after
the last character of the lexeme. -/
def EndsAt (src : List Char) (t : Token) (e : Nat) : Prop :=
  t.lexeme.length ≤ e ∧ e ≤ src.length ∧
    substr src (e - t.lexeme.length) t.lexeme.length = t.lexeme ∧ t.line = lineAt src e

/-- What holds of a token `t` that was pushed with the cursor at `p`: it is not
a `TOKEN_EOF`, its line is the line of `p`, and its lexeme ends at `p`, or, for
a `STRING` whose quotes were trimmed, one character before `p`, where the
closing quote stands. -/
def PushedAt (src : List Char) (t : Token) (p : Nat) : Prop :=
  t.type ≠ TOKEN_EOF ∧ t.line = lineAt src p ∧
    (EndsAt src t p ∨
      (t.type = STRING ∧ ∃ e, e + 1 = p ∧ src.getD e '\x00' = '"' ∧ EndsAt src t e))

/-- The loop of `scanTokens` once more, as a record of its pushes: every token
that a call of `scanToken` adds to `tokens`, paired with the value of `current`
when that call returns.  In `scanToken` every `addToken` is followed at once by
the return, so this is the value of `current` at the push. -/
def scanTokensPushes : Nat → Scanner → Option (List (Token × Nat))
  | 0, s => if s.isAtEnd then some [] else none
  | fuel + 1, s =>
    if s.isAtEnd then some []
    else
      match scanToken { s with start := s.current } with
      | some s' =>
        (scanTokensPushes fuel s').map
          (fun l => (s'.tokens.drop s.tokens.length).map (fun t => (t, s'.current)) ++ l)
      | none => none

/-- The state of a scanner between two calls of `scanToken` made by
`scanTokens`: the line counter is one more than the number of newlines passed,
and every token pushed so far is not a `TOKEN_EOF`, carries a line between 1
and the line counter, and follows tokens of a smaller or equal line. -/
def Scanner.Good (s : Scanner) : Prop :=
  ∃ pre rest, s.At pre rest ∧ s.line = 1 + pre.count '\n' ∧
    (∀ t ∈ s.tokens, t.type ≠ TOKEN_EOF ∧ 1 ≤ t.line ∧ t.line ≤ s.line) ∧
    s.tokens.Pairwise (fun a b => a.line ≤ b.line)

/-- The scanner `r` comes after `s` on the same source: its cursor is not
before the cursor of `s` and not beyond the end of the source. -/
def Scanner.Within (s r : Scanner) : Prop :=
  r.source = s.source ∧ s.current ≤ r.current ∧ r.current ≤ r.source.length

/-- A call that started with the scanner `s` returns, with a cursor that has
not moved back and is within the source. -/
def Hand.Returns (s : Scanner) (o : Option Scanner) : Prop :=
  ∃ r, o = some r ∧ s.Within r

/-! ## The loop of `scanToken`, step by step -/

/-- The bookmark `lastAcceptingState`, `lastAcceptingPos` is written by the loop
and never read: the outcome of `scanToken` does not depend on it. -/
theorem scanLoop_bookmark (fuel : Nat) (s : Scanner) (state las las' : State) (lap lap' : Nat) :
    scanLoop fuel s state las lap = scanLoop fuel s state las' lap' := by
  induction fuel generalizing s state las las' lap lap' with
  | zero => rfl
  | succ fuel ih =>
    unfold scanLoop
    simp only []
    split_ifs <;> first | rfl | exact ih _ _ _ _ _ _

theorem Scanner.At.isAtEnd_cons {s : Scanner} {pre post : List Char} {c : Char}
    (h : s.At pre (c :: post)) : s.isAtEnd = false := by
  obtain ⟨h1, h2⟩ := h
  simp [Scanner.isAtEnd, h1, h2]

theorem Scanner.At.peek_cons {s : Scanner} {pre post : List Char} {c : Char}
    (h : s.At pre (c :: post)) : s.peek = c := by
  have he := h.isAtEnd_cons
  obtain ⟨h1, h2⟩ := h
  simp only [Scanner.peek, he, h1, h2, List.getD_eq_getElem?_getD, Bool.false_eq_true, if_false]
  rw [List.getElem?_append_right (le_refl _)]
  simp

theorem Scanner.At.isAtEnd_nil {s : Scanner} {pre : List Char}
    (h : s.At pre []) : s.isAtEnd = true := by
  obtain ⟨h1, h2⟩ := h
  simp [Scanner.isAtEnd, h1, h2]

theorem Scanner.At.skip {s : Scanner} {pre block post : List Char}
    (h : s.At pre (block ++ post)) (k : Nat) : (s.skip block.length k).At (pre ++ block) post := by
  obtain ⟨h1, h2⟩ := h
  simp [Scanner.At, Scanner.skip, h1, h2]

theorem transitionTable_comment_newline : transitionTable IN_COMMENT CHAR_NEWLINE = ERROR := by
  decide

theorem getCharClass_newline : getCharClass '\n' = CHAR_NEWLINE := by decide

/-- One turn of the loop that follows a transition of the table. -/
theorem scanLoop_step {s : Scanner} {pre post : List Char} {c : Char}
    (h : s.At pre (c :: post)) {state : State} (hst : state ≠ ERROR)
    (hn : transitionTable state (getCharClass c) ≠ ERROR) (fuel : Nat) (las : State) (lap : Nat) :
    scanLoop (fuel + 1) s state las lap
      = scanLoop fuel (s.skip 1 (if c = '\n' then 1 else 0))
          (transitionTable state (getCharClass c)) las lap := by
  have hcomment : ¬ (c = '\n' ∧ state ≠ IN_STRING ∧ state = IN_COMMENT) := by
    rintro ⟨rfl, -, rfl⟩
    exact hn (by rw [getCharClass_newline, transitionTable_comment_newline])
  rw [scanLoop]
  simp only [h.isAtEnd_cons, h.peek_cons, hst, hn, hcomment, ne_eq, not_false_eq_true, and_self,
    if_true, if_false]
  have hs : Scanner.advance (if c = '\n' then { s with line := s.line + 1 } else s)
      = s.skip 1 (if c = '\n' then 1 else 0) := by
    by_cases hc : c = '\n' <;> simp [hc, Scanner.advance, Scanner.skip]
  rw [hs]
  split_ifs <;> first | rfl | exact scanLoop_bookmark _ _ _ _ _ _ _

/-- The exit of the loop at the end of input. -/
theorem scanLoop_atEnd {s : Scanner} {pre : List Char} (h : s.At pre []) (fuel : Nat)
    (state las : State) (lap : Nat) :
    scanLoop (fuel + 1) s state las lap = some (scanTokenAfterLoop s state) := by
  rw [scanLoop]
  simp [h.isAtEnd_nil]

/-- The exit of the loop where the table has no transition. -/
theorem scanLoop_noTransition {s : Scanner} {pre post : List Char} {c : Char}
    (h : s.At pre (c :: post)) {state : State} (hst : state ≠ ERROR)
    (hn : transitionTable state (getCharClass c) = ERROR) (fuel : Nat) (las : State) (lap : Nat) :
    scanLoop (fuel + 1) s state las lap
      = some (scanTokenNoTransition s state c (getCharClass c)) := by
  rw [scanLoop]
  simp [h.isAtEnd_cons, h.peek_cons, hst, hn]

theorem walk_append (state : State) (as bs : List Char) :
    walk state (as ++ bs) = (walk state as).bind (fun st => walk st bs) := by
  induction as generalizing state with
  | nil => rfl
  | cons a as ih =>
    simp only [List.cons_append, walk]
    split_ifs
    · rfl
    · exact ih _

theorem walk_ne_error {state st : State} {cs : List Char} (hst : state ≠ ERROR)
    (hw : walk state cs = some st) : st ≠ ERROR := by
  induction cs generalizing state with
  | nil => simp only [walk, Option.some.injEq] at hw; exact hw ▸ hst
  | cons c cs ih =>
    simp only [walk] at hw
    split_ifs at hw with h
    exact ih h hw

/-- The loop follows the table along `block`, counting the newlines passed. -/
theorem scanLoop_walk {block : List Char} {s : Scanner} {pre post : List Char}
    (h : s.At pre (block ++ post)) {state st : State} (hst : state ≠ ERROR)
    (hw : walk state block = some st) (fuel : Nat) (las : State) (lap : Nat) :
    scanLoop (block.length + fuel) s state las lap
      = scanLoop fuel (s.skip block.length (block.count '\n')) st las lap := by
  induction block generalizing s pre state with
  | nil =>
    simp only [walk, Option.some.injEq] at hw
    subst hw
    simp [Scanner.skip]
  | cons c cs ih =>
    simp only [walk] at hw
    split_ifs at hw with hn
    have h1 : s.At pre (c :: (cs ++ post)) := h
    have h2 : (s.skip 1 (if c = '\n' then 1 else 0)).At (pre ++ [c]) (cs ++ post) := by
      have := @Scanner.At.skip s pre [c] (cs ++ post) (by simpa using h1)
        (if c = '\n' then 1 else 0)
      simpa using this
    have hlen : (c :: cs).length + fuel = (cs.length + fuel) + 1 := by simp; omega
    rw [hlen, scanLoop_step h1 hst hn, ih h2 hn hw]
    congr 1
    by_cases hc : c = '\n'
    · subst hc; simp [Scanner.skip]; omega
    · have hc' : ¬ ('\n' = c) := fun e => hc e.symm
      simp [Scanner.skip, hc, List.count_cons, hc']; omega

/-- A call of `scanToken` whose walk reaches the end of input. -/
theorem scanToken_walk_atEnd {s : Scanner} {pre block : List Char} (h : s.At pre block)
    {st : State} (hw : walk START block = some st) :
    scanToken s = some (scanTokenAfterLoop (s.skip block.length (block.count '\n')) st) := by
  have h' : s.At pre (block ++ []) := by simpa using h
  have hf : s.source.length - s.current + 1 = block.length + 1 := by
    rw [h.1, h.2]; simp
  rw [scanToken, hf, scanLoop_walk h' (by decide) hw]
  exact scanLoop_atEnd (h'.skip _) _ _ _ _

/-- A call of `scanToken` whose walk stops where the table has no transition. -/
theorem scanToken_walk_noTransition {s : Scanner} {pre block post : List Char} {c : Char}
    (h : s.At pre (block ++ c :: post)) {st : State} (hw : walk START block = some st)
    (hn : transitionTable st (getCharClass c) = ERROR) :
    scanToken s = some (scanTokenNoTransition (s.skip block.length (block.count '\n')) st c
      (getCharClass c)) := by
  have hf : s.source.length - s.current + 1 = block.length + (post.length + 1 + 1) := by
    rw [h.1, h.2]; simp; omega
  rw [scanToken, hf, scanLoop_walk h (by decide) hw]
  exact scanLoop_noTransition (h.skip _) (walk_ne_error (by decide) hw) hn _ _ _

/-! ## The loop of `scanToken` always returns -/

/-- With one unit of fuel more than there are unread characters the loop of
`scanToken` returns. -/
theorem scanLoop_isSome (fuel : Nat) (s : Scanner) (state las : State) (lap : Nat)
    (hf : s.source.length - s.current < fuel) : (scanLoop fuel s state las lap).isSome = true := by
  induction fuel generalizing s state las lap with
  | zero => omega
  | succ fuel ih =>
    unfold scanLoop
    simp only []
    split_ifs with h1 <;>
      first
        | rfl
        | (apply ih
           have hlt : s.current < s.source.length := by simpa [Scanner.isAtEnd] using h1.1
           simp only [Scanner.advance]
           omega)

/-- Every call of `scanToken` returns: the fuel of its loop never runs out. -/
theorem scanToken_isSome (s : Scanner) : (scanToken s).isSome = true :=
  scanLoop_isSome _ s START ERROR s.start (Nat.lt_succ_self _)


/-! ## The loop of `scanTokens` -/

theorem scanTokensLoop_atEnd {s : Scanner} {pre : List Char} (h : s.At pre []) (fuel : Nat) :
    scanTokensLoop fuel s = some s := by
  cases fuel <;> simp [scanTokensLoop, h.isAtEnd_nil]

theorem scanTokensLoop_step {s s' : Scanner} {pre post : List Char} {c : Char}
    (h : s.At pre (c :: post)) (hs : scanToken { s with start := s.current } = some s')
    (fuel : Nat) : scanTokensLoop (fuel + 1) s = scanTokensLoop fuel s' := by
  simp [scanTokensLoop, h.isAtEnd_cons, hs]

theorem scanTokensLoop_step_append {s s' : Scanner} {pre post : List Char}
    (h : s.At pre post) (hne : post ≠ []) (hs : scanToken { s with start := s.current } = some s')
    (fuel : Nat) : scanTokensLoop (fuel + 1) s = scanTokensLoop fuel s' := by
  obtain ⟨c, cs, rfl⟩ := List.exists_cons_of_ne_nil hne
  exact scanTokensLoop_step h hs fuel

/-- More fuel does not change a result of the loop of `scanTokens`. -/
theorem scanTokensLoop_mono {fuel : Nat} {s r : Scanner} (h : scanTokensLoop fuel s = some r)
    (k : Nat) : scanTokensLoop (fuel + k) s = some r := by
  induction fuel generalizing s with
  | zero =>
    simp only [scanTokensLoop] at h
    split_ifs at h with he
    cases k <;> simp [scanTokensLoop, he, h]
  | succ fuel ih =>
    rw [Nat.add_right_comm]
    simp only [scanTokensLoop] at h ⊢
    split_ifs at h ⊢ with he
    · exact h
    · cases hs : scanToken { s with start := s.current } with
      | none => simp [hs] at h
      | some s' =>
        simp only [hs] at h ⊢
        exact ih h

theorem scanTokensRun_mono {fuel : Nat} {source : List Char} {r : Scanner}
    (h : scanTokensRun fuel source = some r) {fuel' : Nat} (hf : fuel ≤ fuel') :
    scanTokensRun fuel' source = some r := by
  obtain ⟨k, rfl⟩ := Nat.exists_eq_add_of_le hf
  unfold scanTokensRun at h ⊢
  cases hl : scanTokensLoop fuel (Scanner.init source) with
  | none => simp [hl] at h
  | some s => rw [scanTokensLoop_mono hl k]; simpa [hl] using h

theorem scanTokens_mono {fuel : Nat} {source : List Char} {toks : List Token}
    (h : scanTokens fuel source = some toks) {fuel' : Nat} (hf : fuel ≤ fuel') :
    scanTokens fuel' source = some toks := by
  unfold scanTokens at h ⊢
  cases hr : scanTokensRun fuel source with
  | none => simp [hr] at h
  | some r => rw [scanTokensRun_mono hr hf]; simpa [hr] using h

theorem scanErrors_mono {fuel : Nat} {source : List Char} {errs : List Diagnostic}
    (h : scanErrors fuel source = some errs) {fuel' : Nat} (hf : fuel ≤ fuel') :
    scanErrors fuel' source = some errs := by
  unfold scanErrors at h ⊢
  cases hr : scanTokensRun fuel source with
  | none => simp [hr] at h
  | some r => rw [scanTokensRun_mono hr hf]; simpa [hr] using h

theorem Scanner.init_at (source : List Char) : (Scanner.init source).At [] source :=
  ⟨rfl, rfl⟩

theorem Scanner.skip_zero (s : Scanner) : s.skip 0 0 = s := rfl

/-! ## A dot under the cursor in the start state -/

theorem transitionTable_start_dot : transitionTable START (getCharClass '.') = ERROR := by
  decide

/-- With a dot under the cursor, `scanToken` returns without moving the cursor. -/
theorem scanToken_dot {s : Scanner} {pre post : List Char} (h : s.At pre ('.' :: post)) :
    scanToken s = some s := by
  have h' : s.At pre ([] ++ '.' :: post) := h
  rw [scanToken_walk_noTransition h' rfl transitionTable_start_dot]
  rfl

/-- With a dot under the cursor, the loop of `scanTokens` never ends. -/
theorem scanTokensLoop_dot (fuel : Nat) {s : Scanner} {pre post : List Char}
    (h : s.At pre ('.' :: post)) : scanTokensLoop fuel s = none := by
  induction fuel generalizing s with
  | zero => simp [scanTokensLoop, h.isAtEnd_cons]
  | succ fuel ih =>
    have h' : ({ s with start := s.current } : Scanner).At pre ('.' :: post) := h
    rw [scanTokensLoop_step h (scanToken_dot h')]
    exact ih h'

/-- C1 (the code does not have the property): on a buffer that begins with a
dot, the first call of `scanToken` is made with `current < source.length` and
returns with `current` unchanged, and `scanTokens` does not return, whatever
the number of calls of `scanToken` allowed. -/
theorem scanTokens_dot_diverges (rest : List Char) :
    (Scanner.init ('.' :: rest)).current < (Scanner.init ('.' :: rest)).source.length ∧
    scanToken (Scanner.init ('.' :: rest)) = some (Scanner.init ('.' :: rest)) ∧
    ∀ fuel, scanTokens fuel ('.' :: rest) = none := by
  refine ⟨by simp [Scanner.init], scanToken_dot (Scanner.init_at _), fun fuel => ?_⟩
  simp [scanTokens, scanTokensRun, scanTokensLoop_dot fuel (Scanner.init_at ('.' :: rest))]

/-- C2 (the code does not have the property for the mark `.`): on a run of one
or more dots `scanTokens` does not return, so it returns no token sequence at all. -/
theorem scanTokens_dot_run_diverges (n fuel : Nat) :
    scanTokens fuel (List.replicate (n + 1) '.') = none := by
  have h : (Scanner.init (List.replicate (n + 1) '.')).At [] ('.' :: List.replicate n '.') :=
    Scanner.init_at _
  simp [scanTokens, scanTokensRun, scanTokensLoop_dot fuel h]

/-! ## Facts about the classifier and the table -/

theorem isdigit_bounds {c : Char} (h : isdigit c = true) : 48 ≤ c.toNat ∧ c.toNat ≤ 57 := by
  simpa [isdigit] using h

theorem getCharClass_of_isdigit {c : Char} (h : isdigit c = true) :
    getCharClass c = CHAR_DIGIT := by
  have hb := isdigit_bounds h
  have ne : ∀ d : Char, (d.toNat < 48 ∨ 57 < d.toNat) → c ≠ d := by
    rintro d hd rfl
    omega
  simp [getCharClass, h, ne '(' (by decide), ne ')' (by decide), ne '{' (by decide),
    ne '}' (by decide), ne ',' (by decide), ne '.' (by decide), ne ';' (by decide),
    ne '+' (by decide), ne '-' (by decide), ne '*' (by decide), ne '!' (by decide),
    ne '=' (by decide), ne '>' (by decide), ne '<' (by decide), ne '/' (by decide),
    ne '"' (by decide), ne '\n' (by decide), ne ' ' (by decide), ne '\r' (by decide),
    ne '\t' (by decide)]

theorem isalpha_bounds {c : Char} (h : isalpha c = true) :
    (65 ≤ c.toNat ∧ c.toNat ≤ 90) ∨ (97 ≤ c.toNat ∧ c.toNat ≤ 122) := by
  simpa [isalpha] using h

theorem getCharClass_of_isalpha {c : Char} (h : isalpha c = true) :
    getCharClass c = CHAR_ALPHA := by
  have hb := isalpha_bounds h
  have ne : ∀ d : Char, (d.toNat < 65 ∨ (90 < d.toNat ∧ d.toNat < 97) ∨ 122 < d.toNat) → c ≠ d := by
    rintro d hd rfl
    omega
  have hd : isdigit c = false := by
    simp only [isdigit, decide_eq_false_iff_not, not_and, not_le]
    intro
    have : '9'.toNat = 57 := by decide
    omega
  simp [getCharClass, h, hd, ne '(' (by decide), ne ')' (by decide), ne '{' (by decide),
    ne '}' (by decide), ne ',' (by decide), ne '.' (by decide), ne ';' (by decide),
    ne '+' (by decide), ne '-' (by decide), ne '*' (by decide), ne '!' (by decide),
    ne '=' (by decide), ne '>' (by decide), ne '<' (by decide), ne '/' (by decide),
    ne '"' (by decide), ne '\n' (by decide), ne ' ' (by decide), ne '\r' (by decide),
    ne '\t' (by decide)]

theorem getCharClass_underscore : getCharClass '_' = CHAR_UNDERSCORE := by decide

theorem ite_eq_imp {α : Type} {p : Prop} [Decidable p] {a b x : α} {q : Prop}
    (ha : p → a = x → q) (hb : ¬ p → b = x → q) : (if p then a else b) = x → q := by
  by_cases hp : p
  · rw [if_pos hp]; exact ha hp
  · rw [if_neg hp]; exact hb hp

theorem getCharClass_eq_quote {c : Char} (h : getCharClass c = CHAR_QUOTE) : c = '"' := by
  revert h
  unfold getCharClass
  repeat refine ite_eq_imp (fun hp h => by first | (cases h; done) | exact hp) (fun _ => ?_)
  intro h
  cases h

theorem getCharClass_eq_equal {c : Char} (h : getCharClass c = CHAR_EQUAL) : c = '=' := by
  revert h
  unfold getCharClass
  repeat refine ite_eq_imp (fun hp h => by first | (cases h; done) | exact hp) (fun _ => ?_)
  intro h
  cases h

theorem isdigit_ne_newline {c : Char} (h : isdigit c = true) : c ≠ '\n' := by
  rintro rfl
  exact absurd h (by decide)

theorem count_newline_digits {d : List Char} (h : ∀ c ∈ d, isdigit c = true) :
    d.count '\n' = 0 := by
  rw [List.count_eq_zero]
  intro hm
  exact isdigit_ne_newline (h _ hm) rfl

theorem transitionTable_string {cc : CharClass} (h : cc ≠ CHAR_QUOTE) :
    transitionTable IN_STRING cc = IN_STRING := by
  cases cc <;> first | decide | exact absurd rfl h

theorem walk_digits {state : State}
    (hstate : transitionTable state CHAR_DIGIT = state) (hne : state ≠ ERROR)
    {d : List Char} (h : ∀ c ∈ d, isdigit c = true) : walk state d = some state := by
  induction d with
  | nil => rfl
  | cons c cs ih =>
    have hc := getCharClass_of_isdigit (h c (List.mem_cons_self _ _))
    simp only [walk, hc, hstate, hne, if_false]
    exact ih (fun x hx => h x (List.mem_cons_of_mem _ hx))

theorem walk_string {s : List Char} (h : '"' ∉ s) : walk IN_STRING s = some IN_STRING := by
  induction s with
  | nil => rfl
  | cons c cs ih =>
    have hc : getCharClass c ≠ CHAR_QUOTE := fun e =>
      h (getCharClass_eq_quote e ▸ List.mem_cons_self _ _)
    have hn : (IN_STRING : State) ≠ ERROR := by decide
    simp only [walk, transitionTable_string hc, hn, if_false]
    exact ih (fun hm => h (List.mem_cons_of_mem _ hm))

theorem substr_mid (pre mid post : List Char) :
    substr (pre ++ mid ++ post) pre.length mid.length = mid := by
  simp [substr, List.append_assoc]

theorem substr_all (src : List Char) : substr src 0 src.length = src := by
  simp [substr]

/-! ## What the two exits of `scanToken` leave untouched -/

theorem scanTokenAfterLoop_source (s : Scanner) (state : State) :
    (scanTokenAfterLoop s state).source = s.source ∧
    (scanTokenAfterLoop s state).current = s.current ∧
    (scanTokenAfterLoop s state).line = s.line := by
  unfold scanTokenAfterLoop
  split
  · split_ifs <;> simp [Scanner.addToken, Scanner.addTokenLiteral]
  · simp

theorem scanTokenAfterLoop_at {s : Scanner} {pre post : List Char} (h : s.At pre post)
    (state : State) : (scanTokenAfterLoop s state).At pre post := by
  obtain ⟨h1, h2, -⟩ := scanTokenAfterLoop_source s state
  exact ⟨h1.trans h.1, h2.trans h.2⟩

theorem scanTokenAfterLoop_tokens (s : Scanner) (state : State) :
    ∃ l, (scanTokenAfterLoop s state).tokens = s.tokens ++ l := by
  unfold scanTokenAfterLoop
  split
  · split_ifs <;> simp [Scanner.addToken, Scanner.addTokenLiteral]
  · exact ⟨[], by simp⟩

theorem scanTokenNoTransition_tokens (s : Scanner) (state : State) (c : Char) (cc : CharClass) :
    ∃ l, (scanTokenNoTransition s state c cc).tokens = s.tokens ++ l := by
  unfold scanTokenNoTransition
  split
  · split_ifs <;> simp [Scanner.addToken, Scanner.addTokenLiteral]
  · split_ifs <;> simp [Scanner.advance]

/-- The loop of `scanToken` only appends to the token vector. -/
theorem scanLoop_tokens {fuel : Nat} {s r : Scanner} {state las : State} {lap : Nat}
    (h : scanLoop fuel s state las lap = some r) : ∃ l, r.tokens = s.tokens ++ l := by
  induction fuel generalizing s state las lap with
  | zero => simp [scanLoop] at h
  | succ fuel ih =>
    unfold scanLoop at h
    simp only [] at h
    split_ifs at h <;>
      first
        | (cases h
           first
             | exact scanTokenNoTransition_tokens _ _ _ _
             | exact scanTokenAfterLoop_tokens _ _
             | exact ⟨[], by simp⟩)
        | (obtain ⟨l, hl⟩ := ih h
           exact ⟨l, by simpa [Scanner.advance] using hl⟩)

/-- The loop of `scanTokens` only appends to the token vector. -/
theorem scanTokensLoop_tokens {fuel : Nat} {s r : Scanner}
    (h : scanTokensLoop fuel s = some r) : ∃ l, r.tokens = s.tokens ++ l := by
  induction fuel generalizing s with
  | zero =>
    simp only [scanTokensLoop] at h
    split_ifs at h
    cases h; exact ⟨[], by simp⟩
  | succ fuel ih =>
    simp only [scanTokensLoop] at h
    split_ifs at h
    · cases h; exact ⟨[], by simp⟩
    · cases hs : scanToken { s with start := s.current } with
      | none => simp [hs] at h
      | some s' =>
        simp only [hs] at h
        obtain ⟨l1, h1⟩ := scanLoop_tokens hs
        obtain ⟨l2, h2⟩ := ih h
        exact ⟨l1 ++ l2, by rw [h2, h1]; simp⟩

/-! ## Buffers that are scanned by one call of `scanToken` -/

/-- When the automaton walks the whole of a non-empty buffer, `scanTokens` is
one call of `scanToken` that ends in the code after its loop. -/
theorem scanTokensRun_single {src : List Char} {st : State} (hne : src ≠ [])
    (hw : walk START src = some st) {fuel : Nat} (hf : 1 ≤ fuel) :
    scanTokensRun fuel src
      = some
          { scanTokenAfterLoop ((Scanner.init src).skip src.length (src.count '\n')) st with
            tokens := (scanTokenAfterLoop
                ((Scanner.init src).skip src.length (src.count '\n')) st).tokens
              ++ [⟨TOKEN_EOF, [], 1 + src.count '\n'⟩] } := by
  obtain ⟨fuel, rfl⟩ : ∃ k, fuel = k + 1 := ⟨fuel - 1, by omega⟩
  obtain ⟨c, cs, rfl⟩ := List.exists_cons_of_ne_nil hne
  have h0 := Scanner.init_at (c :: cs)
  have hs : scanToken { Scanner.init (c :: cs) with start := (Scanner.init (c :: cs)).current }
      = some (scanTokenAfterLoop
          ((Scanner.init (c :: cs)).skip (c :: cs).length ((c :: cs).count '\n')) st) :=
    scanToken_walk_atEnd h0 hw
  have h1 : ((Scanner.init (c :: cs)).skip (c :: cs).length ((c :: cs).count '\n')).At
      ([] ++ (c :: cs)) [] := Scanner.At.skip (by simpa using h0) _
  have hl := (scanTokenAfterLoop_source
    ((Scanner.init (c :: cs)).skip (c :: cs).length ((c :: cs).count '\n')) st).2.2
  rw [scanTokensRun, scanTokensLoop_step h0 hs, scanTokensLoop_atEnd (scanTokenAfterLoop_at h1 st)]
  simp only [hl]
  rfl

theorem scanTokenAfterLoop_number (s : Scanner) :
    scanTokenAfterLoop s IN_NUMBER
      = s.addTokenLiteral NUMBER (substr s.source s.start (s.current - s.start)) := rfl

theorem scanTokenAfterLoop_number_decimal (s : Scanner) :
    scanTokenAfterLoop s IN_NUMBER_DECIMAL
      = s.addTokenLiteral NUMBER (substr s.source s.start (s.current - s.start)) := rfl

theorem scanTokenAfterLoop_number_dot (s : Scanner) : scanTokenAfterLoop s IN_NUMBER_DOT = s := rfl

theorem scanTokenAfterLoop_in_string (s : Scanner) : scanTokenAfterLoop s IN_STRING = s := rfl

theorem scanTokenAfterLoop_string_end (s : Scanner) :
    scanTokenAfterLoop s STRING_END = s.addToken STRING := rfl

theorem scanTokenAfterLoop_identifier (s : Scanner) :
    scanTokenAfterLoop s IN_IDENTIFIER
      = s.addToken (identifierType (substr s.source s.start (s.current - s.start))) := rfl

theorem walk_start_digits {d : List Char} (hd : Digits d) : walk START d = some IN_NUMBER := by
  obtain ⟨hne, hdig⟩ := hd
  obtain ⟨c, cs, rfl⟩ := List.exists_cons_of_ne_nil hne
  have hc := getCharClass_of_isdigit (hdig c (List.mem_cons_self _ _))
  have h1 : transitionTable START CHAR_DIGIT = IN_NUMBER := by decide
  have h2 : (IN_NUMBER : State) ≠ ERROR := by decide
  simp only [walk, hc, h1, h2, if_false]
  exact walk_digits (by decide) (by decide) (fun x hx => hdig x (List.mem_cons_of_mem _ hx))

theorem walk_number_dot_digits {e : List Char} (he : Digits e) :
    walk IN_NUMBER ('.' :: e) = some IN_NUMBER_DECIMAL := by
  obtain ⟨hne, hdig⟩ := he
  obtain ⟨c, cs, rfl⟩ := List.exists_cons_of_ne_nil hne
  have hc := getCharClass_of_isdigit (hdig c (List.mem_cons_self _ _))
  have h0 : getCharClass '.' = CHAR_DOT := by decide
  have h1 : transitionTable IN_NUMBER CHAR_DOT = IN_NUMBER_DOT := by decide
  have h2 : (IN_NUMBER_DOT : State) ≠ ERROR := by decide
  have h3 : transitionTable IN_NUMBER_DOT CHAR_DIGIT = IN_NUMBER_DECIMAL := by decide
  have h4 : (IN_NUMBER_DECIMAL : State) ≠ ERROR := by decide
  simp only [walk, hc, h0, h1, h2, h3, h4, if_false]
  exact walk_digits (by decide) (by decide) (fun x hx => hdig x (List.mem_cons_of_mem _ hx))

theorem walk_start_decimal {d e : List Char} (hd : Digits d) (he : Digits e) :
    walk START (d ++ '.' :: e) = some IN_NUMBER_DECIMAL := by
  rw [walk_append, walk_start_digits hd]
  exact walk_number_dot_digits he

theorem count_newline_decimal {d e : List Char} (hd : Digits d) (he : Digits e) :
    (d ++ '.' :: e).count '\n' = 0 := by
  rw [List.count_append, List.count_cons, count_newline_digits hd.2, count_newline_digits he.2]
  decide

/-! ## Numbers -/

/-- C4: a non-empty string of digits `d`, and `d.e` for non-empty strings of
digits `d` and `e`, each scanned alone (with fuel for at least one call of
`scanToken`), give exactly one `NUMBER` token whose lexeme is the whole buffer,
on line 1, followed by `TOKEN_EOF`. -/
theorem scanTokens_numeral_alone (d e : List Char) (hd : Digits d) (he : Digits e)
    (fuel : Nat) (hf : 1 ≤ fuel) :
    scanTokens fuel d = some [⟨NUMBER, d, 1⟩, ⟨TOKEN_EOF, [], 1⟩] ∧
    scanTokens fuel (d ++ '.' :: e)
      = some [⟨NUMBER, d ++ '.' :: e, 1⟩, ⟨TOKEN_EOF, [], 1⟩] := by
  constructor
  · rw [scanTokens, scanTokensRun_single hd.1 (walk_start_digits hd) hf,
      scanTokenAfterLoop_number, count_newline_digits hd.2]
    simp [Scanner.addTokenLiteral, Scanner.skip, Scanner.init, substr]
  · rw [scanTokens, scanTokensRun_single (by simp) (walk_start_decimal hd he) hf,
      scanTokenAfterLoop_number_decimal, count_newline_decimal hd he]
    simp [Scanner.addTokenLiteral, Scanner.skip, Scanner.init, substr]

theorem scanTokens_numeral_alone_witness :
    scanTokens 1 "123".toList = some [⟨NUMBER, "123".toList, 1⟩, ⟨TOKEN_EOF, [], 1⟩] ∧
    scanTokens 1 ("1".toList ++ '.' :: "5".toList)
      = some [⟨NUMBER, "1".toList ++ '.' :: "5".toList, 1⟩, ⟨TOKEN_EOF, [], 1⟩] :=
  ⟨(scanTokens_numeral_alone "123".toList "5".toList (by decide) (by decide) 1 (by decide)).1,
   (scanTokens_numeral_alone "1".toList "5".toList (by decide) (by decide) 1 (by decide)).2⟩

/-- C5 (the code does not have the property): for every non-empty digit string
`d`, `scanTokens` on `d` followed by a dot returns the `TOKEN_EOF` token alone:
the walk ends in the non-accepting state `IN_NUMBER_DOT` with the dot
consumed, and neither the `NUMBER` token of the last accepting state nor a
`DOT` token is emitted. -/
theorem scanTokens_trailing_dot (d : List Char) (hd : Digits d) (fuel : Nat) (hf : 1 ≤ fuel) :
    scanTokens fuel (d ++ ['.']) = some [⟨TOKEN_EOF, [], 1⟩] := by
  have hw : walk START (d ++ ['.']) = some IN_NUMBER_DOT := by
    rw [walk_append, walk_start_digits hd]
    decide
  have hc : (d ++ ['.']).count '\n' = 0 := by
    rw [List.count_append, count_newline_digits hd.2]
    decide
  rw [scanTokens, scanTokensRun_single (by simp) hw hf, scanTokenAfterLoop_number_dot, hc]
  simp [Scanner.skip, Scanner.init]

theorem scanTokens_trailing_dot_witness :
    scanTokens 1 ("1".toList ++ ['.']) = some [⟨TOKEN_EOF, [], 1⟩] :=
  scanTokens_trailing_dot "1".toList (by decide) 1 (by decide)

/-! ## Strings -/

theorem walk_start_open_string {s : List Char} (h : '"' ∉ s) :
    walk START ('"' :: s) = some IN_STRING := by
  have h0 : getCharClass '"' = CHAR_QUOTE := by decide
  have h1 : transitionTable START CHAR_QUOTE = IN_STRING := by decide
  have h2 : (IN_STRING : State) ≠ ERROR := by decide
  simp only [walk, h0, h1, h2, if_false]
  exact walk_string h

theorem walk_start_closed_string {s : List Char} (h : '"' ∉ s) :
    walk START ('"' :: s ++ ['"']) = some STRING_END := by
  rw [walk_append, walk_start_open_string h]
  decide

theorem count_newline_quoted (s : List Char) : ('"' :: s ++ ['"']).count '\n' = s.count '\n' := by
  simp [List.count_cons, List.count_append]

/-- C6 (the code does not have the property): for every string `s` without a
double quote, `scanTokens` on the quoted `s` returns one `STRING` token and
`TOKEN_EOF`, but the lexeme of the `STRING` token is the whole buffer, both
quotes included, not `s`; both tokens carry the line reached at the end of
the literal. -/
theorem scanTokens_quoted_keeps_quotes (s : List Char) (hs : '"' ∉ s) (fuel : Nat)
    (hf : 1 ≤ fuel) :
    scanTokens fuel ('"' :: s ++ ['"'])
      = some [⟨STRING, '"' :: s ++ ['"'], 1 + s.count '\n'⟩,
              ⟨TOKEN_EOF, [], 1 + s.count '\n'⟩] := by
  rw [scanTokens, scanTokensRun_single (by simp) (walk_start_closed_string hs) hf,
    scanTokenAfterLoop_string_end, count_newline_quoted]
  simp [Scanner.addToken, Scanner.skip, Scanner.init, substr]

theorem scanTokens_quoted_keeps_quotes_witness :
    scanTokens 1 ('"' :: "abc".toList ++ ['"'])
      = some [⟨STRING, '"' :: "abc".toList ++ ['"'], 1 + "abc".toList.count '\n'⟩,
              ⟨TOKEN_EOF, [], 1 + "abc".toList.count '\n'⟩] :=
  scanTokens_quoted_keeps_quotes "abc".toList (by decide) 1 (by decide)

/-- C10 (the code does not have the property): for every string `s` without a
double quote, `scanTokens` on the unterminated literal made of a quote and `s`
returns the `TOKEN_EOF` token alone, and writes nothing to the error stream:
the "Unterminated string" message is never produced. -/
theorem scanTokens_unterminated_silent (s : List Char) (hs : '"' ∉ s) (fuel : Nat)
    (hf : 1 ≤ fuel) :
    scanTokens fuel ('"' :: s) = some [⟨TOKEN_EOF, [], 1 + s.count '\n'⟩] ∧
    scanErrors fuel ('"' :: s) = some [] := by
  have hc : ('"' :: s).count '\n' = s.count '\n' := by simp [List.count_cons]
  constructor
  · rw [scanTokens, scanTokensRun_single (by simp) (walk_start_open_string hs) hf,
      scanTokenAfterLoop_in_string, hc]
    simp [Scanner.skip, Scanner.init]
  · rw [scanErrors, scanTokensRun_single (by simp) (walk_start_open_string hs) hf,
      scanTokenAfterLoop_in_string]
    simp [Scanner.skip, Scanner.init]

theorem scanTokens_unterminated_silent_witness :
    scanTokens 1 ('"' :: "abc".toList)
      = some [⟨TOKEN_EOF, [], 1 + "abc".toList.count '\n'⟩] ∧
    scanErrors 1 ('"' :: "abc".toList) = some [] :=
  scanTokens_unterminated_silent "abc".toList (by decide) 1 (by decide)

/-! ## Identifiers and keywords -/

theorem isalpha_ne_newline {c : Char} (h : isalpha c = true) : c ≠ '\n' := by
  rintro rfl
  exact absurd h (by decide)

theorem getCharClass_wordStart {c : Char} (h : isalpha c = true ∨ c = '_') :
    getCharClass c = CHAR_ALPHA ∨ getCharClass c = CHAR_UNDERSCORE := by
  rcases h with h | rfl
  · exact Or.inl (getCharClass_of_isalpha h)
  · exact Or.inr getCharClass_underscore

theorem transitionTable_identifier_wordChar {c : Char}
    (h : isalpha c = true ∨ isdigit c = true ∨ c = '_') :
    transitionTable IN_IDENTIFIER (getCharClass c) = IN_IDENTIFIER := by
  rcases h with h | h | rfl
  · rw [getCharClass_of_isalpha h]; decide
  · rw [getCharClass_of_isdigit h]; decide
  · decide

theorem walk_identifier {cs : List Char}
    (h : ∀ x ∈ cs, isalpha x = true ∨ isdigit x = true ∨ x = '_') :
    walk IN_IDENTIFIER cs = some IN_IDENTIFIER := by
  induction cs with
  | nil => rfl
  | cons c cs ih =>
    have hn : (IN_IDENTIFIER : State) ≠ ERROR := by decide
    simp only [walk, transitionTable_identifier_wordChar (h c (List.mem_cons_self _ _)), hn,
      if_false]
    exact ih (fun x hx => h x (List.mem_cons_of_mem _ hx))

theorem walk_start_word {c : Char} {cs : List Char} (hc : isalpha c = true ∨ c = '_')
    (hcs : ∀ x ∈ cs, isalpha x = true ∨ isdigit x = true ∨ x = '_') :
    walk START (c :: cs) = some IN_IDENTIFIER := by
  have hn : (IN_IDENTIFIER : State) ≠ ERROR := by decide
  have ht : transitionTable START (getCharClass c) = IN_IDENTIFIER := by
    rcases getCharClass_wordStart hc with h | h <;> rw [h] <;> decide
  simp only [walk, ht, hn, if_false]
  exact walk_identifier hcs

theorem count_newline_word {c : Char} {cs : List Char} (hc : isalpha c = true ∨ c = '_')
    (hcs : ∀ x ∈ cs, isalpha x = true ∨ isdigit x = true ∨ x = '_') :
    (c :: cs).count '\n' = 0 := by
  rw [List.count_eq_zero]
  intro hm
  rcases List.mem_cons.1 hm with e | hm
  · rcases hc with h | h
    · exact isalpha_ne_newline h e.symm
    · rw [h] at e; exact absurd e (by decide)
  · rcases hcs _ hm with h | h | h
    · exact isalpha_ne_newline h rfl
    · exact isdigit_ne_newline h rfl
    · exact absurd h (by decide)

/-- Each key of `keywords` resolves to its own token type. -/
theorem identifierType_keyword : ∀ kv ∈ keywords, identifierType kv.1 = kv.2 := by
  decide

/-- A text that is no key of `keywords` resolves to `IDENTIFIER`. -/
theorem identifierType_other {text : List Char} (h : ∀ t, (text, t) ∉ keywords) :
    identifierType text = IDENTIFIER := by
  have hf : keywords.find? (fun kv => decide (kv.1 = text)) = none := by
    rw [List.find?_eq_none]
    intro kv hkv hp
    have he : kv.1 = text := by simpa using hp
    exact h kv.2 (he ▸ hkv)
  simp [identifierType, findKeyword, hf]

/-- C7: a word that begins with a letter or an underscore and goes on with
letters, digits and underscores, scanned alone (with fuel for at least one call
of `scanToken`), gives exactly one token with the word as lexeme on line 1,
followed by `TOKEN_EOF`; the type of the token is the type the `keywords` table
gives to the word when the whole word is one of its keys, and `IDENTIFIER`
when it is not. -/
theorem scanTokens_word (c : Char) (cs : List Char) (hc : isalpha c = true ∨ c = '_')
    (hcs : ∀ x ∈ cs, isalpha x = true ∨ isdigit x = true ∨ x = '_')
    (fuel : Nat) (hf : 1 ≤ fuel) :
    scanTokens fuel (c :: cs)
      = some [⟨identifierType (c :: cs), c :: cs, 1⟩, ⟨TOKEN_EOF, [], 1⟩] ∧
    (∀ t, (c :: cs, t) ∈ keywords → identifierType (c :: cs) = t) ∧
    ((∀ t, (c :: cs, t) ∉ keywords) → identifierType (c :: cs) = IDENTIFIER) := by
  refine ⟨?_, fun t ht => identifierType_keyword _ ht, identifierType_other⟩
  rw [scanTokens, scanTokensRun_single (by simp) (walk_start_word hc hcs) hf,
    scanTokenAfterLoop_identifier, count_newline_word hc hcs]
  simp [Scanner.addToken, Scanner.skip, Scanner.init, substr]

theorem scanTokens_word_witness :
    scanTokens 1 "classify".toList
      = some [⟨IDENTIFIER, "classify".toList, 1⟩, ⟨TOKEN_EOF, [], 1⟩] ∧
    scanTokens 1 "class".toList
      = some [⟨CLASS, "class".toList, 1⟩, ⟨TOKEN_EOF, [], 1⟩] :=
  ⟨(scanTokens_word 'c' "lassify".toList (by decide) (by decide) 1 (by decide)).1,
   (scanTokens_word 'c' "lass".toList (by decide) (by decide) 1 (by decide)).1⟩

/-! ## One- and two-character operators -/

theorem transitionTable_operator_head {state : State}
    (hs : state = IN_BANG ∨ state = IN_EQUAL ∨ state = IN_LESS ∨ state = IN_GREATER)
    {cc : CharClass} (h : cc ≠ CHAR_EQUAL) : transitionTable state cc = ERROR := by
  rcases hs with rfl | rfl | rfl | rfl <;> cases cc <;> first | decide | exact absurd rfl h

/-- The first token of whatever `scanTokens` returns is the first token that the
first call of `scanToken` pushes. -/
theorem scanTokens_head {c : Char} {cs : List Char} {s' : Scanner} {t : Token} {ts : List Token}
    (hs : scanToken (Scanner.init (c :: cs)) = some s') (ht : s'.tokens = t :: ts)
    {fuel : Nat} {toks : List Token} (h : scanTokens fuel (c :: cs) = some toks) :
    toks.head? = some t := by
  unfold scanTokens scanTokensRun at h
  cases hl : scanTokensLoop fuel (Scanner.init (c :: cs)) with
  | none => simp [hl] at h
  | some r =>
    simp only [hl, Option.map_some', Option.some.injEq] at h
    cases fuel with
    | zero => simp [scanTokensLoop, (Scanner.init_at (c :: cs)).isAtEnd_cons] at hl
    | succ fuel =>
      rw [scanTokensLoop_step (Scanner.init_at (c :: cs)) hs] at hl
      obtain ⟨l, hl'⟩ := scanTokensLoop_tokens hl
      rw [← h, hl', ht]
      rfl

/-- The first call of `scanToken` on a two-character buffer whose first
character leads to the state `state` and whose second has no transition from it. -/
theorem scanToken_head_then_other {h c : Char} {state : State}
    (hw : walk START [h] = some state) (hn : transitionTable state (getCharClass c) = ERROR) :
    scanToken (Scanner.init [h, c])
      = some (scanTokenNoTransition ((Scanner.init [h, c]).skip 1 ([h].count '\n')) state c
          (getCharClass c)) :=
  @scanToken_walk_noTransition (Scanner.init [h, c]) [] [h] [] c (Scanner.init_at _) state hw hn

/-! ## Whitespace before a token -/

/-- C8 (the code does not have the property): a reserved word that follows a
space is not recognised.  For every entry of `keywords`, scanning a space and
the reserved word gives one `IDENTIFIER` token whose lexeme is the space and
the word; and on the test input `var x = 10; if while` the types are `VAR`,
`IDENTIFIER`, `EQUAL`, `NUMBER`, `SEMICOLON`, `IDENTIFIER`, `IDENTIFIER`,
`TOKEN_EOF`, every lexeme after the first keeping the space before it. -/
theorem scanTokens_space_keyword :
    (∀ kv ∈ keywords, ∀ fuel, 1 ≤ fuel →
      scanTokens fuel (' ' :: kv.1)
        = some [⟨IDENTIFIER, ' ' :: kv.1, 1⟩, ⟨TOKEN_EOF, [], 1⟩]) ∧
    (∀ fuel, 7 ≤ fuel →
      scanTokens fuel "var x = 10; if while".toList
        = some [⟨VAR, "var".toList, 1⟩, ⟨IDENTIFIER, " x".toList, 1⟩,
                ⟨EQUAL, " =".toList, 1⟩, ⟨NUMBER, " 10".toList, 1⟩,
                ⟨SEMICOLON, ";".toList, 1⟩, ⟨IDENTIFIER, " if".toList, 1⟩,
                ⟨IDENTIFIER, " while".toList, 1⟩, ⟨TOKEN_EOF, [], 1⟩]) := by
  have hk : ∀ kv ∈ keywords,
      scanTokens 1 (' ' :: kv.1) = some [⟨IDENTIFIER, ' ' :: kv.1, 1⟩, ⟨TOKEN_EOF, [], 1⟩] := by
    decide!
  exact ⟨fun kv hkv fuel hf => scanTokens_mono (hk kv hkv) hf,
    fun fuel hf => scanTokens_mono (by decide!) hf⟩

theorem scanTokens_space_keyword_witness :
    scanTokens 1 " if".toList = some [⟨IDENTIFIER, " if".toList, 1⟩, ⟨TOKEN_EOF, [], 1⟩] ∧
    scanTokens 7 "var x = 10; if while".toList
      = some [⟨VAR, "var".toList, 1⟩, ⟨IDENTIFIER, " x".toList, 1⟩,
              ⟨EQUAL, " =".toList, 1⟩, ⟨NUMBER, " 10".toList, 1⟩,
              ⟨SEMICOLON, ";".toList, 1⟩, ⟨IDENTIFIER, " if".toList, 1⟩,
              ⟨IDENTIFIER, " while".toList, 1⟩, ⟨TOKEN_EOF, [], 1⟩] :=
  ⟨scanTokens_space_keyword.1 ("if".toList, IF) (by decide) 1 (by decide),
   scanTokens_space_keyword.2 7 (by decide)⟩

theorem walk_start_numeral {a : List Char} (ha : Numeral a) :
    ∃ st, (st = IN_NUMBER ∨ st = IN_NUMBER_DECIMAL) ∧ walk START a = some st ∧
      a.count '\n' = 0 := by
  rcases ha with hd | ⟨d, e, hd, he, rfl⟩
  · exact ⟨IN_NUMBER, Or.inl rfl, walk_start_digits hd, count_newline_digits hd.2⟩
  · exact ⟨IN_NUMBER_DECIMAL, Or.inr rfl, walk_start_decimal hd he, count_newline_decimal hd he⟩

theorem walk_start_space (cs : List Char) : walk START (' ' :: cs) = walk START cs := by
  have h0 : getCharClass ' ' = CHAR_WHITESPACE := by decide
  have h1 : transitionTable START CHAR_WHITESPACE = START := by decide
  have h2 : (START : State) ≠ ERROR := by decide
  simp only [walk, h0, h1, h2, if_false]

theorem scanTokenNoTransition_number {st : State} (hst : st = IN_NUMBER ∨ st = IN_NUMBER_DECIMAL)
    (s : Scanner) (c : Char) (cc : CharClass) :
    scanTokenNoTransition s st c cc
      = s.addTokenLiteral NUMBER (substr s.source s.start (s.current - s.start)) := by
  rcases hst with rfl | rfl <;> rfl

theorem scanTokenAfterLoop_numeral {st : State} (hst : st = IN_NUMBER ∨ st = IN_NUMBER_DECIMAL)
    (s : Scanner) :
    scanTokenAfterLoop s st
      = s.addTokenLiteral NUMBER (substr s.source s.start (s.current - s.start)) := by
  rcases hst with rfl | rfl <;> rfl

theorem transitionTable_number_space {st : State} (hst : st = IN_NUMBER ∨ st = IN_NUMBER_DECIMAL) :
    transitionTable st (getCharClass ' ') = ERROR := by
  rcases hst with rfl | rfl <;> decide

/-- C9 (the code does not have the property): for all numerals `a` and `b`,
`scanTokens` on `a`, a space and `b` returns two `NUMBER` tokens and
`TOKEN_EOF`, but the lexeme of the second is the space followed by `b`: the
separating space is part of the lexeme. -/
theorem scanTokens_numeral_pair_keeps_space (a b : List Char) (ha : Numeral a) (hb : Numeral b)
    (fuel : Nat) (hf : 2 ≤ fuel) :
    scanTokens fuel (a ++ ' ' :: b)
      = some [⟨NUMBER, a, 1⟩, ⟨NUMBER, ' ' :: b, 1⟩, ⟨TOKEN_EOF, [], 1⟩] := by
  obtain ⟨fuel, rfl⟩ : ∃ k, fuel = k + 1 + 1 := ⟨fuel - 2, by omega⟩
  obtain ⟨sa, hsa, hwa, hca⟩ := walk_start_numeral ha
  obtain ⟨sb, hsb, hwb, hcb⟩ := walk_start_numeral hb
  -- the first call stops at the space and pushes `a`
  have h0 := Scanner.init_at (a ++ ' ' :: b)
  have hs1 : scanToken { Scanner.init (a ++ ' ' :: b) with
        start := (Scanner.init (a ++ ' ' :: b)).current }
      = some ⟨a ++ ' ' :: b, [⟨NUMBER, a, 1⟩], 0, a.length, 1, []⟩ := by
    have h := scanToken_walk_noTransition h0 hwa (transitionTable_number_space hsa)
    rw [scanTokenNoTransition_number hsa, hca] at h
    rw [← show Scanner.init (a ++ ' ' :: b) = { Scanner.init (a ++ ' ' :: b) with
        start := (Scanner.init (a ++ ' ' :: b)).current } from rfl, h]
    simp [Scanner.addTokenLiteral, Scanner.skip, Scanner.init, substr]
  have h1 : (⟨a ++ ' ' :: b, [⟨NUMBER, a, 1⟩], 0, a.length, 1, []⟩ : Scanner).At a (' ' :: b) :=
    ⟨rfl, rfl⟩
  -- the second call starts at the space and runs to the end of input
  have h1' : (⟨a ++ ' ' :: b, [⟨NUMBER, a, 1⟩], a.length, a.length, 1, []⟩ : Scanner).At a
      (' ' :: b) := ⟨rfl, rfl⟩
  have hwb' : walk START (' ' :: b) = some sb := by rw [walk_start_space]; exact hwb
  have hcb' : (' ' :: b).count '\n' = 0 := by
    rw [List.count_cons, hcb]; decide
  have hs2 : scanToken (⟨a ++ ' ' :: b, [⟨NUMBER, a, 1⟩], a.length, a.length, 1, []⟩ : Scanner)
      = some ⟨a ++ ' ' :: b, [⟨NUMBER, a, 1⟩, ⟨NUMBER, ' ' :: b, 1⟩], a.length,
          a.length + (b.length + 1), 1, []⟩ := by
    rw [scanToken_walk_atEnd h1' hwb', scanTokenAfterLoop_numeral hsb, hcb']
    simp [Scanner.addTokenLiteral, Scanner.skip, substr]
  have h2 : (⟨a ++ ' ' :: b, [⟨NUMBER, a, 1⟩, ⟨NUMBER, ' ' :: b, 1⟩], a.length,
      a.length + (b.length + 1), 1, []⟩ : Scanner).At (a ++ ' ' :: b) [] :=
    ⟨by simp, by simp⟩
  rw [scanTokens, scanTokensRun, scanTokensLoop_step_append h0 (by simp) hs1,
    scanTokensLoop_step h1 hs2,
    scanTokensLoop_atEnd h2]
  rfl

theorem scanTokens_numeral_pair_keeps_space_witness :
    scanTokens 2 ("123".toList ++ ' ' :: "456.789".toList)
      = some [⟨NUMBER, "123".toList, 1⟩, ⟨NUMBER, ' ' :: "456.789".toList, 1⟩,
              ⟨TOKEN_EOF, [], 1⟩] :=
  scanTokens_numeral_pair_keeps_space "123".toList "456.789".toList (Or.inl (by decide))
    (Or.inr ⟨"456".toList, "789".toList, by decide, by decide, by decide⟩) 2 (by decide)

/-! ## Runs of one punctuation mark -/

/-- One call of `scanToken` on a mark `p` whose state `st` has no transition on
`p` itself: the token of `st` is pushed with the lexeme `p`. -/
theorem scanToken_mark {p : Char} {st : State} {ty : TokenType}
    (hw : walk START [p] = some st) (hn : transitionTable st (getCharClass p) = ERROR)
    (hcount : [p].count '\n' = 0)
    (hexit : ∀ (s : Scanner) (c : Char) (cc : CharClass),
      scanTokenNoTransition s st c cc = s.addToken ty)
    (hend : ∀ s : Scanner, scanTokenAfterLoop s st = s.addToken ty)
    {s : Scanner} {pre : List Char} (n : Nat) (h : s.At pre (p :: List.replicate n p)) :
    scanToken { s with start := s.current }
      = some { s with start := s.current, current := s.current + 1,
                      tokens := s.tokens ++ [⟨ty, [p], s.line⟩] } := by
  have hsub : substr s.source s.current 1 = [p] := by
    rw [h.1, h.2]
    simp [substr]
  cases n with
  | zero =>
    have h' : ({ s with start := s.current } : Scanner).At pre [p] := h
    rw [scanToken_walk_atEnd h' hw, hend, hcount]
    simp [Scanner.addToken, Scanner.skip, hsub]
  | succ n =>
    have h'' : ({ s with start := s.current } : Scanner).At pre
        ([p] ++ p :: List.replicate n p) := h
    rw [scanToken_walk_noTransition h'' hw hn, hexit, hcount]
    simp [Scanner.addToken, Scanner.skip, hsub]

/-- The loop of `scanTokens` over a run of such a mark. -/
theorem scanTokensLoop_marks {p : Char} {st : State} {ty : TokenType}
    (hw : walk START [p] = some st) (hn : transitionTable st (getCharClass p) = ERROR)
    (hcount : [p].count '\n' = 0)
    (hexit : ∀ (s : Scanner) (c : Char) (cc : CharClass),
      scanTokenNoTransition s st c cc = s.addToken ty)
    (hend : ∀ s : Scanner, scanTokenAfterLoop s st = s.addToken ty)
    (n : Nat) {s : Scanner} {pre : List Char} (h : s.At pre (List.replicate n p))
    {fuel : Nat} (hf : n ≤ fuel) :
    ∃ r, scanTokensLoop fuel s = some r ∧
      r.tokens = s.tokens ++ List.replicate n ⟨ty, [p], s.line⟩ ∧ r.line = s.line ∧
      r.errors = s.errors := by
  induction n generalizing s pre fuel with
  | zero => exact ⟨s, scanTokensLoop_atEnd h fuel, by simp, rfl, rfl⟩
  | succ n ih =>
    obtain ⟨fuel, rfl⟩ : ∃ k, fuel = k + 1 := ⟨fuel - 1, by omega⟩
    have hc : s.At pre (p :: List.replicate n p) := h
    have hs := scanToken_mark hw hn hcount hexit hend n hc
    have hnext : Scanner.At
        { s with start := s.current, current := s.current + 1,
                 tokens := s.tokens ++ [⟨ty, [p], s.line⟩] }
        (pre ++ [p]) (List.replicate n p) := by
      obtain ⟨h1, h2⟩ := hc
      exact ⟨by simp [h1], by simp [h2]⟩
    obtain ⟨r, hr, ht, hl, he⟩ := ih hnext (Nat.le_of_succ_le_succ hf)
    refine ⟨r, ?_, ?_, hl, he⟩
    · rw [scanTokensLoop_step hc hs]; exact hr
    · rw [ht]; simp [List.replicate_succ]

/-- For each of the nine marks `( ) { } , ; + - *` and every `n`, `scanTokens`
on `n` copies of the mark returns `n` tokens of the mark's type, each with the
mark as lexeme on line 1, followed by `TOKEN_EOF`. -/
theorem scanTokens_mark_run (p : Char) (ty : TokenType) (hp : (p, ty) ∈ marksWithTransition)
    (n fuel : Nat) (hf : n ≤ fuel) :
    scanTokens fuel (List.replicate n p)
      = some (List.replicate n ⟨ty, [p], 1⟩ ++ [⟨TOKEN_EOF, [], 1⟩]) := by
  have key : ∀ st : State, walk START [p] = some st →
      transitionTable st (getCharClass p) = ERROR → [p].count '\n' = 0 →
      (∀ (s : Scanner) (c : Char) (cc : CharClass),
        scanTokenNoTransition s st c cc = s.addToken ty) →
      (∀ s : Scanner, scanTokenAfterLoop s st = s.addToken ty) →
      scanTokens fuel (List.replicate n p)
        = some (List.replicate n ⟨ty, [p], 1⟩ ++ [⟨TOKEN_EOF, [], 1⟩]) := by
    intro st hw hn hcount hexit hend
    obtain ⟨r, hr, ht, hl, -⟩ := scanTokensLoop_marks hw hn hcount hexit hend n
      (Scanner.init_at (List.replicate n p)) hf
    simp only [scanTokens, scanTokensRun, hr, Option.map_some', ht, hl]
    rfl
  have hcases : (p = '(' ∧ ty = LEFT_PAREN) ∨ (p = ')' ∧ ty = RIGHT_PAREN)
      ∨ (p = '{' ∧ ty = LEFT_BRACE) ∨ (p = '}' ∧ ty = RIGHT_BRACE) ∨ (p = ',' ∧ ty = COMMA)
      ∨ (p = ';' ∧ ty = SEMICOLON) ∨ (p = '+' ∧ ty = PLUS) ∨ (p = '-' ∧ ty = MINUS)
      ∨ (p = '*' ∧ ty = STAR) := by
    simpa [marksWithTransition] using hp
  rcases hcases with h | h | h | h | h | h | h | h | h <;> obtain ⟨rfl, rfl⟩ := h
  · exact key IN_LEFT_PAREN (by decide) (by decide) (by decide) (fun _ _ _ => rfl) (fun _ => rfl)
  · exact key IN_RIGHT_PAREN (by decide) (by decide) (by decide) (fun _ _ _ => rfl) (fun _ => rfl)
  · exact key IN_LEFT_BRACE (by decide) (by decide) (by decide) (fun _ _ _ => rfl) (fun _ => rfl)
  · exact key IN_RIGHT_BRACE (by decide) (by decide) (by decide) (fun _ _ _ => rfl) (fun _ => rfl)
  · exact key IN_COMMA (by decide) (by decide) (by decide) (fun _ _ _ => rfl) (fun _ => rfl)
  · exact key IN_SEMICOLON (by decide) (by decide) (by decide) (fun _ _ _ => rfl) (fun _ => rfl)
  · exact key IN_PLUS (by decide) (by decide) (by decide) (fun _ _ _ => rfl) (fun _ => rfl)
  · exact key IN_MINUS (by decide) (by decide) (by decide) (fun _ _ _ => rfl) (fun _ => rfl)
  · exact key IN_STAR (by decide) (by decide) (by decide) (fun _ _ _ => rfl) (fun _ => rfl)

theorem scanTokens_mark_run_witness :
    scanTokens 3 (List.replicate 3 ';')
      = some (List.replicate 3 ⟨SEMICOLON, [';'], 1⟩ ++ [⟨TOKEN_EOF, [], 1⟩]) :=
  scanTokens_mark_run ';' SEMICOLON (by decide) 3 3 (by decide)

/-! ## The tables, cell by cell -/

/-- C18 (the code does not have the property for the class of the dot): the
cell `[START][CHAR_DOT]` of the table is `ERROR`, not `IN_DOT`, although
`IN_DOT` is accepting with type `DOT`; for each of the nine other punctuation
classes the cell `[START][class]` is the dedicated state, and every one of the
ten dedicated states is accepting with the matching token type. -/
theorem transitionTable_start_punctuation :
    transitionTable START CHAR_DOT = ERROR ∧
    (transitionTable START CHAR_LPAREN = IN_LEFT_PAREN ∧
     transitionTable START CHAR_RPAREN = IN_RIGHT_PAREN ∧
     transitionTable START CHAR_LBRACE = IN_LEFT_BRACE ∧
     transitionTable START CHAR_RBRACE = IN_RIGHT_BRACE ∧
     transitionTable START CHAR_COMMA = IN_COMMA ∧
     transitionTable START CHAR_SEMICOLON = IN_SEMICOLON ∧
     transitionTable START CHAR_PLUS = IN_PLUS ∧
     transitionTable START CHAR_MINUS = IN_MINUS ∧
     transitionTable START CHAR_STAR = IN_STAR) ∧
    (findAccepting IN_LEFT_PAREN = some LEFT_PAREN ∧
     findAccepting IN_RIGHT_PAREN = some RIGHT_PAREN ∧
     findAccepting IN_LEFT_BRACE = some LEFT_BRACE ∧
     findAccepting IN_RIGHT_BRACE = some RIGHT_BRACE ∧
     findAccepting IN_COMMA = some COMMA ∧
     findAccepting IN_DOT = some DOT ∧
     findAccepting IN_SEMICOLON = some SEMICOLON ∧
     findAccepting IN_PLUS = some PLUS ∧
     findAccepting IN_MINUS = some MINUS ∧
     findAccepting IN_STAR = some STAR) := by
  decide

/-- No cell of the table leads to `IN_DOT`: the state is unreachable. -/
theorem transitionTable_ne_in_dot (state : State) (cc : CharClass) :
    transitionTable state cc ≠ IN_DOT := by
  cases state <;> cases cc <;> decide

/-- C20: after construction `START`, `ERROR`, `IN_COMMENT`, `IN_STRING` and
`IN_NUMBER_DOT` are not keys of `acceptingStates`, and every punctuation
state, every one- and two-character operator state, `IN_SLASH`, `STRING_END`,
`IN_NUMBER`, `IN_NUMBER_DECIMAL` and `IN_IDENTIFIER` is a key, mapped to the
token type it denotes; no key occurs twice. -/
theorem acceptingStates_registry :
    (findAccepting START = none ∧ findAccepting ERROR = none ∧
     findAccepting IN_COMMENT = none ∧ findAccepting IN_STRING = none ∧
     findAccepting IN_NUMBER_DOT = none) ∧
    (findAccepting IN_LEFT_PAREN = some LEFT_PAREN ∧
     findAccepting IN_RIGHT_PAREN = some RIGHT_PAREN ∧
     findAccepting IN_LEFT_BRACE = some LEFT_BRACE ∧
     findAccepting IN_RIGHT_BRACE = some RIGHT_BRACE ∧
     findAccepting IN_COMMA = some COMMA ∧
     findAccepting IN_DOT = some DOT ∧
     findAccepting IN_SEMICOLON = some SEMICOLON ∧
     findAccepting IN_PLUS = some PLUS ∧
     findAccepting IN_MINUS = some MINUS ∧
     findAccepting IN_STAR = some STAR) ∧
    (findAccepting IN_BANG = some BANG ∧
     findAccepting IN_BANG_EQUAL = some BANG_EQUAL ∧
     findAccepting IN_EQUAL = some EQUAL ∧
     findAccepting IN_EQUAL_EQUAL = some EQUAL_EQUAL ∧
     findAccepting IN_GREATER = some GREATER ∧
     findAccepting IN_GREATER_EQUAL = some GREATER_EQUAL ∧
     findAccepting IN_LESS = some LESS ∧
     findAccepting IN_LESS_EQUAL = some LESS_EQUAL) ∧
    (findAccepting IN_SLASH = some SLASH ∧
     findAccepting STRING_END = some STRING ∧
     findAccepting IN_NUMBER = some NUMBER ∧
     findAccepting IN_NUMBER_DECIMAL = some NUMBER ∧
     findAccepting IN_IDENTIFIER = some IDENTIFIER) ∧
    (acceptingStates.map Prod.fst).Nodup := by
  decide

/-! ## The classifier as a partition -/

theorem ite_cases {α : Type} {p : Prop} [Decidable p] {a b : α} {P : α → Prop}
    (ha : p → P a) (hb : ¬ p → P b) : P (if p then a else b) := by
  by_cases hp : p
  · rw [if_pos hp]; exact ha hp
  · rw [if_neg hp]; exact hb hp

theorem isdigit_iff (c : Char) :
    isdigit c = true ↔ '0'.toNat ≤ c.toNat ∧ c.toNat ≤ '9'.toNat := by
  simp [isdigit]

theorem isalpha_iff (c : Char) :
    isalpha c = true ↔
      ('A'.toNat ≤ c.toNat ∧ c.toNat ≤ 'Z'.toNat) ∨ ('a'.toNat ≤ c.toNat ∧ c.toNat ≤ 'z'.toNat) := by
  simp [isalpha]

/-- The class that `getCharClass` gives to a character holds it. -/
theorem inClass_getCharClass (c : Char) : inClass (getCharClass c) c := by
  unfold getCharClass
  repeat
    refine ite_cases (P := fun cc => inClass cc c)
      (fun hp => by
        first
          | exact hp
          | exact (isdigit_iff c).1 hp
          | exact (isalpha_iff c).1 hp
          | (show c = ' ' ∨ c = '\t' ∨ c = '\r'
             rcases hp with h | h | h
             · exact Or.inl h
             · exact Or.inr (Or.inr h)
             · exact Or.inr (Or.inl h)))
      (fun _ => ?_)
  show ∀ cc', ¬ inNamedClass cc' c
  have hd : ¬ isdigit c = true := by assumption
  have ha : ¬ isalpha c = true := by assumption
  have hw : ¬ (c = ' ' ∨ c = '\r' ∨ c = '\t') := by assumption
  have hd' := mt (isdigit_iff c).2 hd
  have ha' := mt (isalpha_iff c).2 ha
  intro cc'
  cases cc' <;> first | assumption | exact id | skip
  rintro (h | h | h)
  · exact hw (Or.inl h)
  · exact hw (Or.inr (Or.inr h))
  · exact hw (Or.inr (Or.inl h))

/-- A character is held by at most one named class, and `getCharClass` gives it
that class. -/
theorem getCharClass_of_inNamedClass {cc : CharClass} {c : Char} (h : inNamedClass cc c) :
    getCharClass c = cc := by
  cases cc
  case CHAR_DIGIT => exact getCharClass_of_isdigit ((isdigit_iff c).2 h)
  case CHAR_ALPHA => exact getCharClass_of_isalpha ((isalpha_iff c).2 h)
  case CHAR_WHITESPACE => rcases h with h | h | h <;> subst h <;> decide
  case CHAR_OTHER => exact absurd h id
  all_goals
    have h' : c = _ := h
    subst h'
    decide

/-- C19: `getCharClass` is the partition of the specification.  For every
character `c` and class `cc`, `getCharClass c = cc` exactly when `cc` is the
class that holds `c`: its own class for each of `( ) { } , . ; + - * ! = > < /`,
the quote and the newline, `CHAR_DIGIT` for `0..9`, `CHAR_ALPHA` for the ASCII
letters, `CHAR_UNDERSCORE` for `_`, `CHAR_WHITESPACE` for space, tab and
carriage return, and `CHAR_OTHER` for every character that none of these
classes holds. -/
theorem getCharClass_partition (c : Char) (cc : CharClass) :
    getCharClass c = cc ↔ inClass cc c := by
  constructor
  · rintro rfl
    exact inClass_getCharClass c
  · intro h
    unfold inClass at h
    split_ifs at h with hcc
    · subst hcc
      have hc := inClass_getCharClass c
      unfold inClass at hc
      split_ifs at hc with h'
      · exact h'
      · exact absurd hc (h _)
    · exact getCharClass_of_inNamedClass h

/-! ## A string literal followed by a semicolon -/

theorem Scanner.shift_isAtEnd (pre : List Char) (errs : List Diagnostic) (s : Scanner) :
    (s.shift pre errs).isAtEnd = s.isAtEnd := by
  simp [Scanner.shift, Scanner.isAtEnd]

theorem Scanner.shift_peek (pre : List Char) (errs : List Diagnostic) (s : Scanner) :
    (s.shift pre errs).peek = s.peek := by
  unfold Scanner.peek
  rw [Scanner.shift_isAtEnd]
  simp [Scanner.shift, List.getD_eq_getElem?_getD, List.getElem?_append_right]

theorem substr_shift (pre src : List Char) (pos len : Nat) :
    substr (pre ++ src) (pre.length + pos) len = substr src pos len := by
  simp [substr]

theorem Scanner.shift_addToken (pre : List Char) (errs : List Diagnostic) (s : Scanner)
    (type : TokenType) : (s.shift pre errs).addToken type = (s.addToken type).shift pre errs := by
  simp [Scanner.shift, Scanner.addToken, substr_shift, Nat.add_sub_add_left]

theorem Scanner.shift_addTokenLiteral (pre : List Char) (errs : List Diagnostic) (s : Scanner)
    (type : TokenType) (literal : List Char) :
    (s.shift pre errs).addTokenLiteral type literal
      = (s.addTokenLiteral type literal).shift pre errs := by
  simp [Scanner.shift, Scanner.addTokenLiteral]

theorem Scanner.shift_text (pre : List Char) (errs : List Diagnostic) (s : Scanner) :
    substr (s.shift pre errs).source (s.shift pre errs).start
        ((s.shift pre errs).current - (s.shift pre errs).start)
      = substr s.source s.start (s.current - s.start) := by
  simp [Scanner.shift, substr_shift, Nat.add_sub_add_left]

theorem Scanner.shift_trimmed (pre : List Char) (errs : List Diagnostic) (s : Scanner) :
    substr (s.shift pre errs).source ((s.shift pre errs).start + 1)
        ((s.shift pre errs).current - (s.shift pre errs).start - 2)
      = substr s.source (s.start + 1) (s.current - s.start - 2) := by
  simp [Scanner.shift, Nat.add_assoc, substr_shift, Nat.add_sub_add_left]

theorem scanTokenNoTransition_shift (pre : List Char) (errs : List Diagnostic) (s : Scanner)
    (state : State) (c : Char) (cc : CharClass) :
    scanTokenNoTransition (s.shift pre errs) state c cc
      = (scanTokenNoTransition s state c cc).shift pre errs := by
  unfold scanTokenNoTransition
  split
  · split_ifs
    · rw [Scanner.shift_addTokenLiteral, Scanner.shift_trimmed]
    · rw [Scanner.shift_addTokenLiteral, Scanner.shift_text]
    · rw [Scanner.shift_addToken, Scanner.shift_text]
    · rw [Scanner.shift_addToken]
    · rfl
  · split_ifs
    · simp [Scanner.shift, Scanner.advance, Nat.add_assoc]
    · rfl

theorem scanTokenAfterLoop_shift (pre : List Char) (errs : List Diagnostic) (s : Scanner)
    (state : State) :
    scanTokenAfterLoop (s.shift pre errs) state = (scanTokenAfterLoop s state).shift pre errs := by
  unfold scanTokenAfterLoop
  split
  · split_ifs
    · rw [Scanner.shift_addToken, Scanner.shift_text]
    · rw [Scanner.shift_addTokenLiteral, Scanner.shift_text]
    · simp [Scanner.shift]
    · rw [Scanner.shift_addToken]
    · rfl
  · rfl

/-- The loop of `scanToken` does behind a prefix what it does without it. -/
theorem scanLoop_shift (pre : List Char) (errs : List Diagnostic) (fuel : Nat) (s : Scanner)
    (state las las' : State) (lap lap' : Nat) :
    scanLoop fuel (s.shift pre errs) state las lap
      = (scanLoop fuel s state las' lap').map (Scanner.shift pre errs) := by
  induction fuel generalizing s state las las' lap lap' with
  | zero => rfl
  | succ fuel ih =>
    rw [scanLoop, scanLoop]
    simp only [Scanner.shift_isAtEnd, Scanner.shift_peek]
    split_ifs <;>
      first
        | (rw [scanTokenNoTransition_shift]; rfl)
        | (rw [scanTokenAfterLoop_shift]; rfl)
        | rfl
        | exact ih (Scanner.advance { s with line := s.line + 1 }) _ _ _ _ _
        | exact ih s.advance _ _ _ _ _

theorem scanToken_shift (pre : List Char) (errs : List Diagnostic) (s : Scanner) :
    scanToken (s.shift pre errs) = (scanToken s).map (Scanner.shift pre errs) := by
  have hf : (s.shift pre errs).source.length - (s.shift pre errs).current + 1
      = s.source.length - s.current + 1 := by
    simp [Scanner.shift, Nat.add_sub_add_left]
  rw [scanToken, scanToken, hf]
  exact scanLoop_shift pre errs _ s START ERROR ERROR _ _

/-- The loop of `scanTokens` does behind a prefix what it does without it. -/
theorem scanTokensLoop_shift (pre : List Char) (errs : List Diagnostic) (fuel : Nat)
    (s : Scanner) :
    scanTokensLoop fuel (s.shift pre errs)
      = (scanTokensLoop fuel s).map (Scanner.shift pre errs) := by
  induction fuel generalizing s with
  | zero =>
    simp only [scanTokensLoop, Scanner.shift_isAtEnd]
    split_ifs <;> rfl
  | succ fuel ih =>
    simp only [scanTokensLoop, Scanner.shift_isAtEnd]
    split_ifs
    · rfl
    · have hst : ({ s.shift pre errs with start := (s.shift pre errs).current } : Scanner)
          = ({ s with start := s.current } : Scanner).shift pre errs := rfl
      rw [hst, scanToken_shift]
      cases scanToken { s with start := s.current } with
      | none => rfl
      | some s' => exact ih s'

/-- The value of `start` that `scanTokens` finds before a call of `scanToken`
does not matter: the loop overwrites it. -/
theorem scanTokensLoop_start (fuel : Nat) (s : Scanner) (x : Nat) (h : s.isAtEnd = false) :
    scanTokensLoop fuel { s with start := x } = scanTokensLoop fuel s := by
  have h' : ({ s with start := x } : Scanner).isAtEnd = false := h
  cases fuel with
  | zero => simp [scanTokensLoop, h, h']
  | succ fuel => simp [scanTokensLoop, h, h']

theorem getCharClass_eq_newline {c : Char} (h : getCharClass c = CHAR_NEWLINE) : c = '\n' := by
  have := (getCharClass_partition c CHAR_NEWLINE).1 h
  simpa [inClass, inNamedClass] using this

theorem getCharClass_other_ne_newline {c : Char} (h : getCharClass c = CHAR_OTHER) : c ≠ '\n' := by
  rintro rfl
  exact absurd h (by decide)

/-- The first call of `scanToken` on a buffer that begins with a character of
the catch-all class: the message is written and the character is passed. -/
theorem scanToken_unexpected {c : Char} (rest : List Char) (hc : getCharClass c = CHAR_OTHER) :
    scanToken (Scanner.init (c :: rest))
      = some ⟨c :: rest, [], 0, 1, 1, [Diagnostic.unexpectedCharacter 1 c]⟩ := by
  have h0 : (Scanner.init (c :: rest)).At [] ([] ++ c :: rest) := Scanner.init_at _
  have hn : transitionTable START (getCharClass c) = ERROR := by rw [hc]; decide
  rw [scanToken_walk_noTransition h0 rfl hn, hc]
  rfl

/-- C11: for every character `c` of the catch-all class and every buffer
`rest`, the first call of `scanToken` on `c` followed by `rest` writes the
"Unexpected character" message for `c` on line 1, pushes no token and passes
`c`; from there `scanTokens` does what it does on `rest` alone: with one more
call allowed it returns the token sequence of `rest` (or does not return when
it does not return on `rest`), and its error stream is the message for `c`
followed by the error stream of `rest`. -/
theorem scanTokens_unexpected_character (c : Char) (rest : List Char)
    (hc : getCharClass c = CHAR_OTHER) (fuel : Nat) :
    (∃ s1, scanToken (Scanner.init (c :: rest)) = some s1 ∧ s1.tokens = [] ∧
      s1.errors = [Diagnostic.unexpectedCharacter 1 c] ∧ s1.current = 1) ∧
    scanTokens (fuel + 1) (c :: rest) = scanTokens fuel rest ∧
    scanErrors (fuel + 1) (c :: rest)
      = (scanErrors fuel rest).map (fun es => Diagnostic.unexpectedCharacter 1 c :: es) := by
  have hs := scanToken_unexpected rest hc
  refine ⟨⟨_, hs, rfl, rfl, rfl⟩, ?_⟩
  have hstep : scanTokensLoop (fuel + 1) (Scanner.init (c :: rest))
      = scanTokensLoop fuel ⟨c :: rest, [], 0, 1, 1, [Diagnostic.unexpectedCharacter 1 c]⟩ :=
    scanTokensLoop_step (Scanner.init_at (c :: rest)) hs fuel
  cases rest with
  | nil =>
    have hend : (⟨[c], [], 0, 1, 1, [Diagnostic.unexpectedCharacter 1 c]⟩ : Scanner).At [c] [] :=
      ⟨rfl, rfl⟩
    have hnil : scanTokensLoop fuel (Scanner.init []) = some (Scanner.init []) :=
      scanTokensLoop_atEnd (Scanner.init_at []) fuel
    simp only [scanTokens, scanErrors, scanTokensRun, hstep, scanTokensLoop_atEnd hend, hnil]
    exact ⟨rfl, rfl⟩
  | cons r rs =>
    have hne : (Scanner.shift [c] [Diagnostic.unexpectedCharacter 1 c]
        (Scanner.init (r :: rs))).isAtEnd = false := by
      rw [Scanner.shift_isAtEnd]
      exact (Scanner.init_at (r :: rs)).isAtEnd_cons
    have hsh : scanTokensLoop fuel
        ⟨c :: r :: rs, [], 0, 1, 1, [Diagnostic.unexpectedCharacter 1 c]⟩
        = (scanTokensLoop fuel (Scanner.init (r :: rs))).map
            (Scanner.shift [c] [Diagnostic.unexpectedCharacter 1 c]) := by
      rw [← scanTokensLoop_shift]
      exact scanTokensLoop_start fuel _ 0 hne
    simp only [scanTokens, scanErrors, scanTokensRun, hstep, hsh]
    cases scanTokensLoop fuel (Scanner.init (r :: rs)) with
    | none => exact ⟨rfl, rfl⟩
    | some r' => exact ⟨rfl, rfl⟩

theorem scanTokens_unexpected_character_witness :
    ((∃ s1, scanToken (Scanner.init ('@' :: "x".toList)) = some s1 ∧ s1.tokens = [] ∧
      s1.errors = [Diagnostic.unexpectedCharacter 1 '@'] ∧ s1.current = 1) ∧
    scanTokens (1 + 1) ('@' :: "x".toList) = scanTokens 1 "x".toList ∧
    scanErrors (1 + 1) ('@' :: "x".toList)
      = (scanErrors 1 "x".toList).map (fun es => Diagnostic.unexpectedCharacter 1 '@' :: es)) ∧
    scanTokens 1 "x".toList = some [⟨IDENTIFIER, "x".toList, 1⟩, ⟨TOKEN_EOF, [], 1⟩] ∧
    scanErrors 1 "x".toList = some [] :=
  ⟨scanTokens_unexpected_character '@' "x".toList (by decide) 1, by decide, by decide⟩

/-! ## Line comments -/

theorem transitionTable_comment {cc : CharClass} (h : cc ≠ CHAR_NEWLINE) :
    transitionTable IN_COMMENT cc = IN_COMMENT := by
  cases cc <;> first | decide | exact absurd rfl h

theorem walk_comment {t : List Char} (h : '\n' ∉ t) : walk IN_COMMENT t = some IN_COMMENT := by
  induction t with
  | nil => rfl
  | cons c cs ih =>
    have hc : getCharClass c ≠ CHAR_NEWLINE := fun e =>
      h (getCharClass_eq_newline e ▸ List.mem_cons_self _ _)
    have hn : (IN_COMMENT : State) ≠ ERROR := by decide
    simp only [walk, transitionTable_comment hc, hn, if_false]
    exact ih (fun hm => h (List.mem_cons_of_mem _ hm))

theorem walk_start_comment {t : List Char} (h : '\n' ∉ t) :
    walk START ('/' :: '/' :: t) = some IN_COMMENT := by
  have h0 : getCharClass '/' = CHAR_SLASH := by decide
  have h1 : transitionTable START CHAR_SLASH = IN_SLASH := by decide
  have h2 : transitionTable IN_SLASH CHAR_SLASH = IN_COMMENT := by decide
  have h3 : (IN_SLASH : State) ≠ ERROR := by decide
  have h4 : (IN_COMMENT : State) ≠ ERROR := by decide
  simp only [walk, h0, h1, h2, h3, h4, if_false]
  exact walk_comment h

theorem count_newline_comment {t : List Char} (h : '\n' ∉ t) :
    ('/' :: '/' :: t).count '\n' = 0 := by
  rw [List.count_eq_zero]
  intro hm
  rcases List.mem_cons.1 hm with e | hm
  · exact absurd e (by decide)
  · rcases List.mem_cons.1 hm with e | hm
    · exact absurd e (by decide)
    · exact h hm

/-- C13: for every string `t` without a newline and every buffer `rest`, the
first call of `scanToken` on `//`, `t`, a newline and `rest` stops at the
newline without a token, and from there `scanTokens` does what it does on the
newline and `rest` alone: with one more call allowed it returns the same token
sequence (or does not return when it does not return there), and writes the
same error stream; on `//` and `t` alone it returns only `TOKEN_EOF` on line 1. -/
theorem scanTokens_line_comment (t : List Char) (ht : '\n' ∉ t) (rest : List Char)
    (fuel : Nat) :
    scanTokens (fuel + 1) ('/' :: '/' :: t ++ '\n' :: rest) = scanTokens fuel ('\n' :: rest) ∧
    scanErrors (fuel + 1) ('/' :: '/' :: t ++ '\n' :: rest) = scanErrors fuel ('\n' :: rest) ∧
    (1 ≤ fuel → scanTokens fuel ('/' :: '/' :: t) = some [⟨TOKEN_EOF, [], 1⟩]) := by
  have h0 : (Scanner.init ('/' :: '/' :: t ++ '\n' :: rest)).At []
      (('/' :: '/' :: t) ++ '\n' :: rest) := Scanner.init_at _
  have hs : scanToken { Scanner.init ('/' :: '/' :: t ++ '\n' :: rest) with
        start := (Scanner.init ('/' :: '/' :: t ++ '\n' :: rest)).current }
      = some { Scanner.shift ('/' :: '/' :: t) [] (Scanner.init ('\n' :: rest)) with
          start := 0 } := by
    have h := scanToken_walk_noTransition h0 (walk_start_comment ht)
      (show transitionTable IN_COMMENT (getCharClass '\n') = ERROR by decide)
    rw [count_newline_comment ht] at h
    rw [← show Scanner.init ('/' :: '/' :: t ++ '\n' :: rest)
        = { Scanner.init ('/' :: '/' :: t ++ '\n' :: rest) with
            start := (Scanner.init ('/' :: '/' :: t ++ '\n' :: rest)).current } from rfl, h]
    simp [scanTokenNoTransition, findAccepting, acceptingStates, Scanner.skip, Scanner.shift,
      Scanner.init]
  have hne : (Scanner.shift ('/' :: '/' :: t) [] (Scanner.init ('\n' :: rest))).isAtEnd = false := by
    rw [Scanner.shift_isAtEnd]
    exact (Scanner.init_at ('\n' :: rest)).isAtEnd_cons
  have hloop : scanTokensLoop (fuel + 1) (Scanner.init ('/' :: '/' :: t ++ '\n' :: rest))
      = (scanTokensLoop fuel (Scanner.init ('\n' :: rest))).map
          (Scanner.shift ('/' :: '/' :: t) []) := by
    rw [scanTokensLoop_step_append h0 (by simp) hs, scanTokensLoop_start fuel _ 0 hne,
      scanTokensLoop_shift]
  refine ⟨?_, ?_, fun hf => ?_⟩
  · simp only [scanTokens, scanTokensRun, hloop]
    cases scanTokensLoop fuel (Scanner.init ('\n' :: rest)) <;> rfl
  · simp only [scanErrors, scanTokensRun, hloop]
    cases scanTokensLoop fuel (Scanner.init ('\n' :: rest)) <;> rfl
  · rw [scanTokens, scanTokensRun_single (by simp) (walk_start_comment ht) hf,
      count_newline_comment ht]
    rfl

theorem scanTokens_line_comment_witness :
    scanTokens (2 + 1) ('/' :: '/' :: " c".toList ++ '\n' :: "(".toList)
      = scanTokens 2 ('\n' :: "(".toList) ∧
    scanErrors (2 + 1) ('/' :: '/' :: " c".toList ++ '\n' :: "(".toList)
      = scanErrors 2 ('\n' :: "(".toList) ∧
    scanTokens 2 ('/' :: '/' :: " c".toList) = some [⟨TOKEN_EOF, [], 1⟩] :=
  ⟨(scanTokens_line_comment " c".toList (by decide) "(".toList 2).1,
   (scanTokens_line_comment " c".toList (by decide) "(".toList 2).2.1,
   (scanTokens_line_comment " c".toList (by decide) "(".toList 2).2.2 (by decide)⟩

/-! ## The shape of one call of `scanToken` -/

/-- Whatever the rest of the input, the automaton either walks all of it or
stops in front of a character for which the table has no transition. -/
theorem walk_split (state : State) (rest : List Char) :
    (∃ st, walk state rest = some st) ∨
    (∃ block c post st, rest = block ++ c :: post ∧ walk state block = some st ∧
      transitionTable st (getCharClass c) = ERROR) := by
  induction rest generalizing state with
  | nil => exact Or.inl ⟨state, rfl⟩
  | cons c cs ih =>
    by_cases hn : transitionTable state (getCharClass c) = ERROR
    · exact Or.inr ⟨[], c, cs, state, rfl, rfl, hn⟩
    · rcases ih (transitionTable state (getCharClass c)) with ⟨st, hw⟩ | ⟨block, d, post, st, he, hw, hd⟩
      · exact Or.inl ⟨st, by simp only [walk, hn, if_false]; exact hw⟩
      · exact Or.inr ⟨c :: block, d, post, st, by rw [he]; rfl,
          by simp only [walk, hn, if_false]; exact hw, hd⟩

/-- Every call of `scanToken` is a walk of the automaton that ends at the end
of input, in the code after the loop, or in front of a character without
transition, in the branch for that. -/
theorem scanToken_cases {s : Scanner} {pre rest : List Char} (h : s.At pre rest) :
    (∃ st, walk START rest = some st ∧
      scanToken s = some (scanTokenAfterLoop (s.skip rest.length (rest.count '\n')) st)) ∨
    (∃ block c post st, rest = block ++ c :: post ∧ walk START block = some st ∧
      transitionTable st (getCharClass c) = ERROR ∧
      scanToken s = some (scanTokenNoTransition (s.skip block.length (block.count '\n')) st c
        (getCharClass c))) := by
  rcases walk_split START rest with ⟨st, hw⟩ | ⟨block, c, post, st, he, hw, hn⟩
  · exact Or.inl ⟨st, hw, scanToken_walk_atEnd h hw⟩
  · subst he
    exact Or.inr ⟨block, c, post, st, rfl, hw, hn, scanToken_walk_noTransition h hw hn⟩

theorem acceptingStates_ne_eof : ∀ kv ∈ acceptingStates, kv.2 ≠ TOKEN_EOF := by decide

theorem findAccepting_ne_eof {state : State} {type : TokenType}
    (h : findAccepting state = some type) : type ≠ TOKEN_EOF := by
  unfold findAccepting at h
  cases hf : acceptingStates.find? (fun kv => decide (kv.1 = state)) with
  | none => simp [hf] at h
  | some kv =>
    simp only [hf, Option.some.injEq] at h
    exact h ▸ acceptingStates_ne_eof kv (List.mem_of_find?_eq_some hf)

theorem keywords_ne_eof : ∀ kv ∈ keywords, kv.2 ≠ TOKEN_EOF := by decide

theorem identifierType_ne_eof (text : List Char) : identifierType text ≠ TOKEN_EOF := by
  unfold identifierType findKeyword
  cases hf : keywords.find? (fun kv => decide (kv.1 = text)) with
  | none => simp
  | some kv => exact keywords_ne_eof kv (List.mem_of_find?_eq_some hf)

/-- The code after the loop leaves the token vector alone or pushes one token,
not a `TOKEN_EOF`, with the text `source[start, current)` and the current line. -/
theorem scanTokenAfterLoop_shape (s : Scanner) (state : State) :
    (scanTokenAfterLoop s state).tokens = s.tokens ∨
    ∃ ty, ty ≠ TOKEN_EOF ∧ (scanTokenAfterLoop s state).tokens
      = s.tokens ++ [⟨ty, substr s.source s.start (s.current - s.start), s.line⟩] := by
  unfold scanTokenAfterLoop
  split
  · rename_i type hacc
    split_ifs
    · exact Or.inr ⟨_, identifierType_ne_eof _, rfl⟩
    · exact Or.inr ⟨NUMBER, by decide, rfl⟩
    · exact Or.inl rfl
    · exact Or.inr ⟨type, findAccepting_ne_eof hacc, rfl⟩
    · exact Or.inl rfl
  · exact Or.inl rfl

/-- The branch without transition keeps the source and the line; it leaves the
cursor and pushes at most one token, not a `TOKEN_EOF`, whose text is
`source[start, current)` or, in `STRING_END`, that text without its first and
last character; or, in `START` on a character of the catch-all class, it passes
the character and pushes nothing. -/
theorem scanTokenNoTransition_shape (s : Scanner) (state : State) (c : Char) (cc : CharClass) :
    (scanTokenNoTransition s state c cc).source = s.source ∧
    (scanTokenNoTransition s state c cc).line = s.line ∧
    (((scanTokenNoTransition s state c cc).current = s.current ∧
        (scanTokenNoTransition s state c cc).tokens = s.tokens) ∨
     ((scanTokenNoTransition s state c cc).current = s.current ∧
        ∃ ty, ty ≠ TOKEN_EOF ∧ (scanTokenNoTransition s state c cc).tokens
          = s.tokens ++ [⟨ty, substr s.source s.start (s.current - s.start), s.line⟩]) ∨
     ((scanTokenNoTransition s state c cc).current = s.current ∧ state = STRING_END ∧
        (scanTokenNoTransition s state c cc).tokens
          = s.tokens ++ [⟨STRING, substr s.source (s.start + 1) (s.current - s.start - 2),
              s.line⟩]) ∨
     (state = START ∧ cc = CHAR_OTHER ∧
        (scanTokenNoTransition s state c cc).current = s.current + 1 ∧
        (scanTokenNoTransition s state c cc).tokens = s.tokens)) := by
  unfold scanTokenNoTransition
  split
  · rename_i type hacc
    split_ifs with h1 h2 h3 h4
    · exact ⟨rfl, rfl, Or.inr (Or.inr (Or.inl ⟨rfl, h1, rfl⟩))⟩
    · exact ⟨rfl, rfl, Or.inr (Or.inl ⟨rfl, NUMBER, by decide, rfl⟩)⟩
    · exact ⟨rfl, rfl, Or.inr (Or.inl ⟨rfl, _, identifierType_ne_eof _, rfl⟩)⟩
    · exact ⟨rfl, rfl, Or.inr (Or.inl ⟨rfl, type, findAccepting_ne_eof hacc, rfl⟩)⟩
    · exact ⟨rfl, rfl, Or.inl ⟨rfl, rfl⟩⟩
  · split_ifs with h1
    · exact ⟨rfl, rfl, Or.inr (Or.inr (Or.inr ⟨h1.1, h1.2, rfl, rfl⟩))⟩
    · exact ⟨rfl, rfl, Or.inl ⟨rfl, rfl⟩⟩

/-! ## Lines of tokens -/

/-- A token whose lexeme is a piece `mid` of the source and whose line counts
the newlines up to the end of the piece was pushed at the end of the piece. -/
theorem pushedAt_mid (pre mid post : List Char) (ty : TokenType) (ln p : Nat)
    (hty : ty ≠ TOKEN_EOF) (hln : ln = 1 + (pre ++ mid).count '\n')
    (hp : p = pre.length + mid.length) : PushedAt (pre ++ mid ++ post) ⟨ty, mid, ln⟩ p := by
  subst hp
  have ht : List.take (pre.length + mid.length) (pre ++ mid ++ post) = pre ++ mid := by
    rw [← List.length_append, List.take_left']
    rfl
  have hl : ln = lineAt (pre ++ mid ++ post) (pre.length + mid.length) := by
    simp only [lineAt, ht, hln]
  exact ⟨hty, hl, Or.inl ⟨by simp, by simp, by simp [substr], hl⟩⟩

/-- A `STRING` token whose lexeme is the text `mid` between two quotes of the
source and whose line counts the newlines up to the closing quote was pushed
just behind the closing quote. -/
theorem pushedAt_trimmed (pre mid post : List Char) (x : Char) (ln p : Nat)
    (hln : ln = 1 + (pre ++ (x :: mid ++ ['"'])).count '\n')
    (hp : p = pre.length + (mid.length + 2)) :
    PushedAt (pre ++ (x :: mid ++ ['"']) ++ post) ⟨STRING, mid, ln⟩ p := by
  subst hp
  have hsrc : pre ++ (x :: mid ++ ['"']) ++ post = (pre ++ [x]) ++ mid ++ ('"' :: post) := by
    simp
  have ht : List.take (pre.length + (mid.length + 2)) (pre ++ (x :: mid ++ ['"']) ++ post)
      = pre ++ (x :: mid ++ ['"']) := by
    have hlen : pre.length + (mid.length + 2) = (pre ++ (x :: mid ++ ['"'])).length := by
      simp only [List.length_append, List.length_cons, List.length_nil]
    rw [hlen, List.take_left']
    rfl
  have ht2 : List.take ((pre ++ [x]).length + mid.length) ((pre ++ [x]) ++ mid ++ ('"' :: post))
      = (pre ++ [x]) ++ mid := by
    rw [← List.length_append, List.take_left']
    rfl
  have hcount : (pre ++ (x :: mid ++ ['"'])).count '\n' = ((pre ++ [x]) ++ mid).count '\n' := by
    simp [List.count_append, List.count_cons]
  refine ⟨(by decide : STRING ≠ TOKEN_EOF), by simp only [lineAt, ht, hln], Or.inr ⟨rfl, (pre ++ [x]).length + mid.length,
    by simp; omega, ?_, by simp, by simp; omega, ?_, ?_⟩⟩
  · rw [hsrc, List.getD_eq_getElem?_getD, ← List.length_append, List.getElem?_append_right (le_refl _)]
    simp
  · rw [hsrc]
    simp [substr]
  · rw [hsrc]
    simp only [lineAt, ht2, hln, hcount]

theorem transitionTable_eq_string_end {state : State} {cc : CharClass}
    (h : transitionTable state cc = STRING_END) : state = IN_STRING ∧ cc = CHAR_QUOTE := by
  revert h
  cases state <;> cases cc <;> decide

/-- A walk from `START` that ends in `STRING_END` has passed at least two
characters, the last of them a double quote. -/
theorem walk_start_string_end {block : List Char} (h : walk START block = some STRING_END) :
    ∃ x mid, block = x :: mid ++ ['"'] := by
  rcases List.eq_nil_or_concat block with rfl | ⟨init, b, rfl⟩
  · exact absurd h (by decide)
  · rw [List.concat_eq_append] at h ⊢
    rw [walk_append] at h
    cases hi : walk START init with
    | none => simp [hi] at h
    | some st =>
      simp only [hi, Option.some_bind, walk] at h
      split_ifs at h with hn
      obtain ⟨rfl, hq⟩ := transitionTable_eq_string_end (Option.some.inj h)
      have hb := getCharClass_eq_quote hq
      subst hb
      cases init with
      | nil => exact absurd hi (by decide)
      | cons x mid => exact ⟨x, mid, rfl⟩

theorem count_newline_append_one (pre block : List Char) (k : Nat)
    (h : k = 1 + pre.count '\n') : k + block.count '\n' = 1 + (pre ++ block).count '\n' := by
  rw [List.count_append, h, Nat.add_assoc]

/-- What one call of `scanToken` made by `scanTokens` does to a scanner whose
line counter counts the newlines passed: it keeps the source, moves the cursor
forward or leaves it, keeps the line counter in step with the cursor, and
pushes at most one token; the token carries the line counter of the moment the
call returns, and it was pushed at the cursor that the call leaves. -/
theorem scanToken_shape {s r : Scanner} {pre rest : List Char} (h : s.At pre rest)
    (hstart : s.start = s.current) (hline : s.line = 1 + pre.count '\n')
    (hr : scanToken s = some r) :
    r.source = s.source ∧ r.errors.length ≤ s.errors.length + 1 ∧
    (∃ pre' rest', r.At pre' rest' ∧ pre.length ≤ pre'.length ∧
      r.line = 1 + pre'.count '\n') ∧
    s.line ≤ r.line ∧
    (r.tokens = s.tokens ∨
      ∃ t, r.tokens = s.tokens ++ [t] ∧ t.line = r.line ∧
        PushedAt s.source t r.current) := by
  obtain ⟨hsrc, hcur⟩ := h
  rw [hcur] at hstart
  rcases scanToken_cases ⟨hsrc, hcur⟩ with ⟨st, hw, hs⟩ | ⟨block, c, post, st, he, hw, hn, hs⟩
  · -- the walk reaches the end of input
    rw [hs] at hr
    cases hr
    obtain ⟨h1, h2, h3⟩ := scanTokenAfterLoop_source (s.skip rest.length (rest.count '\n')) st
    have hl : (s.skip rest.length (rest.count '\n')).line = 1 + (pre ++ rest).count '\n' :=
      count_newline_append_one pre rest _ hline
    have hat : (scanTokenAfterLoop (s.skip rest.length (rest.count '\n')) st).At (pre ++ rest) [] :=
      ⟨by rw [h1]; simpa [Scanner.skip] using hsrc, by rw [h2]; simp [Scanner.skip, hcur]⟩
    refine ⟨h1, ?_, ⟨pre ++ rest, [], hat, by simp, h3.trans hl⟩, ?_, ?_⟩
    · unfold scanTokenAfterLoop
      split
      · split_ifs <;> simp [Scanner.addToken, Scanner.addTokenLiteral, Scanner.skip]
      · simp [Scanner.skip]
    · rw [h3]; exact Nat.le_add_right _ _
    · rcases scanTokenAfterLoop_shape (s.skip rest.length (rest.count '\n')) st with
        ht | ⟨ty, hty, ht⟩
      · exact Or.inl ht
      · refine Or.inr ⟨_, ht, h3.symm, ?_⟩
        have htext : substr (s.skip rest.length (rest.count '\n')).source
            (s.skip rest.length (rest.count '\n')).start
            ((s.skip rest.length (rest.count '\n')).current
              - (s.skip rest.length (rest.count '\n')).start) = rest := by
          simp [Scanner.skip, hsrc, hcur, hstart, substr]
        rw [htext, hl, h2]
        have hsrc' : s.source = pre ++ rest ++ [] := by simpa using hsrc
        rw [hsrc']
        exact pushedAt_mid pre rest [] ty _ _ hty rfl (by simp [Scanner.skip, hcur])
  · -- the walk stops in front of `c`
    subst he
    rw [hs] at hr
    cases hr
    obtain ⟨h1, h3, hshape⟩ :=
      scanTokenNoTransition_shape (s.skip block.length (block.count '\n')) st c (getCharClass c)
    have hl : (s.skip block.length (block.count '\n')).line = 1 + (pre ++ block).count '\n' :=
      count_newline_append_one pre block _ hline
    have hsk : (s.skip block.length (block.count '\n')).current = (pre ++ block).length := by
      simp [Scanner.skip, hcur]
    have herr : (scanTokenNoTransition (s.skip block.length (block.count '\n')) st c
        (getCharClass c)).errors.length ≤ s.errors.length + 1 := by
      unfold scanTokenNoTransition
      split
      · split_ifs <;> simp [Scanner.addToken, Scanner.addTokenLiteral, Scanner.skip]
      · split_ifs <;> simp [Scanner.advance, Scanner.skip]
    have hstay : ∀ (_ : (scanTokenNoTransition (s.skip block.length (block.count '\n')) st c
        (getCharClass c)).current = (s.skip block.length (block.count '\n')).current),
        ∃ pre' rest', (scanTokenNoTransition (s.skip block.length (block.count '\n')) st c
          (getCharClass c)).At pre' rest' ∧ pre.length ≤ pre'.length ∧
          (scanTokenNoTransition (s.skip block.length (block.count '\n')) st c
            (getCharClass c)).line = 1 + pre'.count '\n' := by
      intro hc
      exact ⟨pre ++ block, c :: post, ⟨by rw [h1]; simpa [Scanner.skip] using hsrc,
        by rw [hc, hsk]⟩, by simp, h3.trans hl⟩
    refine ⟨h1, herr, ?_, by rw [h3]; exact Nat.le_add_right _ _, ?_⟩
    · rcases hshape with ⟨hc, -⟩ | ⟨hc, -⟩ | ⟨hc, -⟩ | ⟨-, hother, hc, -⟩
      · exact hstay hc
      · exact hstay hc
      · exact hstay hc
      · refine ⟨pre ++ block ++ [c], post, ⟨by rw [h1]; simpa [Scanner.skip] using hsrc,
          by rw [hc, hsk]; simp [Nat.add_assoc]⟩, by simp, ?_⟩
        have hcn : [c].count '\n' = 0 := by
          rw [List.count_eq_zero]
          intro hm
          exact getCharClass_other_ne_newline hother (List.mem_singleton.1 hm).symm
        have hcount : (pre ++ block ++ [c]).count '\n' = (pre ++ block).count '\n' := by
          rw [List.count_append, hcn]
          rfl
        rw [h3, hl, hcount]
    · rcases hshape with ⟨-, ht⟩ | ⟨hc, ty, hty, ht⟩ | ⟨hc, hse, ht⟩ | ⟨-, -, -, ht⟩
      · exact Or.inl ht
      · refine Or.inr ⟨_, ht, h3.symm, ?_⟩
        have htext : substr (s.skip block.length (block.count '\n')).source
            (s.skip block.length (block.count '\n')).start
            ((s.skip block.length (block.count '\n')).current
              - (s.skip block.length (block.count '\n')).start) = block := by
          simp [Scanner.skip, hsrc, hcur, hstart, substr]
        rw [htext, hl, hc]
        have hsrc' : s.source = pre ++ block ++ c :: post := by simpa using hsrc
        rw [hsrc']
        exact pushedAt_mid pre block (c :: post) ty _ _ hty rfl (by simp [Scanner.skip, hcur])
      · refine Or.inr ⟨_, ht, h3.symm, ?_⟩
        subst hse
        obtain ⟨x, mid, rfl⟩ := walk_start_string_end hw
        have htext : substr (s.skip (x :: mid ++ ['"']).length ((x :: mid ++ ['"']).count '\n')).source
            ((s.skip (x :: mid ++ ['"']).length ((x :: mid ++ ['"']).count '\n')).start + 1)
            ((s.skip (x :: mid ++ ['"']).length ((x :: mid ++ ['"']).count '\n')).current
              - (s.skip (x :: mid ++ ['"']).length ((x :: mid ++ ['"']).count '\n')).start - 2)
            = mid := by
          simp [Scanner.skip, hsrc, hcur, hstart, substr]
        rw [htext, hl, hc]
        have hsrc' : s.source = pre ++ (x :: mid ++ ['"']) ++ c :: post := by simpa using hsrc
        rw [hsrc']
        exact pushedAt_trimmed pre mid (c :: post) x _ _ rfl (by simp [Scanner.skip, hcur])
      · exact Or.inl ht

theorem Scanner.good_init (source : List Char) : (Scanner.init source).Good :=
  ⟨[], source, Scanner.init_at source, rfl, by simp [Scanner.init], by simp [Scanner.init]⟩

/-- A call of `scanToken` made by `scanTokens` keeps the scanner good. -/
theorem Scanner.Good.step {s r : Scanner} (hg : s.Good)
    (hr : scanToken { s with start := s.current } = some r) :
    r.Good ∧ r.source = s.source := by
  obtain ⟨pre, rest, hat, hline, htok, hpw⟩ := hg
  have hat' : ({ s with start := s.current } : Scanner).At pre rest := hat
  obtain ⟨hsrc, -, ⟨pre', rest', hat2, -, hline2⟩, hle, hnew⟩ :=
    scanToken_shape hat' rfl hline hr
  have hsrc' : r.source = s.source := hsrc
  refine ⟨⟨pre', rest', hat2, hline2, ?_, ?_⟩, hsrc'⟩
  · rcases hnew with ht | ⟨t, ht, htl, hpush⟩
    · intro t' ht'
      rw [ht] at ht'
      obtain ⟨h1, h2, h3⟩ := htok t' ht'
      exact ⟨h1, h2, le_trans h3 hle⟩
    · intro t' ht'
      rw [ht] at ht'
      rcases List.mem_append.1 ht' with hm | hm
      · obtain ⟨h1, h2, h3⟩ := htok t' hm
        exact ⟨h1, h2, le_trans h3 hle⟩
      · rw [List.mem_singleton.1 hm]
        exact ⟨hpush.1, by rw [htl, hline2]; exact Nat.le_add_right _ _, le_of_eq htl⟩
  · rcases hnew with ht | ⟨t, ht, htl, hpush⟩
    · rw [ht]; exact hpw
    · rw [ht, List.pairwise_append]
      refine ⟨hpw, List.pairwise_singleton _ _, ?_⟩
      intro a ha b hb
      rw [List.mem_singleton.1 hb, htl]
      exact le_trans (htok a ha).2.2 hle

/-- The loop of `scanTokens`, when it ends, leaves a good scanner at the end of
the same source. -/
theorem Scanner.Good.loop {fuel : Nat} {s r : Scanner} (hg : s.Good)
    (hr : scanTokensLoop fuel s = some r) :
    r.Good ∧ r.source = s.source ∧ r.isAtEnd = true := by
  induction fuel generalizing s with
  | zero =>
    simp only [scanTokensLoop] at hr
    split_ifs at hr with he
    cases hr
    exact ⟨hg, rfl, he⟩
  | succ fuel ih =>
    simp only [scanTokensLoop] at hr
    split_ifs at hr with he
    · cases hr
      exact ⟨hg, rfl, he⟩
    · cases hs : scanToken { s with start := s.current } with
      | none => simp [hs] at hr
      | some s' =>
        simp only [hs] at hr
        obtain ⟨hg', hsrc'⟩ := hg.step hs
        obtain ⟨h1, h2, h3⟩ := ih hg' hr
        exact ⟨h1, h2.trans hsrc', h3⟩

/-- What `scanTokens` returns: the tokens of a good scanner at the end of the
source, and a `TOKEN_EOF` token with the final line. -/
theorem scanTokens_good {fuel : Nat} {source : List Char} {toks : List Token}
    (h : scanTokens fuel source = some toks) :
    ∃ r : Scanner, r.Good ∧ r.source = source ∧ r.isAtEnd = true ∧
      toks = r.tokens ++ [⟨TOKEN_EOF, [], r.line⟩] := by
  unfold scanTokens scanTokensRun at h
  cases hl : scanTokensLoop fuel (Scanner.init source) with
  | none => simp [hl] at h
  | some r =>
    simp only [hl, Option.map_some', Option.some.injEq] at h
    obtain ⟨h1, h2, h3⟩ := (Scanner.good_init source).loop hl
    exact ⟨r, h1, h2, h3, h.symm⟩

/-- C12: whenever `scanTokens` returns, the sequence is not empty, its last
token is a `TOKEN_EOF` with the empty lexeme, and no token before the last has
type `TOKEN_EOF`. -/
theorem scanTokens_ends_with_eof (fuel : Nat) (source : List Char) (toks : List Token)
    (h : scanTokens fuel source = some toks) :
    toks ≠ [] ∧ ∃ body ln, toks = body ++ [⟨TOKEN_EOF, [], ln⟩] ∧
      ∀ t ∈ body, t.type ≠ TOKEN_EOF := by
  obtain ⟨r, ⟨_, _, _, _, htok, _⟩, _, _, rfl⟩ := scanTokens_good h
  exact ⟨by simp, r.tokens, r.line, rfl, fun t ht => (htok t ht).1⟩

theorem scanTokens_ends_with_eof_witness :
    ([⟨IDENTIFIER, "x".toList, 1⟩, ⟨TOKEN_EOF, [], 1⟩] : List Token) ≠ [] ∧
    ∃ body ln, ([⟨IDENTIFIER, "x".toList, 1⟩, ⟨TOKEN_EOF, [], 1⟩] : List Token)
        = body ++ [⟨TOKEN_EOF, [], ln⟩] ∧
      ∀ t ∈ body, t.type ≠ TOKEN_EOF :=
  scanTokens_ends_with_eof 1 "x".toList [⟨IDENTIFIER, "x".toList, 1⟩, ⟨TOKEN_EOF, [], 1⟩]
    (by decide)

/-- C15, as the specification states it, fails on a string literal with a
newline inside: on the quoted `a`, newline, `b` followed by a semicolon the
`STRING` token carries line 2, and its text stands in the source at one place
only, which starts on line 1. -/
theorem token_line_not_start_line :
    scanTokens 2 "\"a\nb\";".toList
      = some [⟨STRING, "a\nb".toList, 2⟩, ⟨SEMICOLON, ";".toList, 2⟩, ⟨TOKEN_EOF, [], 2⟩] ∧
    ¬ StartsOnLine "\"a\nb\";".toList ⟨STRING, "a\nb".toList, 2⟩ := by
  refine ⟨by decide!, ?_⟩
  rintro ⟨b, hb, hsub, hline⟩
  have hb' : b ≤ 3 := by
    have : b + 3 ≤ 6 := hb
    omega
  interval_cases b
  · exact absurd hline (by decide)
  · exact absurd hline (by decide)
  · exact absurd hsub (by decide)
  · exact absurd hsub (by decide)

/-- The record of pushes agrees with the loop of `scanTokens`: when the loop
started from a good scanner ends, the record exists, the tokens it lists are
the tokens that the loop has added, in order, and each was pushed at the cursor
recorded with it. -/
theorem scanTokensPushes_loop {fuel : Nat} {s r : Scanner} (hg : s.Good)
    (hr : scanTokensLoop fuel s = some r) :
    ∃ ps, scanTokensPushes fuel s = some ps ∧ r.tokens = s.tokens ++ ps.map Prod.fst ∧
      ∀ tp ∈ ps, PushedAt s.source tp.1 tp.2 := by
  induction fuel generalizing s with
  | zero =>
    simp only [scanTokensLoop] at hr
    split_ifs at hr with he
    cases hr
    exact ⟨[], by simp [scanTokensPushes, he], by simp, by simp⟩
  | succ fuel ih =>
    simp only [scanTokensLoop] at hr
    split_ifs at hr with he
    · cases hr
      exact ⟨[], by simp [scanTokensPushes, he], by simp, by simp⟩
    · cases hs : scanToken { s with start := s.current } with
      | none => simp [hs] at hr
      | some s' =>
        simp only [hs] at hr
        obtain ⟨hg', hsrc'⟩ := hg.step hs
        obtain ⟨ps, hps, htoks, hall⟩ := ih hg' hr
        obtain ⟨pre, rest, hat, hline, -, -⟩ := hg
        have hat' : ({ s with start := s.current } : Scanner).At pre rest := hat
        obtain ⟨-, -, -, -, hnew⟩ := scanToken_shape hat' rfl hline hs
        rw [hsrc'] at hall
        rcases hnew with ht | ⟨t, ht, -, hpush⟩
        · have ht' : s'.tokens = s.tokens := ht
          refine ⟨ps, ?_, by rw [htoks, ht'], hall⟩
          simp [scanTokensPushes, he, hs, hps, ht']
        · have ht' : s'.tokens = s.tokens ++ [t] := ht
          refine ⟨(t, s'.current) :: ps, ?_, by rw [htoks, ht']; simp, ?_⟩
          · simp [scanTokensPushes, he, hs, hps, ht']
          · intro tp htp
            rcases List.mem_cons.1 htp with rfl | hm
            · exact hpush
            · exact hall tp hm

/-- Between two calls of `scanToken` made by `scanTokens` on a buffer shorter
than `INT_MAX`, the cursor, the line counter and the line of every token are
at most `INT_MAX`. -/
theorem Scanner.Good.fits_int {s : Scanner} (hg : s.Good) (hlen : s.source.length < INT_MAX) :
    s.current ≤ s.source.length ∧ s.current < INT_MAX ∧ s.line ≤ INT_MAX ∧
      ∀ t ∈ s.tokens, t.line ≤ INT_MAX := by
  obtain ⟨pre, rest, ⟨hsrc, hcur⟩, hline, htok, -⟩ := hg
  have h1 : pre.count '\n' ≤ pre.length := List.count_le_length _ _
  have h2 : s.source.length = pre.length + rest.length := by rw [hsrc, List.length_append]
  have h3 : s.line ≤ INT_MAX := by omega
  exact ⟨by omega, by omega, h3, fun t ht => le_trans (htok t ht).2.2 h3⟩

theorem lineAt_le (src : List Char) (pos : Nat) : lineAt src pos ≤ src.length + 1 := by
  have h1 : (src.take pos).count '\n' ≤ (src.take pos).length := List.count_le_length _ _
  have h2 : (src.take pos).length ≤ src.length := by
    rw [List.length_take]
    exact Nat.min_le_right _ _
  unfold lineAt
  omega

/-- C15, amended: on a buffer shorter than `INT_MAX`, where the `int` counters
of the source do not overflow, whenever `scanTokens` returns, the tokens before
the final `TOKEN_EOF` are, in order, the tokens that the calls of `scanToken`
pushed, and each of them carries the line on which its own text ends: pushed
with the cursor at `p`, its line is 1 plus the number of newline characters of
the source before `p`, at most `INT_MAX`, and `p` is the position just after
the last character of its lexeme, or, for a `STRING` whose quotes were trimmed,
just after the closing quote that follows the lexeme. -/
theorem token_line_is_end_line (fuel : Nat) (source : List Char) (toks : List Token)
    (hlen : source.length < INT_MAX) (h : scanTokens fuel source = some toks) :
    ∃ ps ln, scanTokensPushes fuel (Scanner.init source) = some ps ∧
      toks = ps.map Prod.fst ++ [⟨TOKEN_EOF, [], ln⟩] ∧
      ∀ tp ∈ ps, PushedAt source tp.1 tp.2 ∧ tp.1.line ≤ INT_MAX := by
  unfold scanTokens scanTokensRun at h
  cases hl : scanTokensLoop fuel (Scanner.init source) with
  | none => simp [hl] at h
  | some r =>
    simp only [hl, Option.map_some', Option.some.injEq] at h
    obtain ⟨ps, hps, htoks, hall⟩ := scanTokensPushes_loop (Scanner.good_init source) hl
    refine ⟨ps, r.line, hps, by rw [← h, htoks]; rfl, fun tp htp => ⟨hall tp htp, ?_⟩⟩
    have h1 := (hall tp htp).2.1
    have h2 := lineAt_le source tp.2
    have h3 : (Scanner.init source).source = source := rfl
    rw [h3] at h1
    omega

theorem token_line_is_end_line_witness :
    ∃ ps ln, scanTokensPushes 2 (Scanner.init "\"a\nb\";".toList) = some ps ∧
      [⟨STRING, "a\nb".toList, 2⟩, ⟨SEMICOLON, ";".toList, 2⟩, ⟨TOKEN_EOF, [], 2⟩]
        = ps.map Prod.fst ++ [⟨TOKEN_EOF, [], ln⟩] ∧
      ∀ tp ∈ ps, PushedAt "\"a\nb\";".toList tp.1 tp.2 ∧ tp.1.line ≤ INT_MAX :=
  token_line_is_end_line 2 "\"a\nb\";".toList
    [⟨STRING, "a\nb".toList, 2⟩, ⟨SEMICOLON, ";".toList, 2⟩, ⟨TOKEN_EOF, [], 2⟩] (by decide)
    (by decide!)

/-! ## The hand-written scanner: loops -/

theorem Scanner.skip_skip (s : Scanner) (n k m j : Nat) :
    (s.skip n k).skip m j = s.skip (m + n) (k + j) := by
  simp [Scanner.skip]
  omega

/-- A loop of the hand-written scanner passes a block of characters that all
satisfy its condition. -/
theorem Hand.whileLoop_block {cond : Scanner → Bool} {body : Scanner → Scanner}
    {p : Char → Bool} {k : Char → Nat}
    (hcond : ∀ (s : Scanner) (pre post : List Char) (c : Char),
      s.At pre (c :: post) → cond s = p c)
    (hbody : ∀ (s : Scanner) (pre post : List Char) (c : Char),
      s.At pre (c :: post) → body s = s.skip 1 (k c))
    {block : List Char} (hp : ∀ c ∈ block, p c = true) {s : Scanner} {pre post : List Char}
    (h : s.At pre (block ++ post)) (fuel : Nat) :
    Hand.whileLoop cond body (block.length + fuel) s
      = Hand.whileLoop cond body fuel (s.skip block.length (block.map k).sum) := by
  induction block generalizing s pre with
  | nil => simp [Scanner.skip]
  | cons c cs ih =>
    have h1 : s.At pre (c :: (cs ++ post)) := h
    have h2 : (s.skip 1 (k c)).At (pre ++ [c]) (cs ++ post) := by
      have := @Scanner.At.skip s pre [c] (cs ++ post) (by simpa using h1) (k c)
      simpa using this
    have hlen : (c :: cs).length + fuel = (cs.length + fuel) + 1 := by simp; omega
    rw [hlen, Hand.whileLoop, hcond s pre (cs ++ post) c h1, hp c (List.mem_cons_self _ _),
      if_pos rfl, hbody s pre (cs ++ post) c h1,
      ih (fun x hx => hp x (List.mem_cons_of_mem _ hx)) h2, Scanner.skip_skip]
    simp

/-- A loop of the hand-written scanner ends where its condition fails. -/
theorem Hand.whileLoop_exit {cond : Scanner → Bool} {body : Scanner → Scanner} {s : Scanner}
    (h : cond s = false) (fuel : Nat) : Hand.whileLoop cond body (fuel + 1) s = some s := by
  simp [Hand.whileLoop, h]

theorem sum_map_zero (block : List Char) : (block.map (fun _ => 0)).sum = 0 := by
  induction block with
  | nil => rfl
  | cons c cs ih => simp

/-! ## The hand-written scanner: an unterminated string -/

theorem Hand.isDigit_eq (c : Char) : Hand.isDigit c = isdigit c := by
  simp [Hand.isDigit, isdigit]

theorem Scanner.At.peek {s : Scanner} {pre post : List Char} (h : s.At pre post) :
    s.peek = post.headD '\x00' := by
  cases post with
  | nil => simp [Scanner.peek, h.isAtEnd_nil]
  | cons c cs => exact h.peek_cons

theorem Hand.peekNext_cons {s : Scanner} {pre post : List Char} {c d : Char}
    (h : s.At pre (c :: d :: post)) : Hand.peekNext s = d := by
  obtain ⟨h1, h2⟩ := h
  have hlt : ¬ (pre.length + 1 ≥ (pre ++ c :: d :: post).length) := by simp
  simp only [Hand.peekNext, h1, h2, hlt, if_false, List.getD_eq_getElem?_getD]
  rw [List.getElem?_append_right (Nat.le_add_right _ _)]
  simp

/-- The loop `while (isDigit(peek())) advance();` over a block of digits that is
followed by no digit. -/
theorem Hand.digits_loop {s : Scanner} {pre d post : List Char} (h : s.At pre (d ++ post))
    (hd : ∀ c ∈ d, isdigit c = true) (hstop : Hand.isDigit (post.headD '\x00') = false) :
    Hand.whileLoop (fun s => Hand.isDigit s.peek) Scanner.advance (Hand.loopFuel s) s
      = some (s.skip d.length 0) := by
  have hfuel : Hand.loopFuel s = d.length + (post.length + 1) := by
    simp [Hand.loopFuel, h.1, h.2]
    omega
  rw [hfuel, Hand.whileLoop_block (p := Hand.isDigit) (k := fun _ => 0) ?_ ?_ ?_ h, sum_map_zero,
    Hand.whileLoop_exit]
  · show Hand.isDigit (s.skip d.length 0).peek = false
    rw [(h.skip 0).peek]
    exact hstop
  · intro s pre post c hs
    simp [hs.peek_cons]
  · intro s pre post c hs
    rfl
  · intro c hc
    rw [Hand.isDigit_eq]
    exact hd c hc

theorem Hand.scanToken_digit {s : Scanner} {pre post : List Char} {c : Char}
    (h : s.At pre (c :: post)) (hc : isdigit c = true) :
    Hand.scanToken s = Hand.number s.advance := by
  have hget : s.source.getD s.current '\x00' = c := by
    have := h.peek_cons
    simpa [Scanner.peek, h.isAtEnd_cons] using this
  have hb := isdigit_bounds hc
  have ne : ∀ d : Char, (d.toNat < 48 ∨ 57 < d.toNat) → c ≠ d := by
    rintro d hd rfl
    omega
  have hd : Hand.isDigit c = true := by rw [Hand.isDigit_eq]; exact hc
  unfold Hand.scanToken
  simp only [hget]
  simp [hd, ne '(' (by decide), ne ')' (by decide), ne '{' (by decide),
    ne '}' (by decide), ne ',' (by decide), ne '.' (by decide), ne ';' (by decide),
    ne '+' (by decide), ne '-' (by decide), ne '*' (by decide), ne '!' (by decide),
    ne '=' (by decide), ne '>' (by decide), ne '<' (by decide), ne '/' (by decide),
    ne '"' (by decide), ne '\n' (by decide), ne ' ' (by decide), ne '\r' (by decide),
    ne '\t' (by decide)]

theorem Hand.scanToken_space {s : Scanner} {pre post : List Char} (h : s.At pre (' ' :: post)) :
    Hand.scanToken s = some s.advance := by
  have hget : s.source.getD s.current '\x00' = ' ' := by
    have := h.peek_cons
    simpa [Scanner.peek, h.isAtEnd_cons] using this
  unfold Hand.scanToken
  simp only [hget]
  simp

/-- The method `number` after the first digit of a numeral `first :: more` has
been passed, when the numeral is followed by a space or by the end of input. -/
theorem Hand.number_numeral {s : Scanner} {pre post : List Char} {first : Char}
    {more : List Char} (h : s.At pre (more ++ post)) (ha : Numeral (first :: more))
    (hpost : post = [] ∨ ∃ post', post = ' ' :: post') :
    Hand.number s
      = some ((s.skip more.length 0).addTokenLiteral NUMBER
          (substr s.source s.start (s.current + more.length - s.start))) := by
  have hstop : Hand.isDigit (post.headD '\x00') = false := by
    rcases hpost with rfl | ⟨post', rfl⟩
    · decide
    · show Hand.isDigit ' ' = false
      decide
  have hnodot : post.headD '\x00' ≠ '.' := by
    rcases hpost with rfl | ⟨post', rfl⟩
    · decide
    · show ' ' ≠ '.'
      decide
  rcases ha with hd | ⟨d, e, hd, he, hde⟩
  · -- digits only
    have hmore : ∀ c ∈ more, isdigit c = true := fun c hc => hd.2 c (List.mem_cons_of_mem _ hc)
    have hpeek : (s.skip more.length 0).peek ≠ '.' := by
      rw [(h.skip 0).peek]; exact hnodot
    rw [Hand.number, Hand.digits_loop h hmore hstop]
    simp only [hpeek, false_and, if_false]
    rfl
  · -- digits, a dot, digits
    obtain ⟨d0, d', rfl⟩ := List.exists_cons_of_ne_nil hd.1
    obtain ⟨e0, e', rfl⟩ := List.exists_cons_of_ne_nil he.1
    have hmore : more = d' ++ '.' :: e0 :: e' := by
      simp only [List.cons_append, List.cons.injEq] at hde
      exact hde.2
    subst hmore
    have hd' : ∀ c ∈ d', isdigit c = true := fun c hc => hd.2 c (List.mem_cons_of_mem _ hc)
    have h1 : s.At pre (d' ++ ('.' :: e0 :: e' ++ post)) := by simpa using h
    have h2 := h1.skip 0
    have hpeek : (s.skip d'.length 0).peek = '.' := h2.peek_cons
    have hnext : Hand.isDigit (Hand.peekNext (s.skip d'.length 0)) = true := by
      rw [Hand.peekNext_cons h2, Hand.isDigit_eq]
      exact he.2 e0 (List.mem_cons_self _ _)
    have h3 : (s.skip d'.length 0).advance.At (pre ++ d' ++ ['.']) ((e0 :: e') ++ post) := by
      have := @Scanner.At.skip (s.skip d'.length 0) (pre ++ d') ['.'] (e0 :: e' ++ post)
        (by simpa using h2) 0
      simpa using this
    rw [Hand.number, Hand.digits_loop h1 hd' (show Hand.isDigit '.' = false by decide)]
    simp only [hpeek, hnext, and_self, if_true]
    rw [Hand.digits_loop h3 he.2 hstop]
    simp only []
    congr 1
    have hlen : s.current + d'.length + 1 + (e'.length + 1)
        = s.current + (d'.length + (e'.length + 1 + 1)) := by omega
    simp [Scanner.skip, Scanner.advance, Scanner.addTokenLiteral, hlen]

/-- One call of the hand-written `scanToken` on a numeral that is followed by a
space or by the end of input: a `NUMBER` token with the numeral as lexeme. -/
theorem Hand.scanToken_numeral {s : Scanner} {pre a post : List Char} (h : s.At pre (a ++ post))
    (ha : Numeral a) (hpost : post = [] ∨ ∃ post', post = ' ' :: post') :
    Hand.scanToken { s with start := s.current }
      = some ⟨s.source, s.tokens ++ [⟨NUMBER, a, s.line⟩], s.current, s.current + a.length,
          s.line, s.errors⟩ := by
  have hne : a ≠ [] := by
    rcases ha with hd | ⟨d, e, hd, -, rfl⟩
    · exact hd.1
    · simp
  obtain ⟨first, more, rfl⟩ := List.exists_cons_of_ne_nil hne
  have hfirst : isdigit first = true := by
    rcases ha with hd | ⟨d, e, hd, -, hde⟩
    · exact hd.2 first (List.mem_cons_self _ _)
    · obtain ⟨d0, d', rfl⟩ := List.exists_cons_of_ne_nil hd.1
      simp only [List.cons_append, List.cons.injEq] at hde
      exact hde.1 ▸ hd.2 d0 (List.mem_cons_self _ _)
  have h0 : ({ s with start := s.current } : Scanner).At pre (first :: (more ++ post)) := h
  have h1 : (Scanner.advance { s with start := s.current }).At (pre ++ [first]) (more ++ post) := by
    have := @Scanner.At.skip { s with start := s.current } pre [first] (more ++ post)
      (by simpa using h0) 0
    simpa using this
  rw [Hand.scanToken_digit h0 hfirst, Hand.number_numeral h1 ha hpost]
  have htext : substr s.source s.current (more.length + 1) = first :: more := by
    rw [h.1, h.2]
    simp [substr]
  have hcur : s.current + 1 + more.length = s.current + (more.length + 1) := by omega
  have hsub : s.current + (more.length + 1) - s.current = more.length + 1 := by omega
  simp [Scanner.skip, Scanner.advance, Scanner.addTokenLiteral, htext, hcur, hsub]

theorem hand_scanTokensLoop_atEnd {s : Scanner} {pre : List Char} (h : s.At pre []) (fuel : Nat) :
    Hand.scanTokensLoop fuel s = some s := by
  cases fuel <;> simp [Hand.scanTokensLoop, h.isAtEnd_nil]

theorem hand_scanTokensLoop_step {s s' : Scanner} {pre post : List Char}
    (h : s.At pre post) (hne : post ≠ [])
    (hs : Hand.scanToken { s with start := s.current } = some s')
    (fuel : Nat) : Hand.scanTokensLoop (fuel + 1) s = Hand.scanTokensLoop fuel s' := by
  obtain ⟨c, cs, rfl⟩ := List.exists_cons_of_ne_nil hne
  simp [Hand.scanTokensLoop, h.isAtEnd_cons, hs]

theorem numeral_ne_nil {a : List Char} (ha : Numeral a) : a ≠ [] := by
  rcases ha with hd | ⟨d, e, hd, -, rfl⟩
  · exact hd.1
  · simp

/-- The loop of the hand-written `scanTokens` over numerals joined by spaces. -/
theorem Hand.scanTokensLoop_numerals (nums : List (List Char)) (hnum : ∀ a ∈ nums, Numeral a)
    {s : Scanner} {pre : List Char} (h : s.At pre (joinWithSpaces nums)) {fuel : Nat}
    (hf : (joinWithSpaces nums).length ≤ fuel) :
    ∃ r, Hand.scanTokensLoop fuel s = some r ∧
      r.tokens = s.tokens ++ nums.map (fun a => ⟨NUMBER, a, s.line⟩) ∧ r.line = s.line ∧
      r.errors = s.errors := by
  induction nums generalizing s pre fuel with
  | nil => exact ⟨s, hand_scanTokensLoop_atEnd h fuel, by simp, rfl, rfl⟩
  | cons a rest ih =>
    have ha := hnum a (List.mem_cons_self _ _)
    have hane := numeral_ne_nil ha
    cases rest with
    | nil =>
      have hlen : 1 ≤ a.length := List.length_pos.2 hane
      have hf' : a.length ≤ fuel := hf
      obtain ⟨fuel, rfl⟩ : ∃ k, fuel = k + 1 := ⟨fuel - 1, by omega⟩
      have h' : s.At pre (a ++ []) := by simpa [joinWithSpaces] using h
      have hs := Hand.scanToken_numeral h' ha (Or.inl rfl)
      have hend : (⟨s.source, s.tokens ++ [⟨NUMBER, a, s.line⟩], s.current,
          s.current + a.length, s.line, s.errors⟩ : Scanner).At (pre ++ a) [] := by
        obtain ⟨h1, h2⟩ := h'
        exact ⟨by simpa using h1, by simp [h2]⟩
      refine ⟨⟨s.source, s.tokens ++ [⟨NUMBER, a, s.line⟩], s.current, s.current + a.length,
        s.line, s.errors⟩, ?_, by simp, rfl, rfl⟩
      rw [hand_scanTokensLoop_step h' (by simpa using hane) hs, hand_scanTokensLoop_atEnd hend]
    | cons b rest' =>
      have h' : s.At pre (a ++ ' ' :: joinWithSpaces (b :: rest')) := h
      have hf' : a.length + (joinWithSpaces (b :: rest')).length + 1 ≤ fuel := by
        have : (joinWithSpaces (a :: b :: rest')).length
            = a.length + (joinWithSpaces (b :: rest')).length + 1 := by
          simp [joinWithSpaces]; omega
        omega
      have hlen : 1 ≤ a.length := List.length_pos.2 hane
      obtain ⟨fuel, rfl⟩ : ∃ k, fuel = k + 1 + 1 := ⟨fuel - 2, by omega⟩
      have hs1 := Hand.scanToken_numeral h' ha (Or.inr ⟨_, rfl⟩)
      have h1 : (⟨s.source, s.tokens ++ [⟨NUMBER, a, s.line⟩], s.current,
          s.current + a.length, s.line, s.errors⟩ : Scanner).At (pre ++ a)
          (' ' :: joinWithSpaces (b :: rest')) := by
        obtain ⟨e1, e2⟩ := h'
        exact ⟨by simpa using e1, by simp [e2]⟩
      have h1' : (⟨s.source, s.tokens ++ [⟨NUMBER, a, s.line⟩], s.current + a.length,
          s.current + a.length, s.line, s.errors⟩ : Scanner).At (pre ++ a)
          (' ' :: joinWithSpaces (b :: rest')) := h1
      have hs2 : Hand.scanToken (⟨s.source, s.tokens ++ [⟨NUMBER, a, s.line⟩],
          s.current + a.length, s.current + a.length, s.line, s.errors⟩ : Scanner)
          = some ⟨s.source, s.tokens ++ [⟨NUMBER, a, s.line⟩], s.current + a.length,
              s.current + a.length + 1, s.line, s.errors⟩ := Hand.scanToken_space h1'
      have h2 : (⟨s.source, s.tokens ++ [⟨NUMBER, a, s.line⟩], s.current + a.length,
          s.current + a.length + 1, s.line, s.errors⟩ : Scanner).At (pre ++ a ++ [' '])
          (joinWithSpaces (b :: rest')) := by
        obtain ⟨e1, e2⟩ := h'
        exact ⟨by simpa using e1, by simp [e2, Nat.add_assoc]⟩
      obtain ⟨r, hr, ht, hl, he⟩ := ih (fun x hx => hnum x (List.mem_cons_of_mem _ hx)) h2
        (show (joinWithSpaces (b :: rest')).length ≤ fuel by omega)
      refine ⟨r, ?_, ?_, hl, he⟩
      · rw [hand_scanTokensLoop_step h' (by simp) hs1, hand_scanTokensLoop_step h1 (by simp) hs2]
        exact hr
      · rw [ht]
        simp

/-- C16: for every list of numerals (digits, or digits, a dot and digits)
joined by single spaces, the hand-written `scanTokens` returns exactly one
`NUMBER` token per numeral, in order, each with the numeral as lexeme on
line 1, followed by `TOKEN_EOF`. -/
theorem hand_scanTokens_numerals (nums : List (List Char)) (hnum : ∀ a ∈ nums, Numeral a)
    (fuel : Nat) (hf : (joinWithSpaces nums).length ≤ fuel) :
    Hand.scanTokens fuel (joinWithSpaces nums)
      = some (nums.map (fun a => ⟨NUMBER, a, 1⟩) ++ [⟨TOKEN_EOF, [], 1⟩]) := by
  obtain ⟨r, hr, ht, hl, -⟩ :=
    Hand.scanTokensLoop_numerals nums hnum (Scanner.init_at (joinWithSpaces nums)) hf
  simp only [Hand.scanTokens, Hand.scanTokensRun, hr, Option.map_some', ht, hl]
  rfl

theorem hand_scanTokens_numerals_witness :
    Hand.scanTokens 17 (joinWithSpaces ["123".toList, "456.789".toList, "0.123".toList])
      = some (["123".toList, "456.789".toList, "0.123".toList].map (fun a => ⟨NUMBER, a, 1⟩)
          ++ [⟨TOKEN_EOF, [], 1⟩]) :=
  hand_scanTokens_numerals ["123".toList, "456.789".toList, "0.123".toList]
    (by
      intro a ha
      simp only [List.mem_cons, List.mem_singleton, List.not_mem_nil, or_false] at ha
      rcases ha with rfl | rfl | rfl
      · exact Or.inl (by decide)
      · exact Or.inr ⟨"456".toList, "789".toList, by decide, by decide, by decide⟩
      · exact Or.inr ⟨"0".toList, "123".toList, by decide, by decide, by decide⟩)
    17 (by decide)

/-! ## Lines of the returned tokens -/

/-- C24: on a buffer shorter than `INT_MAX`, where the `int` counters of the
source do not overflow: whenever `scanTokens` returns, every token of the
sequence, the final `TOKEN_EOF` included, has a line of at least 1 and at most
`INT_MAX`, and the lines do not decrease along the sequence: each token's line
is at most the line of every later one. -/
theorem scanTokens_lines_nondecreasing (fuel : Nat) (source : List Char) (toks : List Token)
    (hlen : source.length < INT_MAX) (h : scanTokens fuel source = some toks) :
    (∀ t ∈ toks, 1 ≤ t.line ∧ t.line ≤ INT_MAX) ∧
      toks.Pairwise (fun a b => a.line ≤ b.line) := by
  obtain ⟨r, hg, hsrc, _, rfl⟩ := scanTokens_good h
  obtain ⟨-, -, hfit, hfits⟩ := hg.fits_int (hsrc ▸ hlen)
  obtain ⟨pre, rest, _, hline, htok, hpw⟩ := hg
  constructor
  · intro t ht
    rcases List.mem_append.1 ht with hm | hm
    · exact ⟨(htok t hm).2.1, hfits t hm⟩
    · rw [List.mem_singleton.1 hm]
      show 1 ≤ r.line ∧ r.line ≤ INT_MAX
      rw [hline] at hfit ⊢
      exact ⟨Nat.le_add_right _ _, hfit⟩
  · rw [List.pairwise_append]
    refine ⟨hpw, List.pairwise_singleton _ _, ?_⟩
    intro a ha b hb
    rw [List.mem_singleton.1 hb]
    exact (htok a ha).2.2

theorem scanTokens_lines_nondecreasing_witness :
    (∀ t ∈ ([⟨LEFT_PAREN, "(".toList, 1⟩, ⟨RIGHT_PAREN, "\n)".toList, 2⟩,
        ⟨TOKEN_EOF, [], 2⟩] : List Token), 1 ≤ t.line ∧ t.line ≤ INT_MAX) ∧
    ([⟨LEFT_PAREN, "(".toList, 1⟩, ⟨RIGHT_PAREN, "\n)".toList, 2⟩,
        ⟨TOKEN_EOF, [], 2⟩] : List Token).Pairwise (fun a b => a.line ≤ b.line) :=
  scanTokens_lines_nondecreasing 2 "(\n)".toList
    [⟨LEFT_PAREN, "(".toList, 1⟩, ⟨RIGHT_PAREN, "\n)".toList, 2⟩, ⟨TOKEN_EOF, [], 2⟩]
    (by decide) (by decide!)

/-! ## Progress of the table-driven scanner away from dots -/

theorem transitionTable_start_error {cc : CharClass} (h : transitionTable START cc = ERROR) :
    cc = CHAR_DOT ∨ cc = CHAR_OTHER := by
  revert h
  cases cc <;> decide

theorem getCharClass_eq_dot {c : Char} (h : getCharClass c = CHAR_DOT) : c = '.' := by
  have := (getCharClass_partition c CHAR_DOT).1 h
  simpa [inClass, inNamedClass] using this

/-- A call of `scanToken` with a character other than the dot under the cursor
moves the cursor forward. -/
theorem scanToken_progress {s r : Scanner} {pre post : List Char} {c : Char}
    (h : s.At pre (c :: post)) (hc : c ≠ '.') (hr : scanToken s = some r) :
    s.current < r.current := by
  rcases scanToken_cases h with ⟨st, hw, hs⟩ | ⟨block, d, post', st, he, hw, hn, hs⟩
  · rw [hs] at hr
    cases hr
    rw [(scanTokenAfterLoop_source _ st).2.1]
    simp [Scanner.skip]
  · rw [hs] at hr
    cases hr
    cases block with
    | nil =>
      simp only [List.nil_append, List.cons.injEq] at he
      obtain ⟨rfl, -⟩ := he
      simp only [walk, Option.some.injEq] at hw
      subst hw
      rcases transitionTable_start_error hn with hd | ho
      · exact absurd (getCharClass_eq_dot hd) hc
      · rw [ho]
        show s.current < s.current + 0 + 1
        omega
    | cons b bs =>
      obtain ⟨-, -, hshape⟩ := scanTokenNoTransition_shape
        (s.skip (b :: bs).length ((b :: bs).count '\n')) st d (getCharClass d)
      have hsk : (s.skip (b :: bs).length ((b :: bs).count '\n')).current
          = s.current + (bs.length + 1) := rfl
      rcases hshape with ⟨h1, -⟩ | ⟨h1, -⟩ | ⟨h1, -⟩ | ⟨-, -, h1, -⟩ <;> rw [h1, hsk] <;> omega

theorem Scanner.At.rest_eq_nil {s : Scanner} {pre rest : List Char} (h : s.At pre rest)
    (he : s.isAtEnd = true) : rest = [] := by
  obtain ⟨h1, h2⟩ := h
  have : pre.length + rest.length ≤ pre.length := by
    simpa [Scanner.isAtEnd, h1, h2] using he
  exact List.length_eq_zero.1 (by omega)

/-- On a source without a dot the loop of `scanTokens` ends, given one unit of
fuel per unread character. -/
theorem scanTokensLoop_returns (n : Nat) (s : Scanner) (hg : s.Good) (hdot : '.' ∉ s.source)
    (hn : s.source.length - s.current ≤ n) (fuel : Nat) (hf : n ≤ fuel) :
    ∃ r, scanTokensLoop fuel s = some r := by
  induction n generalizing s fuel with
  | zero =>
    have he : s.isAtEnd = true := by
      simp only [Scanner.isAtEnd, decide_eq_true_eq]
      omega
    exact ⟨s, by cases fuel <;> simp [scanTokensLoop, he]⟩
  | succ n ih =>
    by_cases he : s.isAtEnd = true
    · exact ⟨s, by cases fuel <;> simp [scanTokensLoop, he]⟩
    · obtain ⟨fuel, rfl⟩ : ∃ k, fuel = k + 1 := ⟨fuel - 1, by omega⟩
      obtain ⟨pre, rest, hat, -⟩ := id hg
      have hlt : s.current < s.source.length := by
        simpa [Scanner.isAtEnd] using he
      cases rest with
      | nil =>
        exfalso
        have := hat.isAtEnd_nil
        exact he this
      | cons c post =>
        have hc : c ≠ '.' := by
          rintro rfl
          exact hdot (by rw [hat.1]; simp)
        have hat' : ({ s with start := s.current } : Scanner).At pre (c :: post) := hat
        obtain ⟨r1, hr1⟩ := Option.isSome_iff_exists.1 (scanToken_isSome { s with start := s.current })
        have hprog0 := scanToken_progress hat' hc hr1
        have hprog : s.current < r1.current := hprog0
        obtain ⟨hg1, hsrc1⟩ := hg.step hr1
        obtain ⟨r, hr⟩ := ih r1 hg1 (hsrc1 ▸ hdot) (by rw [hsrc1]; omega) fuel (by omega)
        exact ⟨r, by simp only [scanTokensLoop, he, hr1]; exact hr⟩

/-- C22: on every buffer without a dot and shorter than `INT_MAX`, where the
`int` counters of the source do not overflow, `scanTokens` returns, given fuel
for one call of `scanToken` per character, and the line of the final
`TOKEN_EOF` token is 1 plus the number of newline characters of the buffer,
which is at most `INT_MAX`. -/
theorem scanTokens_eof_line (source : List Char) (hdot : '.' ∉ source)
    (hlen : source.length < INT_MAX) (fuel : Nat) (hf : source.length ≤ fuel) :
    (∃ body, scanTokens fuel source
      = some (body ++ [⟨TOKEN_EOF, [], 1 + source.count '\n'⟩])) ∧
    1 + source.count '\n' ≤ INT_MAX := by
  refine ⟨?_, by have := List.count_le_length '\n' source; omega⟩
  obtain ⟨r, hr⟩ := scanTokensLoop_returns source.length (Scanner.init source)
    (Scanner.good_init source) hdot (by simp [Scanner.init]) fuel hf
  obtain ⟨⟨pre, rest, hat, hline, -⟩, hsrc, hend⟩ := (Scanner.good_init source).loop hr
  have hrest := hat.rest_eq_nil hend
  subst hrest
  have hpre : pre = source := by
    have h1 := hat.1
    rw [hsrc] at h1
    simpa using h1.symm
  subst hpre
  exact ⟨r.tokens, by simp [scanTokens, scanTokensRun, hr, hline]⟩

theorem scanTokens_eof_line_witness :
    (∃ body, scanTokens 10 "\"a\nb\" //c\n".toList
      = some (body ++ [⟨TOKEN_EOF, [], 1 + "\"a\nb\" //c\n".toList.count '\n'⟩])) ∧
    1 + "\"a\nb\" //c\n".toList.count '\n' ≤ INT_MAX :=
  scanTokens_eof_line "\"a\nb\" //c\n".toList (by decide) (by decide) 10 (by decide)

/-! ## Operators of one or two characters -/

/-- C3 (the code has the property except when the second character is a dot):
for each head `h` of `!`, `=`, `<`, `>` with its one-character type `one` and
its two-character type `two`, the buffer `h=` gives exactly the token `two`
with lexeme `h=` and then `TOKEN_EOF`.  For every character `c` other than `=`
the first call of `scanToken` on the buffer `hc` stops after `h` and pushes the
token `one` with lexeme `h`; when `c` is not a dot either, `scanTokens` returns
on `hc`, given two calls of `scanToken`, and that token is the first of the
sequence.  On the buffer `h.` however `scanTokens` does not return, whatever the
number of calls allowed, so there is no first token. -/
theorem scanTokens_operators (h : Char) (one two : TokenType)
    (hh : (h, one, two) ∈ operatorHeads) :
    (∀ fuel, 1 ≤ fuel →
      scanTokens fuel [h, '='] = some [⟨two, [h, '='], 1⟩, ⟨TOKEN_EOF, [], 1⟩]) ∧
    (∀ c, c ≠ '=' →
      ∃ s', scanToken (Scanner.init [h, c]) = some s' ∧
        s'.tokens = [⟨one, [h], 1⟩] ∧ s'.current = 1) ∧
    (∀ c, c ≠ '=' → c ≠ '.' → ∀ fuel, 2 ≤ fuel →
      ∃ rest, scanTokens fuel [h, c] = some (⟨one, [h], 1⟩ :: rest)) ∧
    (∀ fuel, scanTokens fuel [h, '.'] = none) := by
  have hcases : (h = '!' ∧ one = BANG ∧ two = BANG_EQUAL) ∨ (h = '=' ∧ one = EQUAL ∧ two = EQUAL_EQUAL)
      ∨ (h = '<' ∧ one = LESS ∧ two = LESS_EQUAL) ∨ (h = '>' ∧ one = GREATER ∧ two = GREATER_EQUAL) := by
    simpa [operatorHeads] using hh
  have key : ∀ state : State, walk START [h] = some state →
      (state = IN_BANG ∨ state = IN_EQUAL ∨ state = IN_LESS ∨ state = IN_GREATER) →
      [h].count '\n' = 0 → h ≠ '.' →
      (∀ (s : Scanner) (c : Char) (cc : CharClass),
        scanTokenNoTransition s state c cc = s.addToken one) →
      (∀ c, c ≠ '=' →
        ∃ s', scanToken (Scanner.init [h, c]) = some s' ∧
          s'.tokens = [⟨one, [h], 1⟩] ∧ s'.current = 1) ∧
      (∀ c, c ≠ '=' → c ≠ '.' → ∀ fuel, 2 ≤ fuel →
        ∃ rest, scanTokens fuel [h, c] = some (⟨one, [h], 1⟩ :: rest)) ∧
      (∀ fuel, scanTokens fuel [h, '.'] = none) := by
    intro state hw hst hcount hdot hexit
    have hcall : ∀ c, c ≠ '=' → scanToken (Scanner.init [h, c])
        = some (((Scanner.init [h, c]).skip 1 0).addToken one) := by
      intro c hc
      have hn : transitionTable state (getCharClass c) = ERROR :=
        transitionTable_operator_head hst (fun e => hc (getCharClass_eq_equal e))
      have hs := scanToken_head_then_other hw hn
      rw [hexit, hcount] at hs
      exact hs
    refine ⟨fun c hc => ⟨_, hcall c hc, rfl, rfl⟩, ?_, ?_⟩
    · intro c hc hcd fuel hf
      have hnodot : '.' ∉ (Scanner.init [h, c]).source := by
        simp only [Scanner.init, List.mem_cons, List.mem_singleton, List.not_mem_nil, or_false,
          not_or]
        exact ⟨fun e => hdot e.symm, fun e => hcd e.symm⟩
      obtain ⟨r, hr⟩ := scanTokensLoop_returns 2 (Scanner.init [h, c])
        (Scanner.good_init [h, c]) hnodot (by simp [Scanner.init]) fuel hf
      have hret : scanTokens fuel [h, c] = some (r.tokens ++ [⟨TOKEN_EOF, [], r.line⟩]) := by
        simp [scanTokens, scanTokensRun, hr]
      have hhead := scanTokens_head (hcall c hc) rfl hret
      cases htoks : r.tokens ++ [⟨TOKEN_EOF, [], r.line⟩] with
      | nil => simp at htoks
      | cons t rest =>
        rw [htoks] at hhead hret
        simp only [List.head?_cons, Option.some.injEq] at hhead
        exact ⟨rest, by rw [hret, hhead]; rfl⟩
    · intro fuel
      have hat : (((Scanner.init [h, '.']).skip 1 0).addToken one).At [h] ['.'] := ⟨rfl, rfl⟩
      cases fuel with
      | zero => simp [scanTokens, scanTokensRun, scanTokensLoop,
          (Scanner.init_at [h, '.']).isAtEnd_cons]
      | succ fuel =>
        have hstep := scanTokensLoop_step (Scanner.init_at [h, '.']) (hcall '.' (by decide)) fuel
        simp [scanTokens, scanTokensRun, hstep, scanTokensLoop_dot fuel hat]
  rcases hcases with h | h | h | h <;> obtain ⟨rfl, rfl, rfl⟩ := h
  · exact ⟨fun fuel hf => scanTokens_mono (by decide) hf,
      key IN_BANG (by decide) (by decide) (by decide) (by decide) (fun _ _ _ => rfl)⟩
  · exact ⟨fun fuel hf => scanTokens_mono (by decide) hf,
      key IN_EQUAL (by decide) (by decide) (by decide) (by decide) (fun _ _ _ => rfl)⟩
  · exact ⟨fun fuel hf => scanTokens_mono (by decide) hf,
      key IN_LESS (by decide) (by decide) (by decide) (by decide) (fun _ _ _ => rfl)⟩
  · exact ⟨fun fuel hf => scanTokens_mono (by decide) hf,
      key IN_GREATER (by decide) (by decide) (by decide) (by decide) (fun _ _ _ => rfl)⟩

theorem scanTokens_operators_witness :
    (∀ fuel, 1 ≤ fuel →
      scanTokens fuel ['!', '='] = some [⟨BANG_EQUAL, ['!', '='], 1⟩, ⟨TOKEN_EOF, [], 1⟩]) ∧
    (∀ c, c ≠ '=' →
      ∃ s', scanToken (Scanner.init ['!', c]) = some s' ∧
        s'.tokens = [⟨BANG, ['!'], 1⟩] ∧ s'.current = 1) ∧
    (∀ c, c ≠ '=' → c ≠ '.' → ∀ fuel, 2 ≤ fuel →
      ∃ rest, scanTokens fuel ['!', c] = some (⟨BANG, ['!'], 1⟩ :: rest)) ∧
    (∀ fuel, scanTokens fuel ['!', '.'] = none) :=
  scanTokens_operators '!' BANG BANG_EQUAL (by decide)

/-! ## The two scanners compared -/

/-- More fuel does not change a result of the loop of the hand-written
`scanTokens`. -/
theorem hand_scanTokensLoop_mono {fuel : Nat} {s r : Scanner}
    (h : Hand.scanTokensLoop fuel s = some r) (k : Nat) :
    Hand.scanTokensLoop (fuel + k) s = some r := by
  induction fuel generalizing s with
  | zero =>
    simp only [Hand.scanTokensLoop] at h
    split_ifs at h with he
    cases k <;> simp [Hand.scanTokensLoop, he, h]
  | succ fuel ih =>
    rw [Nat.add_right_comm]
    simp only [Hand.scanTokensLoop] at h ⊢
    split_ifs at h ⊢ with he
    · exact h
    · cases hs : Hand.scanToken { s with start := s.current } with
      | none => simp [hs] at h
      | some s' =>
        simp only [hs] at h ⊢
        exact ih h

theorem hand_scanTokens_mono {fuel : Nat} {source : List Char} {toks : List Token}
    (h : Hand.scanTokens fuel source = some toks) {fuel' : Nat} (hf : fuel ≤ fuel') :
    Hand.scanTokens fuel' source = some toks := by
  obtain ⟨k, rfl⟩ := Nat.exists_eq_add_of_le hf
  unfold Hand.scanTokens Hand.scanTokensRun at h ⊢
  cases hl : Hand.scanTokensLoop fuel (Scanner.init source) with
  | none => simp [hl] at h
  | some s => rw [hand_scanTokensLoop_mono hl k]; simpa [hl] using h

/-- A result of `scanTokens` does not depend on the fuel. -/
theorem scanTokens_fuel_irrelevant {f g : Nat} {source : List Char} {a b : List Token}
    (ha : scanTokens f source = some a) (hb : scanTokens g source = some b) : a = b := by
  have h1 := scanTokens_mono ha (le_max_left f g)
  have h2 := scanTokens_mono hb (le_max_right f g)
  exact Option.some.inj (h1.symm.trans h2)

/-- A result of the hand-written `scanTokens` does not depend on the fuel. -/
theorem hand_scanTokens_fuel_irrelevant {f g : Nat} {source : List Char} {a b : List Token}
    (ha : Hand.scanTokens f source = some a) (hb : Hand.scanTokens g source = some b) :
    a = b := by
  have h1 := hand_scanTokens_mono ha (le_max_left f g)
  have h2 := hand_scanTokens_mono hb (le_max_right f g)
  exact Option.some.inj (h1.symm.trans h2)

theorem eq_and_eq_and_ne {α : Type} {a b x y : α} (ha : a = x) (hb : b = y) (hne : x ≠ y) :
    a = x ∧ b = y ∧ a ≠ b :=
  ⟨ha, hb, by rw [ha, hb]; exact hne⟩

/-- C21: on the shared test input `! != == = < <= > >=`, whatever the fuel with
which the two scanners return (8 and 15 calls of `scanToken` are enough), their
token sequences differ: the types and lines agree at every position, but from
the second token on the lexeme of `TableDrivenScanner` begins with the space
before the operator, while the lexeme of the hand-written `Scanner` is the
operator alone. -/
theorem scanTokens_differs_from_hand (f g : Nat) (table hand : List Token)
    (ht : scanTokens f "! != == = < <= > >=".toList = some table)
    (hh : Hand.scanTokens g "! != == = < <= > >=".toList = some hand) :
    table = [⟨BANG, "!".toList, 1⟩, ⟨BANG_EQUAL, " !=".toList, 1⟩,
      ⟨EQUAL_EQUAL, " ==".toList, 1⟩, ⟨EQUAL, " =".toList, 1⟩, ⟨LESS, " <".toList, 1⟩,
      ⟨LESS_EQUAL, " <=".toList, 1⟩, ⟨GREATER, " >".toList, 1⟩,
      ⟨GREATER_EQUAL, " >=".toList, 1⟩, ⟨TOKEN_EOF, [], 1⟩] ∧
    hand = [⟨BANG, "!".toList, 1⟩, ⟨BANG_EQUAL, "!=".toList, 1⟩,
      ⟨EQUAL_EQUAL, "==".toList, 1⟩, ⟨EQUAL, "=".toList, 1⟩, ⟨LESS, "<".toList, 1⟩,
      ⟨LESS_EQUAL, "<=".toList, 1⟩, ⟨GREATER, ">".toList, 1⟩,
      ⟨GREATER_EQUAL, ">=".toList, 1⟩, ⟨TOKEN_EOF, [], 1⟩] ∧
    table ≠ hand := by
  exact eq_and_eq_and_ne (scanTokens_fuel_irrelevant (g := 8) ht (by decide!))
    (hand_scanTokens_fuel_irrelevant (g := 15) hh (by decide!)) (by decide)

theorem scanTokens_differs_from_hand_witness :
    [⟨BANG, "!".toList, 1⟩, ⟨BANG_EQUAL, " !=".toList, 1⟩,
      ⟨EQUAL_EQUAL, " ==".toList, 1⟩, ⟨EQUAL, " =".toList, 1⟩, ⟨LESS, " <".toList, 1⟩,
      ⟨LESS_EQUAL, " <=".toList, 1⟩, ⟨GREATER, " >".toList, 1⟩,
      ⟨GREATER_EQUAL, " >=".toList, 1⟩, (⟨TOKEN_EOF, [], 1⟩ : Token)] ≠
    [⟨BANG, "!".toList, 1⟩, ⟨BANG_EQUAL, "!=".toList, 1⟩,
      ⟨EQUAL_EQUAL, "==".toList, 1⟩, ⟨EQUAL, "=".toList, 1⟩, ⟨LESS, "<".toList, 1⟩,
      ⟨LESS_EQUAL, "<=".toList, 1⟩, ⟨GREATER, ">".toList, 1⟩,
      ⟨GREATER_EQUAL, ">=".toList, 1⟩, ⟨TOKEN_EOF, [], 1⟩] :=
  (scanTokens_differs_from_hand 8 15 _ _ (by decide!) (by decide!)).2.2

/-! ## The hand-written scanner: termination and bounds -/

theorem Scanner.Within.refl {s : Scanner} (h : s.current ≤ s.source.length) : s.Within s :=
  ⟨rfl, le_refl _, h⟩

theorem Scanner.Within.trans {s r t : Scanner} (h1 : s.Within r) (h2 : r.Within t) : s.Within t :=
  ⟨h2.1.trans h1.1, le_trans h1.2.1 h2.2.1, h2.2.2⟩

theorem Scanner.peek_atEnd {s : Scanner} (h : s.isAtEnd = true) : s.peek = '\x00' := by
  simp [Scanner.peek, h]

theorem Scanner.lt_of_not_atEnd {s : Scanner} (h : s.isAtEnd = false) :
    s.current < s.source.length := by
  simpa [Scanner.isAtEnd] using h

/-- A loop of the hand-written scanner whose condition fails at the end of
input and whose body passes one character returns, with the fuel it is given,
and leaves the cursor within the source. -/
theorem Hand.whileLoop_within {cond : Scanner → Bool} {body : Scanner → Scanner}
    (hcond : ∀ s, cond s = true → s.isAtEnd = false)
    (hbody : ∀ s, (body s).source = s.source ∧ (body s).current = s.current + 1)
    (fuel : Nat) (s : Scanner) (hs : s.current ≤ s.source.length)
    (hf : s.source.length - s.current < fuel) :
    ∃ r, Hand.whileLoop cond body fuel s = some r ∧ s.Within r := by
  induction fuel generalizing s with
  | zero => omega
  | succ fuel ih =>
    by_cases hc : cond s = true
    · have hlt := Scanner.lt_of_not_atEnd (hcond s hc)
      obtain ⟨h1, h2⟩ := hbody s
      obtain ⟨r, hr, hw⟩ := ih (body s) (by rw [h1, h2]; omega) (by rw [h1, h2]; omega)
      refine ⟨r, by simp only [Hand.whileLoop, hc, if_true]; exact hr, ?_⟩
      exact ⟨hw.1.trans h1, by have := hw.2.1; omega, hw.2.2⟩
    · exact ⟨s, by simp [Hand.whileLoop, hc], Scanner.Within.refl hs⟩

theorem Hand.isDigit_peek {s : Scanner} (h : Hand.isDigit s.peek = true) : s.isAtEnd = false := by
  by_contra he
  rw [Scanner.peek_atEnd (by simpa using he)] at h
  exact absurd h (by decide)

theorem Hand.isAlphaNumeric_peek {s : Scanner} (h : Hand.isAlphaNumeric s.peek = true) :
    s.isAtEnd = false := by
  by_contra he
  rw [Scanner.peek_atEnd (by simpa using he)] at h
  exact absurd h (by decide)

theorem Hand.digits_within (s : Scanner) (hs : s.current ≤ s.source.length) :
    ∃ r, Hand.whileLoop (fun s => Hand.isDigit s.peek) Scanner.advance (Hand.loopFuel s) s
      = some r ∧ s.Within r :=
  @Hand.whileLoop_within (fun s => Hand.isDigit s.peek) Scanner.advance
    (fun _ h => Hand.isDigit_peek h) (fun _ => ⟨rfl, rfl⟩) _ s hs (Nat.lt_succ_self _)

/-- The method `match` leaves the cursor within the source. -/
theorem Hand.matchChar_within (s : Scanner) (expected : Char) (hs : s.current ≤ s.source.length) :
    s.Within (Hand.matchChar s expected).2 := by
  unfold Hand.matchChar
  split_ifs with h1 h2
  · exact Scanner.Within.refl hs
  · exact Scanner.Within.refl hs
  · have hlt := Scanner.lt_of_not_atEnd (by simpa using h1)
    exact ⟨rfl, Nat.le_succ _, hlt⟩

theorem Scanner.Within.addToken {s r : Scanner} (h : s.Within r) (type : TokenType) :
    s.Within (r.addToken type) := h

theorem Scanner.Within.addTokenLiteral {s r : Scanner} (h : s.Within r) (type : TokenType)
    (literal : List Char) : s.Within (r.addTokenLiteral type literal) := h

theorem Scanner.Within.advance {s r : Scanner} (h : s.Within r) (he : r.isAtEnd = false) :
    s.Within r.advance :=
  ⟨h.1, Nat.le_succ_of_le h.2.1, Scanner.lt_of_not_atEnd he⟩

/-- The method `string` returns and leaves the cursor within the source. -/
theorem Hand.string_within (s : Scanner) (hs : s.current ≤ s.source.length) :
    ∃ r, Hand.string s = some r ∧ s.Within r := by
  obtain ⟨r, hr, hw⟩ := @Hand.whileLoop_within (fun s => s.peek ≠ '"' && !s.isAtEnd)
    (fun s => Scanner.advance (if s.peek = '\n' then { s with line := s.line + 1 } else s))
    (fun s h => by
      simp only [Bool.and_eq_true, Bool.not_eq_true'] at h
      exact h.2)
    (fun s => by by_cases hc : s.peek = '\n' <;> simp [hc, Scanner.advance])
    (Hand.loopFuel s) s hs (Nat.lt_succ_self _)
  rw [Hand.string, hr]
  by_cases he : r.isAtEnd = true
  · simp only [he, if_true]
    exact ⟨_, rfl, hw⟩
  · simp only [he, if_false]
    exact ⟨_, rfl, (hw.advance (by simpa using he)).addTokenLiteral _ _⟩

/-- The method `number` returns and leaves the cursor within the source. -/
theorem Hand.number_within (s : Scanner) (hs : s.current ≤ s.source.length) :
    ∃ r, Hand.number s = some r ∧ s.Within r := by
  obtain ⟨r1, hr1, hw1⟩ := Hand.digits_within s hs
  rw [Hand.number, hr1]
  by_cases hdot : r1.peek = '.' ∧ Hand.isDigit (Hand.peekNext r1) = true
  · have hne : r1.isAtEnd = false := by
      by_contra he
      have hp := Scanner.peek_atEnd (by simpa using he : r1.isAtEnd = true)
      rw [hp] at hdot
      exact absurd hdot.1 (by decide)
    have hadv := hw1.advance hne
    obtain ⟨r2, hr2, hw2⟩ := Hand.digits_within r1.advance hadv.2.2
    simp only [hdot, and_self, if_true, hr2]
    exact ⟨_, rfl, (hadv.trans hw2).addTokenLiteral _ _⟩
  · simp only [hdot, if_false]
    exact ⟨_, rfl, hw1.addTokenLiteral _ _⟩

/-- The method `identifier` returns and leaves the cursor within the source. -/
theorem Hand.identifier_within (s : Scanner) (hs : s.current ≤ s.source.length) :
    ∃ r, Hand.identifier s = some r ∧ s.Within r := by
  obtain ⟨r, hr, hw⟩ := @Hand.whileLoop_within (fun s => Hand.isAlphaNumeric s.peek)
    Scanner.advance (fun _ h => Hand.isAlphaNumeric_peek h) (fun _ => ⟨rfl, rfl⟩)
    (Hand.loopFuel s) s hs (Nat.lt_succ_self _)
  rw [Hand.identifier, hr]
  exact ⟨_, rfl, hw.addToken _⟩

/-- The comment loop returns and leaves the cursor within the source. -/
theorem Hand.comment_within (s : Scanner) (hs : s.current ≤ s.source.length) :
    ∃ r, Hand.whileLoop (fun s => s.peek ≠ '\n' && !s.isAtEnd) Scanner.advance
      (Hand.loopFuel s) s = some r ∧ s.Within r :=
  @Hand.whileLoop_within (fun s => s.peek ≠ '\n' && !s.isAtEnd) Scanner.advance
    (fun s h => by
      simp only [Bool.and_eq_true, Bool.not_eq_true'] at h
      exact h.2)
    (fun _ => ⟨rfl, rfl⟩) _ s hs (Nat.lt_succ_self _)

/-- A call of the hand-written `scanToken` made before the end of input
returns, and leaves the cursor behind the character it has taken and within
the source. -/
theorem Hand.scanToken_within (s : Scanner) (hs : s.current < s.source.length) :
    ∃ r, Hand.scanToken s = some r ∧ s.advance.Within r := by
  have ha : s.advance.current ≤ s.advance.source.length := hs
  have h0 := Scanner.Within.refl ha
  have hm := fun e => Hand.matchChar_within s.advance e ha
  have hc := Hand.comment_within (Hand.matchChar s.advance '/').2 (hm '/').2.2
  suffices hP : Hand.Returns s.advance (Hand.scanToken s) from hP
  unfold Hand.scanToken
  iterate 10 refine ite_cases (P := Hand.Returns s.advance) (fun _ => ⟨_, rfl, h0⟩) (fun _ => ?_)
  iterate 4 refine ite_cases (P := Hand.Returns s.advance) (fun _ => ⟨_, rfl, hm _⟩) (fun _ => ?_)
  refine ite_cases (P := Hand.Returns s.advance) (fun _ => ?_) (fun _ => ?_)
  · refine ite_cases (P := Hand.Returns s.advance) (fun _ => ?_) (fun _ => ⟨_, rfl, hm _⟩)
    exact hc.elim fun r hr => ⟨r, hr.1, (hm '/').trans hr.2⟩
  iterate 2 refine ite_cases (P := Hand.Returns s.advance) (fun _ => ⟨_, rfl, h0⟩) (fun _ => ?_)
  refine ite_cases (P := Hand.Returns s.advance) (fun _ => Hand.string_within _ ha) (fun _ => ?_)
  refine ite_cases (P := Hand.Returns s.advance) (fun _ => Hand.number_within _ ha) (fun _ => ?_)
  exact ite_cases (P := Hand.Returns s.advance) (fun _ => Hand.identifier_within _ ha)
    (fun _ => ⟨_, rfl, h0⟩)

/-- The loop of the hand-written `scanTokens` returns once its fuel covers the
unread characters. -/
theorem hand_scanTokensLoop_returns (n : Nat) (s : Scanner) (hs : s.current ≤ s.source.length)
    (hn : s.source.length - s.current ≤ n) (fuel : Nat) (hf : n ≤ fuel) :
    ∃ r, Hand.scanTokensLoop fuel s = some r := by
  induction n generalizing s fuel with
  | zero =>
    have he : s.isAtEnd = true := by simp only [Scanner.isAtEnd, decide_eq_true_eq]; omega
    cases fuel <;> exact ⟨s, by simp [Hand.scanTokensLoop, he]⟩
  | succ n ih =>
    obtain ⟨fuel, rfl⟩ : ∃ k, fuel = k + 1 := ⟨fuel - 1, by omega⟩
    by_cases he : s.isAtEnd = true
    · exact ⟨s, by simp [Hand.scanTokensLoop, he]⟩
    · have hlt : s.current < s.source.length := Scanner.lt_of_not_atEnd (by simpa using he)
      obtain ⟨r, hr, hw⟩ := Hand.scanToken_within { s with start := s.current } hlt
      have h1 : r.source = s.source := hw.1
      have h2 : s.current + 1 ≤ r.current := hw.2.1
      have h3 : r.current ≤ r.source.length := hw.2.2
      obtain ⟨t, ht⟩ := ih r h3 (by rw [h1] at h3 ⊢; omega) fuel (by omega)
      exact ⟨t, by simp only [Hand.scanTokensLoop, he, hr]; simpa using ht⟩

/-- C23: the hand-written `Scanner::scanTokens` returns on every buffer shorter
than `INT_MAX` (where the `int` cursor of the source does not overflow), with
one unit of fuel per character: each call of `Scanner::scanToken` made while
`current` is below the source length returns with `current` strictly larger, at
most the source length and so below `INT_MAX`, and from a cursor within the
source the methods `string`, `number`, `identifier`, `match` and the comment
loop return with a cursor that has not moved back and is still at most the
source length. -/
theorem hand_scanTokens_terminates (source : List Char) (hlen : source.length < INT_MAX)
    (fuel : Nat) (hf : source.length ≤ fuel) :
    (∃ toks, Hand.scanTokens fuel source = some toks) ∧
    (∀ s : Scanner, s.source = source → s.current < source.length →
      ∃ r, Hand.scanToken s = some r ∧ r.source = source ∧
        s.current < r.current ∧ r.current ≤ source.length ∧ r.current < INT_MAX) ∧
    (∀ s : Scanner, s.source = source → s.current ≤ source.length →
      (∃ r, Hand.string s = some r ∧ s.Within r) ∧
      (∃ r, Hand.number s = some r ∧ s.Within r) ∧
      (∃ r, Hand.identifier s = some r ∧ s.Within r) ∧
      (∀ expected, s.Within (Hand.matchChar s expected).2) ∧
      (∃ r, Hand.whileLoop (fun s => s.peek ≠ '\n' && !s.isAtEnd) Scanner.advance
        (Hand.loopFuel s) s = some r ∧ s.Within r)) := by
  refine ⟨?_, ?_, ?_⟩
  · obtain ⟨r, hr⟩ := hand_scanTokensLoop_returns source.length (Scanner.init source)
      (Nat.zero_le _) (Nat.sub_le _ _) fuel hf
    exact ⟨_, by simp only [Hand.scanTokens, Hand.scanTokensRun, hr]; rfl⟩
  · intro s h1 h2
    subst h1
    obtain ⟨r, hr, hw⟩ := Hand.scanToken_within s h2
    have h3 : r.source = s.source := hw.1
    have h4 : s.current + 1 ≤ r.current := hw.2.1
    have h5 : r.current ≤ r.source.length := hw.2.2
    exact ⟨r, hr, h3, h4, h3 ▸ h5, lt_of_le_of_lt (h3 ▸ h5) hlen⟩
  · intro s h1 h2
    subst h1
    exact ⟨Hand.string_within s h2, Hand.number_within s h2, Hand.identifier_within s h2,
      fun e => Hand.matchChar_within s e h2, Hand.comment_within s h2⟩

theorem hand_scanTokens_terminates_witness :
    ∃ toks, Hand.scanTokens 14 "x = \"a\n\" // 1.".toList = some toks :=
  (hand_scanTokens_terminates "x = \"a\n\" // 1.".toList (by decide) 14 (by decide)).1


end Clox
